import Mathlib

/-! # Copy-Bot: reconciliation core (ALO and IOC engines)

Shallow embedding of `ws/ioc_engine.go`, `ws/alo_engine.go`, `ws/manager.go`,
`ws/connection.go`, `models/webdata2.go` and `models/ring_buffer.go`.

Conventions of the embedding
* A Go `float64` value is the rational number (`ℚ`) that it stands for. Every
  `float64` product, quotient, sum and difference of the source is the exact operation
  followed by `fl`, the rounding to the nearest binary64 number (53 significant binary
  digits, ties to even); `math.Round` (nearest integer, halves away from zero),
  `math.Abs` and the comparisons are exact on `float64` values. A product is rounded
  before it enters a sum (no fused multiply-add, as on amd64). Overflow, subnormal
  numbers, infinities and NaN are outside the model. Where the binary rounding of a
  decimal input such as 0.2 matters, the input is written `fl (1 / 5)`, the `float64`
  that the literal denotes.
* Price snapping (`Manager.SnapPrice`, with `toFiveSignificant`) is kept in decimal
  arithmetic, without the binary rounding.
* Go maps with string keys are association lists with one entry per key
  (`GoMap`); `m[k]` on a missing key gives the zero value of the value type.
* Frames (`*WebData2Message`) live in a heap, a list of frames addressed by
  position; a pointer is `Option Ptr`, `none` being `nil`.
* A Go panic (nil dereference) is the result `none` of an `Option`-valued function.
* Logging has no effect on the results and is left out; `time.Now()` values stored
  in `UsedPasteWd2` are never read, so only the key set is kept.
* A loop that the source does not bound is run for at most `fuel` turns; the result
  `none` says that the loop has not ended after `fuel` turns.
* Go `int64` arithmetic that can overflow is integer arithmetic modulo 2^64, read in
  two's complement.
-/

namespace CopyBot

/-! ## Numeric helpers -/

/-- Go `math.Round`: nearest integer, halves rounded away from zero. The result of
`math.Round` on a `float64` is a `float64`, so it is not rounded again. -/
def mathRound (x : ℚ) : ℚ :=
  if 0 ≤ x then ((⌊x + 1 / 2⌋ : ℤ) : ℚ) else -((⌊-x + 1 / 2⌋ : ℤ) : ℚ)

/-- Rounding to the nearest integer with ties to the even one, the rounding of IEEE 754
arithmetic and of the decimal digits in Go's `strconv.FormatFloat`. -/
def roundHalfEven (x : ℚ) : ℤ :=
  if x - ⌊x⌋ < 1 / 2 then ⌊x⌋
  else if x - ⌊x⌋ > 1 / 2 then ⌊x⌋ + 1
  else if ⌊x⌋ % 2 = 0 then ⌊x⌋ else ⌊x⌋ + 1

/-- The position of the leading binary digit of `n`, the integer part of its logarithm to
base 2, for a fuel of at least `n`. -/
def log2Fuel : Nat → Nat → Nat
  | 0, _ => 0
  | fuel + 1, n => if 2 ≤ n then log2Fuel fuel (n / 2) + 1 else 0

/-- The binary exponent of a rational other than 0: the `e` with `2^e ≤ |x| < 2^(e+1)`. -/
def binExp (x : ℚ) : ℤ :=
  let e0 : ℤ := (log2Fuel x.num.natAbs x.num.natAbs : ℤ) - (log2Fuel x.den x.den : ℤ)
  if (2 : ℚ) ^ e0 ≤ |x| then e0 else e0 - 1

/-- The `float64` nearest to `x`: `x` rounded to 53 significant binary digits, ties to
even (IEEE 754 binary64, round-to-nearest-even). Every `float64` operation of the source
is the exact operation followed by `fl`. The exponent range is not bounded: overflow to
infinity and the subnormal numbers are outside the model. -/
def fl (x : ℚ) : ℚ :=
  if x = 0 then 0
  else
    let u : ℚ := (2 : ℚ) ^ (binExp x - 52)
    (roundHalfEven (x / u) : ℚ) * u

/-- Go `math.Pow10` for the exponents from -22 to 22, where it is the `float64` nearest
to the power of ten. -/
def Pow10 (n : Int) : ℚ := fl ((10 : ℚ) ^ n)

/-- `RoundToPrecision` of `ws/manager.go`: `math.Round(value*scale) / scale` with
`scale := math.Pow10(precision)`, the product and the quotient in `float64`. -/
def RoundToPrecision (value : ℚ) (precision : Int) : ℚ :=
  let scale := Pow10 precision
  let refined := fl (mathRound (fl (value * scale)) / scale)
  refined

/-- Rounding to `d` decimals in exact arithmetic, `math.Round(x*10^d) / 10^d` without
the rounding of the product and of the quotient. -/
def roundDecimals (x : ℚ) (d : Int) : ℚ :=
  mathRound (x * (10 : ℚ) ^ d) / (10 : ℚ) ^ d

/-- `Round2` of `ws/manager.go`. -/
def Round2 (value : ℚ) : ℚ := RoundToPrecision value 2

/-- Modelled from the spec: `hl.SizeToFloat` belongs to the venue client library and is
not part of the repository sources; the spec describes it as rounding a size to the
coin's size-decimals, taken here as the rounding of `RoundToPrecision`. -/
def SizeToFloat (x : ℚ) (szDecimals : Int) : ℚ := RoundToPrecision x szDecimals

/-- The package variable `minNotionalDiff` of `ws/ioc_engine.go`. -/
def minNotionalDiff : ℚ := 20

/-- Library constant `hl.TifFrontendMarket`. -/
def TifFrontendMarket : String := "FrontendMarket"

/-- Library constant `hl.TifAlo`. -/
def TifAlo : String := "Alo"

/-! ## Go maps -/

/-- A Go `map[string]V`, as an association list holding one entry per key. -/
abbrev GoMap (V : Type) := List (String × V)

namespace GoMap

/-- The comma-ok lookup `v, ok := m[k]`. -/
def lookup {V : Type} : GoMap V → String → Option V
  | [], _ => none
  | (k', v) :: t, k => if k' = k then some v else lookup t k

/-- Key presence, the `ok` of `_, ok := m[k]`. -/
def contains {V : Type} (m : GoMap V) (k : String) : Bool := (lookup m k).isSome

/-- The plain index expression `m[k]`, the zero value when the key is missing. -/
def index {V : Type} [Inhabited V] (m : GoMap V) (k : String) : V := (lookup m k).getD default

/-- The assignment `m[k] = v`. -/
def put {V : Type} : GoMap V → String → V → GoMap V
  | [], k, v => [(k, v)]
  | (k', v') :: t, k, v => if k' = k then (k, v) :: t else (k', v') :: put t k v

/-- The builtin `len(m)`. -/
def len {V : Type} (m : GoMap V) : Nat := m.length

end GoMap

/-! ## Data model -/

/-- The library type `hl.Order`, with the fields the engines read or write. -/
structure Order where
  Coin : String := ""
  Side : String := ""
  LimitPx : ℚ := 0
  Sz : ℚ := 0
  OrigSz : ℚ := 0
  Oid : Int := 0
  Timestamp : Int := 0
  OrderType : String := ""
  Tif : String := ""
  Cloid : String := ""
  ReduceOnly : Bool := false
deriving DecidableEq, Inhabited

/-- The type `models.Position`. -/
structure Position where
  Coin : String := ""
  Szi : ℚ := 0
  EntryPx : ℚ := 0
  PositionValue : ℚ := 0
  UnrealizedPnl : ℚ := 0
  MarginUsed : ℚ := 0
deriving DecidableEq, Inhabited

/-- The type `models.AssetCtx`, of which the engines read the mid price. -/
structure AssetCtx where
  MidPx : ℚ := 0
  MarkPx : ℚ := 0
  OraclePx : ℚ := 0
deriving DecidableEq, Inhabited

/-- The library type `hl.AssetInfo`. -/
structure AssetInfo where
  SzDecimals : Int := 0
  AssetID : Int := 0
deriving DecidableEq, Inhabited

/-- The type `models.AssetDetails`: leverage and trade limits of one (user, coin) pair. -/
structure AssetDetails where
  LeverageValue : ℚ := 0
  MaxTradeAmounts : List ℚ := []
  AvailableToTrade : List ℚ := []
deriving DecidableEq, Inhabited

/-- A heap address of a frame. -/
abbrev Ptr := Nat

/-- The type `models.WebData2Message`: one account snapshot with its chain links.
`Time` is `Data.ClearinghouseState.Time`, `AccountValue` is
`Data.ClearinghouseState.MarginSummary.AccountValue`. -/
structure WebData2Message where
  User : String := ""
  ServerTime : Int := 0
  Time : Int := 0
  AccountValue : ℚ := 0
  AssetPositions : List Position := []
  OpenOrders : List Order := []
  AssetCtxs : List AssetCtx := []
  prev : Option Ptr := none
  next : Option Ptr := none
  other : Option Ptr := none
  n : Int := 0
deriving DecidableEq, Inhabited

/-- The frames allocated so far; a pointer is a position in this list. -/
abbrev Heap := List WebData2Message

/-- Dereference of a non-nil frame pointer. -/
def Heap.get (h : Heap) (p : Ptr) : WebData2Message := h.getD p default

/-- The fields of `ws.Manager` that the reconcilers read or write. `UsedPasteWd2` and
`UsedCopyAloCreates` keep the key sets of the Go maps. The channels `CopyWd2Chan` and
`PasteWd2Chan` are the queues of the frame pointers sent so far, oldest first.
`lastCopyWd2ChTime` and `lastPasteWd2ChTime` are `none` for the zero `time.Time` and
`some ms` for `time.UnixMilli(ms)`. -/
structure Manager where
  CopyAddress : String := ""
  PasteAddress : String := ""
  UsedPasteWd2 : List Int := []
  UsedCopyAloCreates : List Int := []
  CopyWd2 : Option Ptr := none
  PasteWd2 : Option Ptr := none
  AllowedSymbols : List String := []
  MetaMap : GoMap AssetInfo := []
  AssetCtxStore : GoMap AssetCtx := []
  CopyWebSocketReady : Bool := false
  PasteWebSocketReady : Bool := false
  CopyAssetDataReady : Bool := false
  PasteAssetDataReady : Bool := false
  AssetSubscriptionCount : GoMap Int := []
  CoinRiskMap : GoMap ℚ := []
  CopyWd2Chan : List Ptr := []
  PasteWd2Chan : List Ptr := []
  lastCopyWd2ChTime : Option Int := none
  lastPasteWd2ChTime : Option Int := none
  AssetDetailsStore : GoMap AssetDetails := []
deriving DecidableEq, Inhabited

/-! ## Frame views (`models/webdata2.go`) -/

/-- `WebData2Message.Positions`. -/
def WebData2Message.Positions (msg : WebData2Message) : List Position := msg.AssetPositions

/-- `WebData2Message.Orders`. -/
def WebData2Message.Orders (msg : WebData2Message) : List Order := msg.OpenOrders

/-- `WebData2Message.OrdersByCloid`: orders keyed by client-id, empty ids skipped. -/
def WebData2Message.OrdersByCloid (wd2 : WebData2Message) : GoMap Order :=
  wd2.Orders.foldl (fun r o => if o.Cloid ≠ "" then GoMap.put r o.Cloid o else r) []

/-- `WebData2Message.PositionsByCoin`. -/
def WebData2Message.PositionsByCoin (wd2 : WebData2Message) : GoMap Position :=
  wd2.Positions.foldl (fun r p => GoMap.put r p.Coin p) []

/-- `WebData2Message.NewAloOrders`: client-ids of the frame that its predecessor lacks,
for coins that are keys of the risk map. -/
def WebData2Message.NewAloOrders (h : Heap) (wd2 : WebData2Message) (coinRiskMap : GoMap ℚ) :
    GoMap Order :=
  match wd2.prev with
  | none => []
  | some p =>
    let nextOrders := wd2.OrdersByCloid
    let prevOrders := (h.get p).OrdersByCloid
    nextOrders.foldl
      (fun newOrders e =>
        if GoMap.contains coinRiskMap e.2.Coin then
          if ¬ GoMap.contains prevOrders e.1 then GoMap.put newOrders e.1 e.2 else newOrders
        else newOrders)
      []

/-- `WebData2Message.CancelledAloOrders`: client-ids of the predecessor that the frame
lacks, for coins that are keys of the risk map. -/
def WebData2Message.CancelledAloOrders (h : Heap) (wd2 : WebData2Message)
    (coinRiskMap : GoMap ℚ) : GoMap Order :=
  match wd2.prev with
  | none => []
  | some p =>
    let prevOrders := (h.get p).OrdersByCloid
    let currentOrders := wd2.OrdersByCloid
    prevOrders.foldl
      (fun cancelledOrders e =>
        if GoMap.contains coinRiskMap e.2.Coin then
          if ¬ GoMap.contains currentOrders e.1 then GoMap.put cancelledOrders e.1 e.2
          else cancelledOrders
        else cancelledOrders)
      []

/-! ## Manager helpers (`ws/manager.go`) -/

/-- `Manager.IsReady`. -/
def Manager.IsReady (manager : Manager) : Bool :=
  let copySideReady := manager.CopyWebSocketReady && manager.CopyAssetDataReady
  let pasteSideReady := manager.PasteWebSocketReady && manager.PasteAssetDataReady
  copySideReady && pasteSideReady

/-- `Manager.GetMidPrice`: the stored mid price, 0 when the coin has no context. -/
def Manager.GetMidPrice (manager : Manager) (symbol : String) : ℚ :=
  match GoMap.lookup manager.AssetCtxStore symbol with
  | none => 0
  | some assetContextValue => assetContextValue.MidPx

/-- `Manager.Decimals`: the size-decimals of the coin, 2 when it has no metadata. -/
def Manager.Decimals (manager : Manager) (symbol : String) : Int :=
  match GoMap.lookup manager.MetaMap symbol with
  | some assetDetails => assetDetails.SzDecimals
  | none => 2

/-- `WebData2Message.AccountValue`. -/
def WebData2Message.accountValue (msg : WebData2Message) : ℚ := msg.AccountValue

/-- `Manager.deriveScaleFactor`. -/
def Manager.deriveScaleFactor (h : Heap) (manager : Manager) (symbol : String) (_side : String) :
    ℚ :=
  match manager.CopyWd2, manager.PasteWd2 with
  | some cp, some pp =>
    let copyAccountValue := (h.get cp).accountValue
    let pasteAccountValue := (h.get pp).accountValue
    if copyAccountValue = 0 ∨ pasteAccountValue = 0 then 0
    else
      let virtualLeverage := GoMap.index manager.CoinRiskMap symbol
      let pasteScaleFactor := pasteAccountValue
      let copyScaleFactor := copyAccountValue
      let scaleFactor := fl (pasteScaleFactor / copyScaleFactor)
      fl (scaleFactor * virtualLeverage)
  | _, _ => 0

/-- `Manager.scaleSize`: the signed size times the scale factor, rounded to the coin's
size-decimals. -/
def Manager.scaleSize (h : Heap) (manager : Manager) (order : Order) : ℚ :=
  let scaleFactor := manager.deriveScaleFactor h order.Coin order.Side
  RoundToPrecision (fl (order.Sz * scaleFactor)) (manager.Decimals order.Coin)

/-- Modelled from the spec: `hl.IntToHex` belongs to the venue client library; the spec
describes the client-id as the hex encoding of the integer, taken here as `0x` followed
by the lower-case hexadecimal digits. -/
def IntToHex (v : Int) : String :=
  (if v < 0 then "-0x" else "0x") ++ String.mk (Nat.toDigits 16 v.natAbs)

/-- Go `strconv.Atoi` with the error dropped: 0 on a syntax error, the value clamped to
the 64-bit range otherwise. -/
def Atoi (s : String) : Int :=
  match s.toInt? with
  | none => 0
  | some v => max (-(2 : Int) ^ 63) (min v ((2 : Int) ^ 63 - 1))

/-- `Manager.NewPasteIocCloid`. -/
def Manager.NewPasteIocCloid (_m : Manager) (uniqueId : Int) : String :=
  let pasteCloidVal := Atoi ("1337" ++ toString uniqueId)
  IntToHex pasteCloidVal

/-! ## IOC reconciler (`ws/ioc_engine.go`) -/

/-- `sideSign`. -/
def sideSign (side : String) : ℚ := if side = "B" then 1 else -1

/-- The outcome of the `switch` of `GetIocReconcileOrders` (lines 297-350): the side,
the size and the reduce-only flag, or `none` where the source executes `continue`.
A switch in which no case matches leaves the side empty. -/
def iocSwitch (copySzi pasteSzi copyNotional pasteNotional diffSz : ℚ) :
    Option (String × ℚ × Bool) :=
  if copyNotional > minNotionalDiff ∧ pasteNotional < minNotionalDiff then
    some (if copySzi < 0 then "A" else "B", |copySzi|, false)
  else if copyNotional < minNotionalDiff ∧ pasteNotional > minNotionalDiff then
    some (if pasteSzi < 0 then "B" else "A", |pasteSzi|, true)
  else if copySzi > 0 ∧ pasteSzi > 0 then
    if copyNotional > fl (pasteNotional - minNotionalDiff) then some ("B", diffSz, false)
    else if copyNotional < fl (pasteNotional + minNotionalDiff) then some ("A", diffSz, true)
    else none
  else if copySzi < 0 ∧ pasteSzi < 0 then
    if copyNotional > fl (pasteNotional - minNotionalDiff) then some ("A", diffSz, false)
    else if copyNotional < fl (pasteNotional + minNotionalDiff) then some ("B", diffSz, true)
    else none
  else if copySzi > 0 ∧ pasteSzi < 0 then
    some ("B", fl (|pasteSzi| + |copySzi|), false)
  else if copySzi < 0 ∧ pasteSzi > 0 then
    some ("A", fl (|pasteSzi| + |copySzi|), false)
  else some ("", diffSz, false)

/-- The scaled leader size of `GetIocReconcileOrders` (lines 260-272). -/
def iocCopySzi (h : Heap) (manager : Manager) (copyPosMap : GoMap Position) (scale : Bool)
    (symbol : String) : ℚ :=
  let copyPos := GoMap.index copyPosMap symbol
  let sideOfCopy := if copyPos.Szi < 0 then "A" else "B"
  if scale then manager.scaleSize h { Coin := symbol, Side := sideOfCopy, Sz := copyPos.Szi }
  else copyPos.Szi

/-- The body of the per-coin loop of `GetIocReconcileOrders` up to the assignment of
side and size (lines 249-357): the order built for `symbol`, or `none` where the source
executes `continue`. `copyTime` is `manager.CopyWd2.Data.ClearinghouseState.Time`. -/
def iocBaseOrder (h : Heap) (manager : Manager) (copyTime : Int)
    (copyPosMap pastePosMap : GoMap Position) (scale : Bool) (symbol : String) : Option Order :=
  let copyPos := GoMap.index copyPosMap symbol
  let pastePos := GoMap.index pastePosMap symbol
  if copyPos.PositionValue < minNotionalDiff ∧ pastePos.PositionValue < minNotionalDiff then none
  else
    let midPrice := manager.GetMidPrice symbol
    if midPrice ≤ 0 then none
    else
      let decimals := manager.Decimals symbol
      let copySzi := iocCopySzi h manager copyPosMap scale symbol
      let pasteSzi := pastePos.Szi
      let copyNotional := RoundToPrecision (fl (|copySzi| * midPrice)) 2
      let pasteNotional := RoundToPrecision (fl (|pasteSzi| * midPrice)) 2
      let diffSz := SizeToFloat |fl (pasteSzi - copySzi)| decimals
      let notionalDiff := RoundToPrecision (fl (diffSz * midPrice)) 2
      if notionalDiff < minNotionalDiff then none
      else
        match iocSwitch copySzi pasteSzi copyNotional pasteNotional diffSz with
        | none => none
        | some (finalSide, finalDiffSz, reduceOnly) =>
          if finalSide = "" ∨ finalDiffSz < fl (1 / 1000000000) then none
          else
            some { Coin := symbol, Tif := TifFrontendMarket,
                   Cloid := manager.NewPasteIocCloid copyTime,
                   ReduceOnly := reduceOnly, Side := finalSide, Sz := finalDiffSz }

/-- The per-coin loop of `GetIocReconcileOrders` (lines 248-365), threading the orders
collected so far and the key set of `UsedPasteWd2`. The result is `none` when an order is
ready while `manager.PasteWd2` is nil (nil dereference at line 358). -/
def iocLoop (h : Heap) (manager : Manager) (copyTime : Int)
    (copyPosMap pastePosMap : GoMap Position) (scale : Bool) :
    List String → List Order → List Int → Option (List Order × List Int)
  | [], newOrders, used => some (newOrders, used)
  | symbol :: rest, newOrders, used =>
    match iocBaseOrder h manager copyTime copyPosMap pastePosMap scale symbol with
    | none => iocLoop h manager copyTime copyPosMap pastePosMap scale rest newOrders used
    | some baseOrder =>
      match manager.PasteWd2 with
      | none => none
      | some pp =>
        let pasteWd2Time := (h.get pp).Time
        if pasteWd2Time ∈ used then
          iocLoop h manager copyTime copyPosMap pastePosMap scale rest newOrders used
        else
          iocLoop h manager copyTime copyPosMap pastePosMap scale rest
            (newOrders ++ [baseOrder]) (pasteWd2Time :: used)

/-- `Manager.GetIocReconcileOrders`: the orders of one snapshot-diff pass together with
the manager after the pass (its `UsedPasteWd2` may have grown). The result is `none`
when `manager.CopyWd2` is nil (nil dereference in `PositionsToKey`, line 240). -/
def Manager.GetIocReconcileOrders (h : Heap) (manager : Manager)
    (copyPosMap pastePosMap : GoMap Position) (scale : Bool) (_bypassCheck : Bool) :
    Option (List Order × Manager) :=
  match manager.CopyWd2 with
  | none => none
  | some cp =>
    if GoMap.len copyPosMap = 0 ∧ GoMap.len pastePosMap = 0 then some ([], manager)
    else
      match iocLoop h manager (h.get cp).Time copyPosMap pastePosMap scale
          manager.AllowedSymbols [] manager.UsedPasteWd2 with
      | none => none
      | some (newOrders, used) => some (newOrders, { manager with UsedPasteWd2 := used })

/-- The projection update of `handleIocReconcile` (lines 193-197): every order adds
`sideSign(side) * size` to the projected position of its coin. -/
def applyIocOrders (pastePositionsModelled : GoMap Position) (orders : List Order) :
    GoMap Position :=
  orders.foldl
    (fun positions order =>
      let position := GoMap.index positions order.Coin
      GoMap.put positions order.Coin
        { position with Szi := fl (position.Szi + fl (sideSign order.Side * order.Sz)) })
    pastePositionsModelled

/-- The result of `IocEngine.handleIocReconcile`: the manager and the projected follower
positions after the pass, and the orders handed to `SendIocOrders`. -/
structure IocPassResult where
  manager : Manager
  positions : GoMap Position
  sent : List Order
deriving DecidableEq

/-- `IocEngine.handleIocReconcile`, for the leader frame `copyWd2` and the projected
follower positions (a Go map, updated in place). -/
def handleIocReconcile (h : Heap) (manager : Manager) (copyWd2 : WebData2Message)
    (pastePositionsModelled : GoMap Position) : Option IocPassResult :=
  if ¬ manager.IsReady then
    some { manager := manager, positions := pastePositionsModelled, sent := [] }
  else
    match manager.GetIocReconcileOrders h copyWd2.PositionsByCoin pastePositionsModelled true false with
    | none => none
    | some (orders, manager1) =>
      some { manager := manager1, positions := applyIocOrders pastePositionsModelled orders,
             sent := orders }

/-- One call of `GetIocReconcileOrders` in a session: the heap and the manager at the
time of the call and the arguments. Between two calls every field of the manager may
have changed except `UsedPasteWd2`, which only `GetIocReconcileOrders` writes. -/
structure IocPassInput where
  h : Heap
  manager : Manager
  copyPosMap : GoMap Position
  pastePosMap : GoMap Position
  scale : Bool
  bypassCheck : Bool

/-- One pass started with the key set `used` of `UsedPasteWd2`: the orders and the key
set after the pass. -/
def iocPass (used : List Int) (i : IocPassInput) : Option (List Order × List Int) :=
  match Manager.GetIocReconcileOrders i.h { i.manager with UsedPasteWd2 := used }
      i.copyPosMap i.pastePosMap i.scale i.bypassCheck with
  | none => none
  | some (orders, manager1) => some (orders, manager1.UsedPasteWd2)

/-- A run of successive passes, threading `UsedPasteWd2`; `none` when a pass panics. -/
def iocPasses : List Int → List IocPassInput → Option (List Int)
  | used, [] => some used
  | used, i :: rest =>
    match iocPass used i with
    | none => none
    | some (_, used1) => iocPasses used1 rest

/-- The table of the IOC reconciler as C2 (as amended) words it: the side, the size and
the reduce-only flag of the first matching row, for the scaled leader size `l`, the
follower size `f`, their notionals `c` and `p`, the rounded size difference `diff` and
the minimum notional `N`. The open row takes the side of `l` (buy when `l` is positive,
else sell) and the close row the side against `f`; `p - N` and `|f| + |l|` are `float64`
operations. -/
def specTable (N l f c p diff : ℚ) : Option (String × ℚ × Bool) :=
  if c > N ∧ p < N then some (if l > 0 then "B" else "A", |l|, false)
  else if c < N ∧ p > N then some (if f > 0 then "A" else "B", |f|, true)
  else if l > 0 ∧ f > 0 then
    (if c > fl (p - N) then some ("B", diff, false) else some ("A", diff, true))
  else if l < 0 ∧ f < 0 then
    (if c > fl (p - N) then some ("A", diff, false) else some ("B", diff, true))
  else if l > 0 ∧ f < 0 then some ("B", fl (|f| + |l|), false)
  else if l < 0 ∧ f > 0 then some ("A", fl (|f| + |l|), false)
  else none

/-! ## ALO reconciler (`ws/alo_engine.go`) -/

/-- The state of `ws.AloEngine`. -/
structure AloEngine where
  enabled : Bool := true
  createdCloids : GoMap Bool := []
  canceledCloids : GoMap Bool := []
  copyOpenOrders : GoMap Order := []
  pasteOpenOrders : Option (GoMap Order) := some []
deriving DecidableEq, Inhabited

/-- The first loop of `RunAloReconcile` (lines 81-87): the raw creates not yet in
`createdCloids` are kept and recorded. -/
def aloCreateLoop (toCreateRaw : GoMap Order) (createdCloids : GoMap Bool) :
    GoMap Order × GoMap Bool :=
  toCreateRaw.foldl
    (fun st e =>
      if ¬ GoMap.contains st.2 e.1 then (GoMap.put st.1 e.1 e.2, GoMap.put st.2 e.1 true)
      else st)
    ([], createdCloids)

/-- The second loop of `RunAloReconcile` (lines 91-96): follower orders whose client-id
the leader's latest frame lacks are added to the cancels. -/
def aloOrphanLoop (pasteOrders copyOpenOrders toCancel : GoMap Order) : GoMap Order :=
  pasteOrders.foldl
    (fun tc e =>
      if ¬ GoMap.contains copyOpenOrders e.2.Cloid then GoMap.put tc e.2.Cloid e.2 else tc)
    toCancel

/-- `AloEngine.RunAloReconcile`: the create map, the cancel map and the engine after the
pass. The result is `none` when `manager.CopyWd2` or `manager.PasteWd2` is nil (nil
dereference). -/
def RunAloReconcile (h : Heap) (engine : AloEngine) (manager : Manager) :
    Option (GoMap Order × GoMap Order × AloEngine) :=
  match manager.CopyWd2 with
  | none => none
  | some cp =>
    let copyWd2 := h.get cp
    let toCreateRaw := copyWd2.NewAloOrders h manager.CoinRiskMap
    let created := aloCreateLoop toCreateRaw engine.createdCloids
    let toCancel := copyWd2.CancelledAloOrders h manager.CoinRiskMap
    match manager.PasteWd2 with
    | none => none
    | some pp =>
      some (created.1, aloOrphanLoop (h.get pp).OrdersByCloid copyWd2.OrdersByCloid toCancel,
            { engine with createdCloids := created.2 })

/-- A run of successive `RunAloReconcile` passes, each on the heap and manager of its
time, threading the engine; `none` when a pass panics. -/
def aloPasses : AloEngine → List (Heap × Manager) → Option AloEngine
  | engine, [] => some engine
  | engine, (h, manager) :: rest =>
    match RunAloReconcile h engine manager with
    | none => none
    | some (_, _, engine1) => aloPasses engine1 rest

/-- The enabled coins as the specification defines them: risk multiplier above 0 and the
coin in the asset registry. -/
def enabledCoin (manager : Manager) (coin : String) : Prop :=
  0 < GoMap.index manager.CoinRiskMap coin ∧ GoMap.contains manager.MetaMap coin = true

instance (manager : Manager) (coin : String) : Decidable (enabledCoin manager coin) := by
  unfold enabledCoin; infer_instance

/-! ## Concrete inputs -/

/-- A leader frame: +10 of X and +10 of Y, account value 100. -/
def exLeaderFrame : WebData2Message :=
  { User := "0xleader", ServerTime := 1000, Time := 1000, AccountValue := 100,
    AssetPositions := [{ Coin := "X", Szi := 10, PositionValue := 500 },
                       { Coin := "Y", Szi := 10, PositionValue := 500 }] }

/-- A follower frame with no position, account value 200. -/
def exFollowerFrame : WebData2Message :=
  { User := "0xfollower", ServerTime := 1000, Time := 1000, AccountValue := 200 }

/-- The heap holding the two frames. -/
def exHeap : Heap := [exLeaderFrame, exFollowerFrame]

/-- A ready manager with the two enabled coins X and Y (mid price 50, size-decimals 2,
risk multiplier 1), so that the scale factor is 200 / 100 x 1 = 2. -/
def exManager : Manager :=
  { CopyAddress := "0xleader", PasteAddress := "0xfollower",
    CopyWd2 := some 0, PasteWd2 := some 1,
    AllowedSymbols := ["X", "Y"],
    MetaMap := [("X", { SzDecimals := 2, AssetID := 0 }), ("Y", { SzDecimals := 2, AssetID := 1 })],
    AssetCtxStore := [("X", { MidPx := 50 }), ("Y", { MidPx := 50 })],
    CopyWebSocketReady := true, PasteWebSocketReady := true,
    CopyAssetDataReady := true, PasteAssetDataReady := true,
    CoinRiskMap := [("X", 1), ("Y", 1)] }

/-- The manager after a pass that consumed the follower frame of time 1000. -/
def exManagerUsed : Manager := { exManager with UsedPasteWd2 := [1000] }

/-- A projected follower position of `szi` in X (position value `value`). -/
def exFollowerX (szi value : ℚ) : GoMap Position :=
  [("X", { Coin := "X", Szi := szi, PositionValue := value })]

/-- The order of the flip scenario: leader scaled to +20, follower at -5. -/
def exFlipOrder : Order :=
  { Coin := "X", Side := "B", Sz := 25, Tif := TifFrontendMarket, Cloid := "0xcc0678",
    ReduceOnly := false }

/-- The 2-dp notional of the scaled leader size of a coin, the `copyNotional` of
`GetIocReconcileOrders` (line 275). -/
def copyNotionalOf (h : Heap) (manager : Manager) (copyPosMap : GoMap Position) (scale : Bool)
    (symbol : String) : ℚ :=
  RoundToPrecision
    (fl (|iocCopySzi h manager copyPosMap scale symbol| * manager.GetMidPrice symbol)) 2

/-- The 2-dp notional of the follower size of a coin, the `pasteNotional` of
`GetIocReconcileOrders` (line 276). -/
def pasteNotionalOf (manager : Manager) (pastePosMap : GoMap Position) (symbol : String) : ℚ :=
  RoundToPrecision (fl (|(GoMap.index pastePosMap symbol).Szi| * manager.GetMidPrice symbol)) 2

/-- The size difference rounded to size-decimals, the `diffSz` of `GetIocReconcileOrders`
(line 277). -/
def diffSzOf (h : Heap) (manager : Manager) (copyPosMap pastePosMap : GoMap Position)
    (scale : Bool) (symbol : String) : ℚ :=
  SizeToFloat
    |fl ((GoMap.index pastePosMap symbol).Szi - iocCopySzi h manager copyPosMap scale symbol)|
    (manager.Decimals symbol)

/-- The 2-dp notional of the size difference, the `notionalDiff` of
`GetIocReconcileOrders` (line 278). -/
def notionalDiffOf (h : Heap) (manager : Manager) (copyPosMap pastePosMap : GoMap Position)
    (scale : Bool) (symbol : String) : ℚ :=
  RoundToPrecision (fl (diffSzOf h manager copyPosMap pastePosMap scale symbol
    * manager.GetMidPrice symbol)) 2

/-- The result of the flip scenario (follower projected at -5 before the pass). -/
def exFlipResult : IocPassResult :=
  { manager := exManagerUsed,
    positions := [("X", { Coin := "X", Szi := 20, PositionValue := 250 })],
    sent := [exFlipOrder] }

/-- A pass on the example manager: leader positions of `exLeaderFrame`, follower
projection `pastePosMap`. -/
def exPass (pastePosMap : GoMap Position) : IocPassInput :=
  { h := exHeap, manager := exManager, copyPosMap := exLeaderFrame.PositionsByCoin,
    pastePosMap := pastePosMap, scale := true, bypassCheck := false }

/-- A later leader frame: +30 of X and +10 of Y. -/
def exLeaderFrame2 : WebData2Message :=
  { User := "0xleader", ServerTime := 2000, Time := 2000, AccountValue := 100,
    AssetPositions := [{ Coin := "X", Szi := 30, PositionValue := 1500 },
                       { Coin := "Y", Szi := 10, PositionValue := 500 }],
    prev := some 0 }

/-- A later pass: the leader head is `exLeaderFrame2`, the follower head is unchanged. -/
def exPass2 (pastePosMap : GoMap Position) : IocPassInput :=
  { h := [exLeaderFrame, exFollowerFrame, exLeaderFrame2],
    manager := { exManager with CopyWd2 := some 2 },
    copyPosMap := exLeaderFrame2.PositionsByCoin,
    pastePosMap := pastePosMap, scale := true, bypassCheck := false }

/-- A fold that stores some elements of a list in a Go map: the shape of the loops of
`OrdersByCloid`, `NewAloOrders`, `CancelledAloOrders` and of the orphan loop. -/
def putFold {α V : Type} (P : α → Prop) [DecidablePred P] (key : α → String) (val : α → V)
    (init : GoMap V) (os : List α) : GoMap V :=
  os.foldl (fun r o => if P o then GoMap.put r (key o) (val o) else r) init

/-- The leader's resting bid `0xabc` on X. -/
def exOrderAbc : Order :=
  { Coin := "X", Side := "B", LimitPx := 100, Sz := 1, Tif := "Alo", Cloid := "0xabc" }

/-- The leader's resting bid `0xzed` on Z. -/
def exOrderZed : Order :=
  { Coin := "Z", Side := "B", LimitPx := 100, Sz := 1, Tif := "Alo", Cloid := "0xzed" }

/-- The leader's resting bid `0xnew` on Z. -/
def exOrderNew : Order :=
  { Coin := "Z", Side := "B", LimitPx := 100, Sz := 1, Tif := "Alo", Cloid := "0xnew" }

/-- The follower's copy of `0xabc`, at twice the size. -/
def exFollowerAbc : Order :=
  { Coin := "X", Side := "B", LimitPx := 100, Sz := 2, Tif := "Alo", Cloid := "0xabc" }

/-- Leader frame C of the ALO scenarios: `0xabc` on X and `0xzed` on Z rest. -/
def exAloFrameC : WebData2Message :=
  { User := "0xleader", ServerTime := 1000, Time := 1000, AccountValue := 100,
    OpenOrders := [exOrderAbc, exOrderZed] }

/-- Leader frame D: both orders of frame C are gone and `0xnew` on Z rests. -/
def exAloFrameD : WebData2Message :=
  { User := "0xleader", ServerTime := 2000, Time := 2000, AccountValue := 100,
    OpenOrders := [exOrderNew], prev := some 0 }

/-- Leader frame E: the same open orders as frame D. -/
def exAloFrameE : WebData2Message :=
  { exAloFrameD with ServerTime := 3000, Time := 3000, prev := some 1 }

/-- The follower frame of the ALO scenarios: the copy of `0xabc` still rests. -/
def exAloFollower : WebData2Message :=
  { User := "0xfollower", ServerTime := 1500, Time := 1500, AccountValue := 200,
    OpenOrders := [exFollowerAbc] }

/-- The engine after the pass on leader frame D: `0xnew` is recorded as created. -/
def exAloEngine1 : AloEngine := { createdCloids := [("0xnew", true)] }

/-- The heap of the ALO scenarios. -/
def exAloHeap : Heap := [exAloFrameC, exAloFrameD, exAloFollower, exAloFrameE]

/-- The manager of the ALO scenarios with the leader head at `copyHead`: X is enabled;
Z has risk multiplier 2 but is not in the asset registry, so it is not enabled. -/
def exAloManager (copyHead : Ptr) : Manager :=
  { CopyAddress := "0xleader", PasteAddress := "0xfollower",
    CopyWd2 := some copyHead, PasteWd2 := some 2,
    AllowedSymbols := ["X"],
    MetaMap := [("X", { SzDecimals := 2, AssetID := 0 })],
    AssetCtxStore := [("X", { MidPx := 100 })],
    CopyWebSocketReady := true, PasteWebSocketReady := true,
    CopyAssetDataReady := true, PasteAssetDataReady := true,
    CoinRiskMap := [("X", 1), ("Z", 2)] }

/-- The invariant of a Go map: no key occurs twice. -/
def GoMap.NodupKeys {V : Type} (m : GoMap V) : Prop := (m.map Prod.fst).Nodup

/-! ## ALO submissions (`ws/connection.go`, `ws/alo_engine.go`) -/

/-- The library type `hl.OrderRequest`; `Tif` is `OrderType.Limit.Tif`. -/
structure OrderRequest where
  Coin : String := ""
  IsBuy : Bool := false
  LimitPx : ℚ := 0
  Sz : ℚ := 0
  Tif : String := ""
  ReduceOnly : Bool := false
  Cloid : String := ""
deriving DecidableEq, Inhabited

/-- The library type `hl.CancelCloidWire`. -/
structure CancelCloidWire where
  Asset : Int := 0
  Cloid : String := ""
deriving DecidableEq, Inhabited

/-- The body of the loop of `processNewAloOrders` (lines 311-346) for the entry
`cloid -> copyOrderAsBase` of the batch: the request appended to `pasteRequests`, or
`none` where the entry is skipped. An unknown coin is logged and processed all the same. -/
def aloRequestFor (h : Heap) (manager : Manager) (cloid : String) (copyOrderAsBase : Order) :
    Option OrderRequest :=
  let isBuy := if copyOrderAsBase.Side = "A" then false else true
  if copyOrderAsBase.Tif ≠ TifAlo then none
  else
    let pasteSz := manager.scaleSize h copyOrderAsBase
    let decimals := manager.Decimals copyOrderAsBase.Coin
    let sz := SizeToFloat pasteSz decimals
    if sz = 0 then none
    else
      let orderRequest : OrderRequest :=
        { Coin := copyOrderAsBase.Coin, IsBuy := isBuy, LimitPx := copyOrderAsBase.LimitPx,
          Sz := sz, Tif := TifAlo, ReduceOnly := copyOrderAsBase.ReduceOnly, Cloid := cloid }
      let notionalValue := fl (orderRequest.Sz * orderRequest.LimitPx)
      if notionalValue > minNotionalDiff then some orderRequest else none

/-- `AloEngine.processNewAloOrders`: the requests handed to `Client.BulkOrders`; the empty
list stands for no call. The batch is walked in the order of its entries. -/
def processNewAloOrders (h : Heap) (manager : Manager) (copySideOrders : GoMap Order) :
    List OrderRequest :=
  if GoMap.len copySideOrders = 0 then []
  else
    copySideOrders.foldl
      (fun pasteRequests e =>
        match aloRequestFor h manager e.1 e.2 with
        | some orderRequest => pasteRequests ++ [orderRequest]
        | none => pasteRequests)
      []

/-- `AloEngine.processCancelRequests`: the cancels handed to
`Client.BulkCancelOrdersByCloid`; the empty list stands for no call. -/
def processCancelRequests (manager : Manager) (ordersToCancel : GoMap Order) :
    List CancelCloidWire :=
  if GoMap.len ordersToCancel = 0 then []
  else
    ordersToCancel.foldl
      (fun byCloid e =>
        let meta := GoMap.index manager.MetaMap e.2.Coin
        if e.2.Cloid ≠ "" then byCloid ++ [{ Asset := meta.AssetID, Cloid := e.1 }]
        else byCloid)
      []

/-- What one handling step of the ALO engine leaves behind: the engine, the manager, and
the creates and cancels submitted to the venue. -/
structure AloPassResult where
  engine : AloEngine
  manager : Manager
  creates : List OrderRequest
  cancels : List CancelCloidWire
deriving DecidableEq

/-- `AloEngine.HandleAloReconcile`. The two submissions, started as goroutines in the
source, are evaluated on the manager of the pass. `blockTime.Unix()` is the clearinghouse
time in whole seconds. -/
def HandleAloReconcile (h : Heap) (engine : AloEngine) (manager : Manager) :
    Option AloPassResult :=
  if ¬ engine.enabled then
    some { engine := engine, manager := manager, creates := [], cancels := [] }
  else
    match RunAloReconcile h engine manager with
    | none => none
    | some (orders, cancels, engine1) =>
      match manager.CopyWd2 with
      | none => none
      | some cp =>
        let blockTime := (h.get cp).Time
        some { engine := engine1,
               manager := { manager with
                 UsedCopyAloCreates := (blockTime / 1000) :: manager.UsedCopyAloCreates },
               creates := if GoMap.len orders > 0 then processNewAloOrders h manager orders
                          else [],
               cancels := if GoMap.len cancels > 0 then processCancelRequests manager cancels
                          else [] }

/-- The case `<-CopyWd2Chan` of the loop of `AloEngine.Start`: a leader frame arrived. -/
def aloOnCopyFrame (h : Heap) (engine : AloEngine) (manager : Manager) : Option AloPassResult :=
  if engine.pasteOpenOrders ≠ none then HandleAloReconcile h engine manager
  else some { engine := engine, manager := manager, creates := [], cancels := [] }

/-- The case `wd2 := <-PasteWd2Chan` of the loop of `AloEngine.Start`: a follower frame
arrived; nothing is submitted. -/
def aloOnPasteFrame (engine : AloEngine) (wd2 : WebData2Message) : AloEngine :=
  { engine with pasteOpenOrders := some wd2.OrdersByCloid }

/-! ## Asset data (`ws/manager.go`) -/

/-- The type `models.UserAssetData`; `LeverageValue` is `Leverage.Value`. -/
structure UserAssetData where
  User : String := ""
  Coin : String := ""
  LeverageValue : ℚ := 0
  MaxTradeSzs : List ℚ := []
  AvailableToTrade : List ℚ := []
deriving DecidableEq, Inhabited

/-- Go `strings.EqualFold` on ASCII strings: equality up to the case of the letters
`a` to `z`. The Unicode case folding of other letters is outside the model; addresses and
coin symbols are ASCII. -/
def EqualFold (s t : String) : Bool := s.data.map Char.toLower == t.data.map Char.toLower

/-- `Manager.handleActiveAssetData`. -/
def Manager.handleActiveAssetData (manager : Manager) (userAssetData : UserAssetData) : Manager :=
  let address := userAssetData.User
  let key := address ++ ":" ++ userAssetData.Coin
  let store := GoMap.put manager.AssetDetailsStore key
    { LeverageValue := userAssetData.LeverageValue,
      MaxTradeAmounts := userAssetData.MaxTradeSzs,
      AvailableToTrade := userAssetData.AvailableToTrade }
  let v := (GoMap.lookup manager.AssetSubscriptionCount address).getD 0
  let n := v + 1
  let counts := GoMap.put manager.AssetSubscriptionCount address n
  let manager1 := { manager with AssetDetailsStore := store, AssetSubscriptionCount := counts }
  if EqualFold address manager.CopyAddress then
    if ¬ manager.CopyAssetDataReady ∧ n ≥ (manager.AllowedSymbols.length : Int) then
      { manager1 with CopyAssetDataReady := true }
    else manager1
  else
    if ¬ manager.PasteAssetDataReady ∧ n ≥ (manager.AllowedSymbols.length : Int) then
      { manager1 with PasteAssetDataReady := true }
    else manager1

/-- The leader's first limit order of scenario S1: a bid of 1.0 X at 100, `0xabc`. -/
def exS1Order : Order :=
  { Coin := "X", Side := "B", LimitPx := 100, Sz := 1, OrigSz := 1, Tif := "Alo",
    Cloid := "0xabc" }

/-- Leader frame A of scenario S1: no open order, equity 100. -/
def exS1FrameA : WebData2Message :=
  { User := "0xleader", ServerTime := 1000, Time := 1000, AccountValue := 100 }

/-- Leader frame B of scenario S1: the bid `0xabc` rests. -/
def exS1FrameB : WebData2Message :=
  { User := "0xleader", ServerTime := 2000, Time := 2000, AccountValue := 100,
    OpenOrders := [exS1Order], prev := some 0 }

/-- The follower frame of scenario S1: no open order, equity 200. -/
def exS1Follower : WebData2Message :=
  { User := "0xfollower", ServerTime := 1500, Time := 1500, AccountValue := 200 }

/-- The heap of scenario S1. -/
def exS1Heap : Heap := [exS1FrameA, exS1FrameB, exS1Follower]

/-- The manager of scenario S1: leader head B, multiplier(X) = 2; both accounts have a
snapshot, and the asset-data flags are `assetReady`. -/
def exS1Manager (assetReady : Bool) : Manager :=
  { CopyAddress := "0xleader", PasteAddress := "0xfollower",
    CopyWd2 := some 1, PasteWd2 := some 2,
    AllowedSymbols := ["X"],
    MetaMap := [("X", { SzDecimals := 2, AssetID := 7 })],
    AssetCtxStore := [("X", { MidPx := 100 })],
    CopyWebSocketReady := true, PasteWebSocketReady := true,
    CopyAssetDataReady := assetReady, PasteAssetDataReady := assetReady,
    CoinRiskMap := [("X", 2)] }

/-- The follower request of scenario S1. -/
def exS1Request : OrderRequest :=
  { Coin := "X", IsBuy := true, LimitPx := 100, Sz := 4, Tif := "Alo", ReduceOnly := false,
    Cloid := "0xabc" }

/-- The heap of the example manager with the leader's account value at 0. -/
def exZeroHeap : Heap := [{ exLeaderFrame with AccountValue := 0 }, exFollowerFrame]

/-- A heap whose leader frame has the negative account value -100, the follower 200. -/
def exNegativeHeap : Heap := [{ exLeaderFrame with AccountValue := -100 }, exFollowerFrame]

/-- An asset-data message of the leader for coin X. -/
def exAssetDataX : UserAssetData :=
  { User := "0xleader", Coin := "X", LeverageValue := 5, MaxTradeSzs := [1, 1],
    AvailableToTrade := [10, 10] }

/-- The example manager before any asset data has arrived: two enabled coins, X and Y. -/
def exAssetManager : Manager :=
  { exManager with CopyAssetDataReady := false, PasteAssetDataReady := false }

/-! ## Frame linker (`models/webdata2.go`) and snapshot intake (`ws/connection.go`) -/

/-- A field assignment through a frame pointer: the frame at `p` is replaced by `g` of it. -/
def Heap.update (h : Heap) (p : Ptr) (g : WebData2Message → WebData2Message) : Heap :=
  h.set p (g (h.get p))

/-- The assignments of `AddPrev` for a present predecessor `p` (lines 39, 44, 45):
`curr.prev = p`, `curr.n = p.n + 1`, `p.next = curr`, in this order. -/
def linkPrev (h : Heap) (currWd2 p : Ptr) : Heap :=
  let h1 := h.update currWd2 (fun f => { f with prev := some p })
  let h2 := h1.update currWd2 (fun f => { f with n := (h1.get p).n + 1 })
  h2.update p (fun f => { f with next := some currWd2 })

/-- `WebData2Message.AddPrev`, called on the frame at `currWd2` with the pointer `prevWd2`:
the heap after the call, or `none` when it panics. The assignments of lines 39-46 come
first, the three checks after them. The returned pointer is `currWd2` itself. -/
def AddPrev (h : Heap) (currWd2 : Ptr) (prevWd2 : Option Ptr) : Option Heap :=
  match prevWd2 with
  | none =>
    some ((h.update currWd2 (fun f => { f with prev := none })).update currWd2
      (fun f => { f with n := 0 }))
  | some p =>
    let h3 := linkPrev h currWd2 p
    if (h3.get p).User ≠ (h3.get currWd2).User then none
    else if ¬ ((h3.get p).ServerTime < (h3.get currWd2).ServerTime) then none
    else if (h3.get p).Time > (h3.get currWd2).Time then none
    else some h3

/-- `WebData2Message.IsHead`: the frame has no predecessor. -/
def WebData2Message.IsHead (currWd2 : WebData2Message) : Bool := currWd2.prev == none

/-- `WebData2Message.AddOther`, called on the frame at `currWd2` with the pointer
`otherWd2`: the heap after the call, or `none` when it panics. -/
def AddOther (h : Heap) (currWd2 : Ptr) (otherWd2 : Option Ptr) : Option Heap :=
  match otherWd2 with
  | none => some h
  | some o =>
    if (h.get currWd2).User = (h.get o).User then none
    else
      match (h.get o).prev with
      | none => none
      | some op =>
        if (h.get op).User ≠ (h.get o).User then none
        else if (h.get currWd2).Time ≠ (h.get o).Time then none
        else if (h.get currWd2).other ≠ none ∧ (h.get currWd2).other ≠ some o then none
        else
          let h1 := h.update currWd2 (fun f => { f with other := some o })
          if (h1.get o).other ≠ none ∧ (h1.get o).other ≠ some currWd2 then none
          else if (h1.get o).other = none then
            some (h1.update o (fun f => { f with other := some currWd2 }))
          else some h1

/-- A per-account chain built by successive `AddPrev` calls: each frame of the list is
linked to the one before it, the first to `head`; `none` when a call panics. -/
def linkChain : Heap → Option Ptr → List Ptr → Option Heap
  | h, _, [] => some h
  | h, head, c :: rest =>
    match AddPrev h c head with
    | none => none
    | some h1 => linkChain h1 (some c) rest

/-- The first loop of `handleWebData2Payload` (lines 267-272): the asset context of every
allowed symbol with metadata is stored; `none` when the index is out of range. -/
def storeAssetCtxs (metaMap : GoMap AssetInfo) (assetCtxs : List AssetCtx) :
    List String → GoMap AssetCtx → Option (GoMap AssetCtx)
  | [], store => some store
  | symbol :: rest, store =>
    match GoMap.lookup metaMap symbol with
    | none => storeAssetCtxs metaMap assetCtxs rest store
    | some assetInfo =>
      if assetInfo.AssetID < 0 then none
      else
        match assetCtxs[assetInfo.AssetID.toNat]? with
        | none => none
        | some ctx => storeAssetCtxs metaMap assetCtxs rest (GoMap.put store symbol ctx)

/-- `Manager.handleWebData2Payload` for a decoded snapshot `wd2`: the heap and the manager
after the call, or `none` when it panics. The decoded frame is allocated at the end of the
heap with its links cleared. A send on a channel appends the frame pointer to its queue. -/
def handleWebData2Payload (h : Heap) (manager : Manager) (wd2 : WebData2Message) :
    Option (Heap × Manager) :=
  match storeAssetCtxs manager.MetaMap wd2.AssetCtxs manager.AllowedSymbols
      manager.AssetCtxStore with
  | none => none
  | some store =>
    let ptr : Ptr := h.length
    let h0 : Heap := h ++ [{ wd2 with prev := none, next := none, other := none, n := 0 }]
    let manager0 := { manager with AssetCtxStore := store }
    if wd2.User = manager.CopyAddress ∧ manager.lastCopyWd2ChTime ≠ some wd2.Time then
      match AddPrev h0 ptr manager.CopyWd2 with
      | none => none
      | some h1 =>
        let linked : Option Heap :=
          match manager.PasteWd2 with
          | none => some h1
          | some pp =>
            if (h1.get ptr).Time = (h1.get pp).Time then
              if ¬ (h1.get ptr).IsHead ∧ ¬ (h1.get pp).IsHead then AddOther h1 ptr (some pp)
              else some h1
            else some h1
        match linked with
        | none => none
        | some h2 =>
          some (h2, { manager0 with
            CopyWd2 := some ptr, CopyWebSocketReady := true,
            lastCopyWd2ChTime := some wd2.Time,
            CopyWd2Chan := manager.CopyWd2Chan ++ [ptr] })
    else if wd2.User = manager.PasteAddress ∧ manager.lastPasteWd2ChTime ≠ some wd2.Time then
      match AddPrev h0 ptr manager.PasteWd2 with
      | none => none
      | some h1 =>
        some (h1, { manager0 with
          PasteWd2 := some ptr, PasteWebSocketReady := true,
          lastPasteWd2ChTime := some wd2.Time,
          PasteWd2Chan := manager.PasteWd2Chan ++ [ptr] })
    else some (h0, manager0)

/-- A run of the snapshot intake over the decoded snapshots in their order of arrival. -/
def intakeRun : Heap → Manager → List WebData2Message → Option (Heap × Manager)
  | h, manager, [] => some (h, manager)
  | h, manager, wd2 :: rest =>
    match handleWebData2Payload h manager wd2 with
    | none => none
    | some (h1, manager1) => intakeRun h1 manager1 rest

/-- A fresh manager for the intake scenarios: leader `0xleader`, follower `0xfollower`. -/
def exIntakeManager : Manager :=
  { CopyAddress := "0xleader", PasteAddress := "0xfollower",
    AllowedSymbols := ["X"],
    MetaMap := [("X", { SzDecimals := 2, AssetID := 0 })],
    CoinRiskMap := [("X", 1)] }

/-- A decoded snapshot of `user` with the given server and clearinghouse times. -/
def exSnapshot (user : String) (serverTime time : Int) : WebData2Message :=
  { User := user, ServerTime := serverTime, Time := time, AccountValue := 100,
    AssetCtxs := [{ MidPx := 50 }] }

/-- The link between a frame `F` and its predecessor `P` in a per-account chain:
`F.prev = P`, `P.next = F`, `F.n = P.n + 1`, same user, server time strictly increasing,
clearinghouse time non-decreasing. -/
def Linked (h : Heap) (P F : Ptr) : Prop :=
  (h.get F).prev = some P ∧ (h.get P).next = some F ∧ (h.get F).n = (h.get P).n + 1 ∧
  (h.get P).User = (h.get F).User ∧ (h.get P).ServerTime < (h.get F).ServerTime ∧
  (h.get P).Time ≤ (h.get F).Time

/-- Three unlinked frames of one account, server times 1000, 2000, 3000. -/
def exChainHeap : Heap :=
  [exSnapshot "0xleader" 1000 1000, exSnapshot "0xleader" 2000 1000,
   exSnapshot "0xleader" 3000 2500]

/-- The heap `exChainHeap` after linking its three frames into a chain. -/
def exChainLinked : Heap :=
  [{ exSnapshot "0xleader" 1000 1000 with next := some 1 },
   { exSnapshot "0xleader" 2000 1000 with prev := some 0, next := some 2, n := 1 },
   { exSnapshot "0xleader" 3000 2500 with prev := some 1, n := 2 }]

/-- The invariant of a per-account chain `l` (oldest frame first) in the heap `h`:
consecutive frames are linked, the first frame has sequence number 0 and no predecessor,
server times increase strictly along the chain, and every pointer is allocated. -/
def ChainInv (h : Heap) (l : List Ptr) : Prop :=
  List.Chain' (Linked h) l ∧
  (∀ c0 ∈ l.head?, (h.get c0).n = 0 ∧ (h.get c0).prev = none) ∧
  l.Pairwise (fun a b => (h.get a).ServerTime < (h.get b).ServerTime) ∧
  ∀ c ∈ l, c < h.length

/-- The heap after the leader's and the follower's first and second snapshots, the follower's
second one (block 2000) before the leader's, which then links the two. -/
def exLinkedHeap : Heap :=
  [{ exSnapshot "0xleader" 1000 1000 with next := some 3 },
   { exSnapshot "0xfollower" 1001 1000 with next := some 2 },
   { exSnapshot "0xfollower" 2001 2000 with prev := some 1, other := some 3, n := 1 },
   { exSnapshot "0xleader" 2002 2000 with prev := some 0, other := some 2, n := 1 }]

/-- The heap `exLinkedHeap` before the cross-link of frames 3 and 2. -/
def exUnlinkedHeap : Heap :=
  [{ exSnapshot "0xleader" 1000 1000 with next := some 3 },
   { exSnapshot "0xfollower" 1001 1000 with next := some 2 },
   { exSnapshot "0xfollower" 2001 2000 with prev := some 1, n := 1 },
   { exSnapshot "0xleader" 2002 2000 with prev := some 0, n := 1 }]

/-- The manager after the leader's first snapshot (block 1000) was accepted. -/
def exIntakeManager1 : Manager :=
  { exIntakeManager with
    AssetCtxStore := [("X", { MidPx := 50 })],
    CopyWd2 := some 0, CopyWebSocketReady := true, lastCopyWd2ChTime := some 1000,
    CopyWd2Chan := [0] }

/-- The manager after the leader's second snapshot (block 2000) was accepted. -/
def exIntakeManager2 : Manager :=
  { exIntakeManager1 with
    CopyWd2 := some 1, lastCopyWd2ChTime := some 2000, CopyWd2Chan := [0, 1] }

/-- The heap after the leader's first two snapshots. -/
def exIntakeHeap2 : Heap :=
  [{ exSnapshot "0xleader" 1000 1000 with next := some 1 },
   { exSnapshot "0xleader" 2000 2000 with prev := some 0, n := 1 }]

/-- The decoded content of a frame, everything but its chain links. -/
def WebData2Message.data (f : WebData2Message) :
    String × Int × Int × ℚ × List Position × List Order × List AssetCtx :=
  (f.User, f.ServerTime, f.Time, f.AccountValue, f.AssetPositions, f.OpenOrders, f.AssetCtxs)

/-- The four snapshots of the cross-link scenario in the order leader, follower, leader,
follower: the follower's snapshot of block 2000 arrives after the leader's. -/
def exArrivalLeaderFirst : List WebData2Message :=
  [exSnapshot "0xleader" 1000 1000, exSnapshot "0xfollower" 1001 1000,
   exSnapshot "0xleader" 2000 2000, exSnapshot "0xfollower" 2001 2000]

/-- The same blocks with the follower's snapshot of block 2000 before the leader's. -/
def exArrivalFollowerFirst : List WebData2Message :=
  [exSnapshot "0xleader" 1000 1000, exSnapshot "0xfollower" 1001 1000,
   exSnapshot "0xfollower" 2001 2000, exSnapshot "0xleader" 2002 2000]

/-! ## IOC engine loop and fill-event bridge (`ws/ioc_engine.go`) -/

/-- The type `models.OrderUpdate`. -/
structure OrderUpdate where
  Status : String := ""
  StatusTimestamp : Int := 0
  Order : Order := {}
deriving DecidableEq, Inhabited

/-- The state of `ws.IocEngine`: the projected follower positions (`none` for the nil
map) and the two flags. `lastPasteWd2Rebase` is written and never read. -/
structure IocEngine where
  localPastePositions : Option (GoMap Position) := none
  enabled : Bool := true
  startupReconcileDone : Bool := false
deriving DecidableEq, Inhabited

/-- `Manager.IsEnabledCoin`. -/
def Manager.IsEnabledCoin (manager : Manager) (symbol : String) : Bool :=
  manager.AllowedSymbols.any (fun allowedSymbol => EqualFold symbol allowedSymbol)

/-- The first loop of `handleOrderUpdates` (lines 71-77): the updates of enabled coins,
grouped by coin. -/
def groupByCoin (manager : Manager) (data : List OrderUpdate) : GoMap (List OrderUpdate) :=
  data.foldl
    (fun byCoin updateEntry =>
      if ¬ manager.IsEnabledCoin updateEntry.Order.Coin then byCoin
      else GoMap.put byCoin updateEntry.Order.Coin
        (GoMap.index byCoin updateEntry.Order.Coin ++ [updateEntry]))
    []

/-- One turn of the inner loop of `handleOrderUpdates` (lines 80-121) on the state
`(index, ordersOut)`: `none` when the loop condition `index < len(grouped)` fails, the
next state otherwise. A `continue` goes back to the loop condition with `index`
unchanged. -/
def orderUpdatesTurn (manager : Manager) (grouped : List OrderUpdate)
    (st : Nat × List Order) : Option (Nat × List Order) :=
  let index := st.1
  let ordersOut := st.2
  if index < grouped.length then
    let currentUpdate := grouped.getD index default
    if index + 1 < grouped.length then
      let nextUpdate := grouped.getD (index + 1) default
      let hasSameCoin := currentUpdate.Order.Coin = nextUpdate.Order.Coin
      let openFilled := currentUpdate.Status = "open" ∧ nextUpdate.Status = "filled"
      let hasSameOids := currentUpdate.Order.Oid = nextUpdate.Order.Oid
      let hasFill := fl (nextUpdate.Order.OrigSz - nextUpdate.Order.Sz) ≠ 0
      if hasSameCoin ∧ hasSameOids ∧ openFilled ∧ hasFill then
        let order := nextUpdate.Order
        if order.Sz = order.OrigSz then some (index, ordersOut)
        else
          let filledSz := fl (order.OrigSz - order.Sz)
          let pasteOrder : Order :=
            { Coin := order.Coin, Sz := filledSz, Side := order.Side,
              Cloid := manager.NewPasteIocCloid order.Oid, ReduceOnly := order.ReduceOnly,
              Tif := TifFrontendMarket, OrderType := TifFrontendMarket, LimitPx := 0 }
          let pasteOrderNotional := Round2 (fl (pasteOrder.Sz * manager.GetMidPrice order.Coin))
          if pasteOrderNotional < minNotionalDiff then some (index, ordersOut)
          else some (index + 1, ordersOut ++ [pasteOrder])
      else some (index + 1, ordersOut)
    else some (index + 1, ordersOut)
  else none

/-- The inner loop of `handleOrderUpdates` run for at most `fuel` turns: the orders
collected when the loop ends, `none` when it has not ended after `fuel` turns. -/
def orderUpdatesLoop (manager : Manager) (grouped : List OrderUpdate) :
    Nat → Nat × List Order → Option (List Order)
  | 0, _ => none
  | fuel + 1, st =>
    match orderUpdatesTurn manager grouped st with
    | none => some st.2
    | some st1 => orderUpdatesLoop manager grouped fuel st1

/-- The loop over the groups of `handleOrderUpdates` (lines 78-122), each inner loop run
for at most `fuel` turns. The groups are walked in the order of their first update. -/
def orderUpdatesGroups (manager : Manager) (fuel : Nat) :
    List (String × List OrderUpdate) → List Order → Option (List Order)
  | [], ordersOut => some ordersOut
  | (_, grouped) :: rest, ordersOut =>
    match orderUpdatesLoop manager grouped fuel (0, ordersOut) with
    | none => none
    | some ordersOut1 => orderUpdatesGroups manager fuel rest ordersOut1

/-- `IocEngine.handleOrderUpdates` for the updates `data` of a message: the engine after
the call and the orders handed to `SendIocOrders` (the empty list stands for no call);
`none` when an inner loop has not ended after `fuel` turns. The function assigns to no
field of the engine. -/
def handleOrderUpdates (fuel : Nat) (engine : IocEngine) (manager : Manager)
    (data : List OrderUpdate) : Option (IocEngine × List Order) :=
  match orderUpdatesGroups manager fuel (groupByCoin manager data) [] with
  | none => none
  | some ordersOut => some (engine, ordersOut)

/-- What one turn of the loop of `IocEngine.Start` leaves behind: the engine, the manager
and the orders handed to `SendIocOrders`. -/
structure IocTurnResult where
  engine : IocEngine
  manager : Manager
  sent : List Order
deriving DecidableEq

/-- The case `copyWd2 := <-copyWd2Stream` of the loop of `IocEngine.Start` (lines 46-50).
The projection is a Go map, which `handleIocReconcile` updates in place. -/
def iocOnCopyFrame (h : Heap) (engine : IocEngine) (manager : Manager)
    (copyWd2 : WebData2Message) : Option IocTurnResult :=
  if ¬ engine.startupReconcileDone ∧ engine.enabled ∧ manager.IsReady ∧
      engine.localPastePositions ≠ none then
    match handleIocReconcile h manager copyWd2 (engine.localPastePositions.getD []) with
    | none => none
    | some res =>
      some { engine := { engine with localPastePositions := some res.positions,
                                     startupReconcileDone := true },
             manager := res.manager, sent := res.sent }
  else some { engine := engine, manager := manager, sent := [] }

/-- The case `pasteWd2 := <-pasteWd2Stream` of the loop of `IocEngine.Start`
(lines 52-56). -/
def iocOnPasteFrame (engine : IocEngine) (pasteWd2 : WebData2Message) : IocEngine :=
  if engine.localPastePositions = none then
    { engine with localPastePositions := some pasteWd2.PositionsByCoin }
  else engine

/-- The case `orderUpdate := <-orderUpdatesChan` of the loop of `IocEngine.Start`
(lines 57-60). -/
def iocOnOrderUpdate (fuel : Nat) (engine : IocEngine) (manager : Manager)
    (data : List OrderUpdate) : Option (IocEngine × List Order) :=
  if manager.IsReady then handleOrderUpdates fuel engine manager data
  else some (engine, [])

/-- An order-updates message of the leader: the order 7, a bid of `origSz` X, reported
open and then filled down to the remaining size `sz`. -/
def exFillUpdates (origSz sz : ℚ) : List OrderUpdate :=
  [{ Status := "open", StatusTimestamp := 1,
     Order := { Coin := "X", Side := "B", LimitPx := 100, Sz := origSz, OrigSz := origSz,
                Oid := 7 } },
   { Status := "filled", StatusTimestamp := 2,
     Order := { Coin := "X", Side := "B", LimitPx := 100, Sz := sz, OrigSz := origSz,
                Oid := 7 } }]

/-- The follower market order of the fill-event bridge for a leader fill of 1 X. -/
def exBridgeOrder : Order :=
  { Coin := "X", Side := "B", LimitPx := 0, Sz := 1, OrderType := TifFrontendMarket,
    Tif := TifFrontendMarket, Cloid := "0x3441", ReduceOnly := false }

/-- An engine whose projection holds +2 of X. -/
def exBridgeEngine : IocEngine :=
  { localPastePositions := some (exFollowerX 2 200) }

/-- A later follower frame: +20 of X, account value 200. -/
def exFollowerFrame2 : WebData2Message :=
  { User := "0xfollower", ServerTime := 2000, Time := 2000, AccountValue := 200,
    AssetPositions := [{ Coin := "X", Szi := 20, PositionValue := 1000 }], prev := some 1 }

/-- The heap after two frames of each account. -/
def exLoopHeap : Heap := [exLeaderFrame, exFollowerFrame, exLeaderFrame2, exFollowerFrame2]

/-- The engine before the first leader frame: the projection is the empty position map
of `exFollowerFrame`. -/
def exLoopEngine0 : IocEngine := { localPastePositions := some [] }

/-- The order of the first pass: the follower buys 20 X. -/
def exLoopOrder1 : Order :=
  { Coin := "X", Side := "B", Sz := 20, Tif := TifFrontendMarket, Cloid := "0xcc0678",
    ReduceOnly := false }

/-- The engine after the first pass: +20 of X projected, the startup pass done. -/
def exLoopEngine1 : IocEngine :=
  { localPastePositions := some [("X", { Szi := 20 })], startupReconcileDone := true }

/-- The manager when the second leader frame arrives: both heads are the later frames. -/
def exLoopManager2 : Manager := { exManagerUsed with CopyWd2 := some 2, PasteWd2 := some 3 }

/-! ## Reconnect backoff (`ws/connection.go`) -/

/-- A value of Go's `int64` arithmetic: the integer modulo 2^64, read in two's complement. -/
def wrapInt64 (x : Int) : Int := (x + 2 ^ 63) % 2 ^ 64 - 2 ^ 63

/-- Go `x << count` on `int64` for a shift count that is not negative: `count` doublings,
each wrapping in 64 bits. -/
def shlInt64 (x : Int) (count : Nat) : Int := wrapInt64 (x * 2 ^ count)

/-- The library constant `time.Second`, in nanoseconds. -/
def timeSecond : Int := 1000000000

/-- The delay that `StartCopyTradingSession` sleeps after a failed dial (lines 49-52),
in nanoseconds, for the attempt count `attempt`. -/
def reconnectDelay (attempt : Nat) : Int :=
  let baseDelay := timeSecond
  let maxDelay := 16 * timeSecond
  let delay := shlInt64 baseDelay attempt
  if delay > maxDelay then maxDelay else delay

/-- The follower request that the leader's order `0xnew` on Z yields. -/
def exZedRequest : OrderRequest :=
  { Coin := "Z", IsBuy := true, LimitPx := 100, Sz := 4, Tif := "Alo", ReduceOnly := false,
    Cloid := "0xnew" }

/-- A leader bid of 0.05 X (as a `float64`) at 100, which scenario S1 scales to 0.20 X, a
notional of exactly 20. -/
def exTwentyOrder : Order := { exS1Order with Sz := fl (1 / 20), OrigSz := fl (1 / 20) }

/-! ## Log ring buffer (`models/ring_buffer.go`) -/

/-- The type `models.RingBuffer` without its mutex. Capacity and head never hold a
negative number (`make` panics on a negative length). -/
structure RingBuffer where
  data : List String
  capacity : Nat
  head : Nat
  full : Bool
deriving DecidableEq

/-- `NewRingBuffer`. -/
def NewRingBuffer (cap : Nat) : RingBuffer :=
  { data := List.replicate cap "", capacity := cap, head := 0, full := false }

/-- `RingBuffer.Push`; `none` stands for the panic of an index out of range or of a
division by zero. -/
def RingBuffer.Push (rb : RingBuffer) (line : String) : Option RingBuffer :=
  if rb.head < rb.data.length then
    let data := rb.data.set rb.head line
    if rb.capacity = 0 then none
    else
      let head := (rb.head + 1) % rb.capacity
      some { rb with data := data, head := head, full := if head = 0 then true else rb.full }
  else none

/-- A run of `Push` calls, in the order of the list. -/
def RingBuffer.pushAll : RingBuffer → List String → Option RingBuffer
  | rb, [] => some rb
  | rb, line :: rest =>
    match rb.Push line with
    | none => none
    | some rb1 => RingBuffer.pushAll rb1 rest

/-- The first loop of `LastN` (lines 44-47) over the values `is` of `i`, appending to
`out`; the index expression is evaluated in the integers with Go's truncated `%`. -/
def RingBuffer.gather (rb : RingBuffer) : List Nat → List String → Option (List String)
  | [], out => some out
  | i :: rest, out =>
    if rb.capacity = 0 then none
    else
      let idx : Int := Int.tmod ((rb.head : Int) - 1 - (i : Int) + (rb.capacity : Int)) rb.capacity
      if 0 ≤ idx ∧ idx.toNat < rb.data.length then
        RingBuffer.gather rb rest (out ++ [rb.data.getD idx.toNat ""])
      else none

/-- The second loop of `LastN` (lines 49-52): for `i` below `len(out)/2` the entries at
`i` and at `len(out) - 1 - i` are swapped. -/
def swapEnds (out : List String) : List String :=
  (List.range (out.length / 2)).foldl
    (fun out i =>
      let j := out.length - 1 - i
      (out.set i (out.getD j "")).set j (out.getD i ""))
    out

/-- `RingBuffer.LastN`; the nil slice is the empty list, `none` stands for a panic. -/
def RingBuffer.LastN (rb : RingBuffer) (n : Int) : Option (List String) :=
  if n ≤ 0 then some []
  else
    let size := if ¬ rb.full then rb.head else rb.capacity
    if size = 0 then some []
    else
      let n := if n > (size : Int) then (size : Int) else n
      match rb.gather (List.range n.toNat) [] with
      | none => none
      | some out => some (swapEnds out)

/-- The lines `a` to `e` pushed into a buffer of capacity 3. -/
def exRing : Option RingBuffer := (NewRingBuffer 3).pushAll ["a", "b", "c", "d", "e"]

/-- The invariant of a ring buffer of capacity `c` into which the lines `ls` have been
pushed: the head is the number of pushes modulo `c`, the buffer is full from `c` pushes
on, and each of the last `c` lines sits at its position modulo `c`. -/
def RingBuffer.Holds (rb : RingBuffer) (c : Nat) (ls : List String) : Prop :=
  rb.capacity = c ∧ rb.data.length = c ∧ rb.head = ls.length % c ∧
  rb.full = decide (c ≤ ls.length) ∧
  ∀ p : Nat, p < ls.length → ls.length - p ≤ c → rb.data.getD (p % c) "" = ls.getD p ""

/-! ## Price snapping (`ws/manager.go`) -/

/-- The value of `strconv.ParseFloat(strconv.FormatFloat(x, 'g', 5, 64), 64)` for a
positive `x` (lines 344-345): `x` written with 5 significant decimal digits, the digit
string `m` and the decimal exponent `e` of the leading digit, and read back. Both
functions belong to Go's standard library. -/
def toFiveSignificant (x : ℚ) : ℚ :=
  let e := Int.log 10 x
  (roundHalfEven (x / (10 : ℚ) ^ (e - 4)) : ℚ) * (10 : ℚ) ^ (e - 4)

/-- `Manager.SnapPrice`. The parse-error branch (line 346) is not reachable: the string
comes from `FormatFloat`. The product and the quotient of the last rounding are taken in
decimal arithmetic (see the conventions). -/
def Manager.SnapPrice (manager : Manager) (coinSymbol : String) (originalPrice : ℚ) : ℚ :=
  if originalPrice ≤ 0 then originalPrice
  else
    match GoMap.lookup manager.MetaMap coinSymbol with
    | none => originalPrice
    | some assetInformation =>
      if originalPrice ≥ 100000 then mathRound originalPrice
      else
        let priceDecimals := 6 - assetInformation.SzDecimals
        let priceDecimals := if priceDecimals < 0 then 0 else priceDecimals
        let parsedFloat := toFiveSignificant originalPrice
        let powerValue := (10 : ℚ) ^ priceDecimals
        let snappedPrice := mathRound (parsedFloat * powerValue) / powerValue
        snappedPrice

/-! ## Client-id minting (`ws/manager.go`) -/

/-- The value of a decimal digit character, as `strconv.Atoi` reads it. -/
def decimalValue (c : Char) : Nat := c.toNat - '0'.toNat

/-- The value of a lower-case hexadecimal digit character. -/
def hexValue (c : Char) : Nat := if c.isDigit then c.toNat - '0'.toNat else c.toNat - 'a'.toNat + 10

/-- The number of decimal digits of a seed that is not negative. -/
def decimalLength (s : Int) : Nat := (Nat.toDigits 10 s.toNat).length

/-! ### Inputs whose products are not round in binary -/

/-- A leader frame with equity 100 holding +0.75 of X. -/
def exFloatLeader : WebData2Message :=
  { User := "0xleader", ServerTime := 1000, Time := 1000, AccountValue := 100,
    AssetPositions := [{ Coin := "X", Szi := 3 / 4, PositionValue := 75 }] }

/-- A follower frame with equity 170 and no position. -/
def exFloatFollower : WebData2Message :=
  { User := "0xfollower", ServerTime := 1000, Time := 1000, AccountValue := 170 }

/-- The heap holding the two frames. -/
def exFloatHeap : Heap := [exFloatLeader, exFloatFollower]

/-- A ready manager with the enabled coins X (size-decimals 2) and W (size-decimals 3),
both at mid price 100 and risk multiplier 1; the scale factor is the `float64` 170 / 100. -/
def exFloatManager : Manager :=
  { CopyAddress := "0xleader", PasteAddress := "0xfollower",
    CopyWd2 := some 0, PasteWd2 := some 1,
    AllowedSymbols := ["X", "W"],
    MetaMap := [("X", { SzDecimals := 2, AssetID := 0 }), ("W", { SzDecimals := 3, AssetID := 1 })],
    AssetCtxStore := [("X", { MidPx := 100 }), ("W", { MidPx := 100 })],
    CopyWebSocketReady := true, PasteWebSocketReady := true,
    CopyAssetDataReady := true, PasteAssetDataReady := true,
    CoinRiskMap := [("X", 1), ("W", 1)] }

/-- The manager after a pass that consumed the follower frame of time 1000. -/
def exFloatManagerUsed : Manager := { exFloatManager with UsedPasteWd2 := [1000] }

/-- Leader positions: +0.75 of `coin`, position value 75. -/
def exLeaderPos (coin : String) : GoMap Position :=
  [(coin, { Coin := coin, Szi := 3 / 4, PositionValue := 75 })]

/-- A leader frame holding +0.75 of `coin`. -/
def exFloatLeaderOf (coin : String) : WebData2Message :=
  { exFloatLeader with AssetPositions := [{ Coin := coin, Szi := 3 / 4, PositionValue := 75 }] }

/-- The market order that opens `sz` of `coin` on side `side` in the float scenario. -/
def exFloatOrder (coin side : String) (sz : ℚ) (reduceOnly : Bool) : Order :=
  { Coin := coin, Side := side, Sz := sz, Tif := TifFrontendMarket, Cloid := "0xcc0678",
    ReduceOnly := reduceOnly }

/-- The frames of the overshoot scenario: leader and follower equity 100. -/
def exOvershootHeap : Heap :=
  [{ User := "0xleader", ServerTime := 1000, Time := 1000, AccountValue := 100,
     AssetPositions := [{ Coin := "X", Szi := fl (777 / 100), PositionValue := fl (2409 / 100) }] },
   { User := "0xfollower", ServerTime := 1000, Time := 1000, AccountValue := 100 }]

/-- The manager of the overshoot scenario: X at mid price 3.10, size-decimals 2, risk
multiplier 1, so that the scale factor is 1. -/
def exOvershootManager : Manager :=
  { exManager with AllowedSymbols := ["X"],
                   AssetCtxStore := [("X", { MidPx := fl (31 / 10) })] }

/-- The follower projection of the overshoot scenario: +14.22 of X, position value 44.08. -/
def exOvershootFollower : GoMap Position := exFollowerX (fl (1422 / 100)) (fl (4408 / 100))

/-- The reduce-only ask of the float scenario: the follower sells 0.2 of X. -/
def exSellOrder : Order := exFloatOrder "X" "A" (fl (1 / 5)) true

/-- The result of the pass on the float scenario with the follower projected at +1.47 of
X: the ask of 0.2 is sent and the projection of X is 1.27. -/
def exSellResult : IocPassResult :=
  { manager := exFloatManagerUsed,
    positions := [("X", { Coin := "X", Szi := fl (127 / 100), PositionValue := 147 })],
    sent := [exSellOrder] }

/-- A leader ALO bid of 0.75 of `coin` at 100, client-id `0xabc`. -/
def exFloatAlo (coin : String) : Order :=
  { Coin := coin, Side := "B", LimitPx := 100, Sz := 3 / 4, OrigSz := 3 / 4, Tif := "Alo",
    Cloid := "0xabc" }

/-- The follower request of the float scenario for a bid of `sz` of `coin` at 100. -/
def exFloatRequest (coin : String) (sz : ℚ) : OrderRequest :=
  { Coin := coin, IsBuy := true, LimitPx := 100, Sz := sz, Tif := "Alo", ReduceOnly := false,
    Cloid := "0xabc" }

/-! # Theorems -/

/-! ## Rounding to `float64` -/

theorem log2Fuel_spec : ∀ (fuel n : Nat), 1 ≤ n → n ≤ fuel →
    2 ^ log2Fuel fuel n ≤ n ∧ n < 2 ^ (log2Fuel fuel n + 1) := by
  intro fuel
  induction fuel with
  | zero => intro n h1 h2; omega
  | succ fuel ih =>
    intro n h1 h2
    unfold log2Fuel
    by_cases h : 2 ≤ n
    · rw [if_pos h]
      obtain ⟨hlo, hhi⟩ := ih (n / 2) (by omega) (by omega)
      have hdm := Nat.div_add_mod n 2
      have hmod : n % 2 < 2 := Nat.mod_lt _ (by norm_num)
      constructor
      · rw [pow_succ]; omega
      · rw [pow_succ]; omega
    · rw [if_neg h]
      have : n = 1 := by omega
      subst this
      norm_num

/-- The binary exponent brackets the magnitude. -/
theorem binExp_spec (x : ℚ) (hx : x ≠ 0) :
    (2 : ℚ) ^ binExp x ≤ |x| ∧ |x| < (2 : ℚ) ^ (binExp x + 1) := by
  have h2 : (2 : ℚ) ≠ 0 := by norm_num
  have hnum : x.num.natAbs ≠ 0 := by
    intro h
    exact hx (Rat.num_eq_zero.mp (Int.natAbs_eq_zero.mp h))
  obtain ⟨hplo, hphi⟩ := log2Fuel_spec x.num.natAbs x.num.natAbs (by omega) le_rfl
  obtain ⟨hqlo, hqhi⟩ := log2Fuel_spec x.den x.den (Nat.pos_of_ne_zero x.den_nz) le_rfl
  unfold binExp
  simp only
  generalize log2Fuel x.num.natAbs x.num.natAbs = a at hplo hphi ⊢
  generalize log2Fuel x.den x.den = b at hqlo hqhi ⊢
  have habs : |x| = (x.num.natAbs : ℚ) / (x.den : ℚ) := by
    have h : |x| = |(x.num : ℚ) / (x.den : ℚ)| := by rw [Rat.num_div_den]
    have hd : (0 : ℚ) < (x.den : ℚ) := by exact_mod_cast Nat.pos_of_ne_zero x.den_nz
    rw [h, abs_div, abs_of_pos hd, Nat.cast_natAbs]
    simp
  have hq0 : (0 : ℚ) < (x.den : ℚ) := by exact_mod_cast Nat.pos_of_ne_zero x.den_nz
  have hplo' : (2 : ℚ) ^ (a : ℤ) ≤ (x.num.natAbs : ℚ) := by
    rw [zpow_natCast]; exact_mod_cast hplo
  have hphi' : (x.num.natAbs : ℚ) < (2 : ℚ) ^ ((a : ℤ) + 1) := by
    have : ((a : ℤ) + 1) = ((a + 1 : ℕ) : ℤ) := by push_cast; ring
    rw [this, zpow_natCast]; exact_mod_cast hphi
  have hqlo' : (2 : ℚ) ^ (b : ℤ) ≤ (x.den : ℚ) := by
    rw [zpow_natCast]; exact_mod_cast hqlo
  have hqhi' : (x.den : ℚ) < (2 : ℚ) ^ ((b : ℤ) + 1) := by
    have : ((b : ℤ) + 1) = ((b + 1 : ℕ) : ℤ) := by push_cast; ring
    rw [this, zpow_natCast]; exact_mod_cast hqhi
  have hpa : (0 : ℚ) < (2 : ℚ) ^ (a : ℤ) := zpow_pos (by norm_num) _
  have hpb : (0 : ℚ) < (2 : ℚ) ^ (b : ℤ) := zpow_pos (by norm_num) _
  -- bounds on the quotient
  have hup : |x| < (2 : ℚ) ^ ((a : ℤ) - (b : ℤ) + 1) := by
    rw [habs, div_lt_iff₀ hq0]
    have e : (2 : ℚ) ^ ((a : ℤ) - (b : ℤ) + 1) = (2 : ℚ) ^ ((a : ℤ) + 1) / (2 : ℚ) ^ (b : ℤ) := by
      rw [← zpow_sub₀ h2]; congr 1; ring
    rw [e, div_mul_eq_mul_div, lt_div_iff₀ hpb]
    calc (x.num.natAbs : ℚ) * (2 : ℚ) ^ (b : ℤ)
        < (2 : ℚ) ^ ((a : ℤ) + 1) * (2 : ℚ) ^ (b : ℤ) :=
          mul_lt_mul_of_pos_right hphi' hpb
      _ ≤ (2 : ℚ) ^ ((a : ℤ) + 1) * (x.den : ℚ) :=
          mul_le_mul_of_nonneg_left hqlo' (zpow_pos (by norm_num) _).le
  have hlow : (2 : ℚ) ^ ((a : ℤ) - (b : ℤ) - 1) ≤ |x| := by
    rw [habs, le_div_iff₀ hq0]
    have e : (2 : ℚ) ^ ((a : ℤ) - (b : ℤ) - 1) = (2 : ℚ) ^ (a : ℤ) / (2 : ℚ) ^ ((b : ℤ) + 1) := by
      rw [← zpow_sub₀ h2]; congr 1; ring
    have hpb1 : (0 : ℚ) < (2 : ℚ) ^ ((b : ℤ) + 1) := zpow_pos (by norm_num) _
    rw [e, div_mul_eq_mul_div, div_le_iff₀ hpb1]
    calc (2 : ℚ) ^ (a : ℤ) * (x.den : ℚ)
        ≤ (2 : ℚ) ^ (a : ℤ) * (2 : ℚ) ^ ((b : ℤ) + 1) :=
          mul_le_mul_of_nonneg_left hqhi'.le hpa.le
      _ ≤ (x.num.natAbs : ℚ) * (2 : ℚ) ^ ((b : ℤ) + 1) :=
          mul_le_mul_of_nonneg_right hplo' hpb1.le
  by_cases hc : (2 : ℚ) ^ ((a : ℤ) - (b : ℤ)) ≤ |x|
  · rw [if_pos hc]; exact ⟨hc, hup⟩
  · rw [if_neg hc]
    refine ⟨hlow, ?_⟩
    have : (a : ℤ) - (b : ℤ) - 1 + 1 = (a : ℤ) - (b : ℤ) := by ring
    rw [this]; exact lt_of_not_le hc

theorem fl_zero : fl 0 = 0 := by
  unfold fl; rw [if_pos rfl]

/-- Rounding with ties to even moves a number by at most one half. -/
theorem roundHalfEven_near (x : ℚ) :
    x - 1 / 2 ≤ (roundHalfEven x : ℚ) ∧ (roundHalfEven x : ℚ) ≤ x + 1 / 2 := by
  have h1 := Int.floor_le x
  have h2 := Int.lt_floor_add_one x
  unfold roundHalfEven
  split_ifs with ha hb hc
  · constructor <;> linarith
  · constructor <;> push_cast <;> linarith
  · constructor <;> linarith
  · constructor <;> push_cast <;> linarith

/-- Rounding to `float64` moves a number by at most the fraction `2^-53` of its magnitude. -/
theorem fl_near (x : ℚ) : |fl x - x| ≤ |x| * (2 : ℚ) ^ (-53 : ℤ) := by
  by_cases hx : x = 0
  · subst hx; simp [fl_zero]
  have h2 : (2 : ℚ) ≠ 0 := by norm_num
  obtain ⟨hlo, -⟩ := binExp_spec x hx
  unfold fl
  rw [if_neg hx]
  simp only
  generalize binExp x = e at hlo
  have hu : (0 : ℚ) < (2 : ℚ) ^ (e - 52) := zpow_pos (by norm_num) _
  obtain ⟨hr1, hr2⟩ := roundHalfEven_near (x / (2 : ℚ) ^ (e - 52))
  have hdiff : |(roundHalfEven (x / (2 : ℚ) ^ (e - 52)) : ℚ) * (2 : ℚ) ^ (e - 52) - x|
      ≤ 1 / 2 * (2 : ℚ) ^ (e - 52) := by
    have : (roundHalfEven (x / (2 : ℚ) ^ (e - 52)) : ℚ) * (2 : ℚ) ^ (e - 52) - x
        = ((roundHalfEven (x / (2 : ℚ) ^ (e - 52)) : ℚ) - x / (2 : ℚ) ^ (e - 52))
          * (2 : ℚ) ^ (e - 52) := by
      field_simp
    rw [this, abs_mul, abs_of_pos hu]
    apply mul_le_mul_of_nonneg_right _ hu.le
    rw [abs_le]; constructor <;> linarith
  have hpow : 1 / 2 * (2 : ℚ) ^ (e - 52) = (2 : ℚ) ^ e * (2 : ℚ) ^ (-53 : ℤ) := by
    rw [← zpow_add₀ h2]
    have : e + (-53) = (e - 52) + (-1) := by ring
    rw [this, zpow_add₀ h2]
    norm_num; ring
  rw [hpow] at hdiff
  exact le_trans hdiff (mul_le_mul_of_nonneg_right hlo (zpow_pos (by norm_num) _).le)

/-- Rounding to `float64` keeps a positive number positive. -/
theorem fl_pos {x : ℚ} (hx : 0 < x) : 0 < fl x := by
  have h := fl_near x
  rw [abs_of_pos hx] at h
  have h53 : (2 : ℚ) ^ (-53 : ℤ) < 1 := by norm_num
  have := (abs_le.mp h).1
  nlinarith

theorem Pow10_pos (n : Int) : 0 < Pow10 n := fl_pos (zpow_pos (by norm_num) n)

/-! ## Rounding lemmas -/

theorem mathRound_zero : mathRound 0 = 0 := by
  norm_num [mathRound]

theorem mathRound_mono {x y : ℚ} (hxy : x ≤ y) : mathRound x ≤ mathRound y := by
  unfold mathRound
  split_ifs with hx hy hy
  · exact_mod_cast Int.floor_mono (by linarith : x + 1 / 2 ≤ y + 1 / 2)
  · exfalso; linarith
  · have h1 : (0 : ℤ) ≤ ⌊-x + 1 / 2⌋ := Int.floor_nonneg.mpr (by linarith)
    have h2 : (0 : ℤ) ≤ ⌊y + 1 / 2⌋ := Int.floor_nonneg.mpr (by linarith)
    have h1q : (0 : ℚ) ≤ ((⌊-x + 1 / 2⌋ : ℤ) : ℚ) := by exact_mod_cast h1
    have h2q : (0 : ℚ) ≤ ((⌊y + 1 / 2⌋ : ℤ) : ℚ) := by exact_mod_cast h2
    linarith
  · have h1 := Int.floor_mono (by linarith : -y + 1 / 2 ≤ -x + 1 / 2)
    have h1q : ((⌊-y + 1 / 2⌋ : ℤ) : ℚ) ≤ ((⌊-x + 1 / 2⌋ : ℤ) : ℚ) := by exact_mod_cast h1
    linarith

theorem RoundToPrecision_zero (p : Int) : RoundToPrecision 0 p = 0 := by
  simp [RoundToPrecision, mathRound_zero, fl_zero]

/-! ## The per-coin loop in closed form -/

theorem iocLoop_used (h : Heap) (manager : Manager) (copyTime : Int)
    (copyPosMap pastePosMap : GoMap Position) (scale : Bool) (pp : Ptr)
    (hp : manager.PasteWd2 = some pp) (syms : List String) (acc : List Order) (used : List Int)
    (hused : (h.get pp).Time ∈ used) :
    iocLoop h manager copyTime copyPosMap pastePosMap scale syms acc used = some (acc, used) := by
  induction syms with
  | nil => rfl
  | cons s rest ih =>
    unfold iocLoop
    cases hb : iocBaseOrder h manager copyTime copyPosMap pastePosMap scale s with
    | none => simpa using ih
    | some o => simp [hp, hused, ih]

theorem iocLoop_fresh (h : Heap) (manager : Manager) (copyTime : Int)
    (copyPosMap pastePosMap : GoMap Position) (scale : Bool) (pp : Ptr)
    (hp : manager.PasteWd2 = some pp) (syms : List String) (acc : List Order) (used : List Int)
    (hfresh : (h.get pp).Time ∉ used) :
    iocLoop h manager copyTime copyPosMap pastePosMap scale syms acc used =
      match syms.findSome? (iocBaseOrder h manager copyTime copyPosMap pastePosMap scale) with
      | none => some (acc, used)
      | some o => some (acc ++ [o], (h.get pp).Time :: used) := by
  induction syms with
  | nil => rfl
  | cons s rest ih =>
    unfold iocLoop
    cases hb : iocBaseOrder h manager copyTime copyPosMap pastePosMap scale s with
    | none => simpa [List.findSome?, hb] using ih
    | some o =>
      simp only [List.findSome?, hb, hp]
      rw [if_neg hfresh]
      exact iocLoop_used h manager copyTime copyPosMap pastePosMap scale pp hp rest _ _
        (List.mem_cons_self _ _)

theorem iocLoop_nil_paste (h : Heap) (manager : Manager) (copyTime : Int)
    (copyPosMap pastePosMap : GoMap Position) (scale : Bool)
    (hp : manager.PasteWd2 = none) (syms : List String) (acc : List Order) (used : List Int)
    (res : List Order × List Int)
    (hres : iocLoop h manager copyTime copyPosMap pastePosMap scale syms acc used = some res) :
    res = (acc, used) := by
  induction syms with
  | nil => simpa [iocLoop] using hres.symm
  | cons s rest ih =>
    unfold iocLoop at hres
    cases hb : iocBaseOrder h manager copyTime copyPosMap pastePosMap scale s with
    | none => rw [hb] at hres; exact ih hres
    | some o => rw [hb] at hres; simp [hp] at hres

/-- Every order of the loop's closed form is the order built for its own coin. -/
theorem iocBaseOrder_coin (h : Heap) (manager : Manager) (copyTime : Int)
    (copyPosMap pastePosMap : GoMap Position) (scale : Bool) (s : String) (o : Order)
    (hb : iocBaseOrder h manager copyTime copyPosMap pastePosMap scale s = some o) :
    o.Coin = s := by
  unfold iocBaseOrder at hb
  simp only [] at hb
  split_ifs at hb
  split at hb
  · exact absurd hb (by simp)
  · split_ifs at hb
    cases hb
    rfl

/-- A pass returns no order and leaves the manager as it was, or returns exactly one
order: the one built for the first allowed symbol that has one, on a follower frame whose
clearinghouse time was not yet in `UsedPasteWd2` and is recorded there by the pass. -/
theorem GetIocReconcileOrders_cases (h : Heap) (manager : Manager)
    (copyPosMap pastePosMap : GoMap Position) (scale bypassCheck : Bool)
    (orders : List Order) (manager1 : Manager)
    (hres : manager.GetIocReconcileOrders h copyPosMap pastePosMap scale bypassCheck
      = some (orders, manager1)) :
    (orders = [] ∧ manager1 = manager) ∨
    ∃ o cp pp, manager.CopyWd2 = some cp ∧ manager.PasteWd2 = some pp ∧
      (h.get pp).Time ∉ manager.UsedPasteWd2 ∧ orders = [o] ∧
      manager1 = { manager with UsedPasteWd2 := (h.get pp).Time :: manager.UsedPasteWd2 } ∧
      iocBaseOrder h manager (h.get cp).Time copyPosMap pastePosMap scale o.Coin = some o := by
  unfold Manager.GetIocReconcileOrders at hres
  split at hres
  · exact absurd hres (by simp)
  next cp hc =>
    split_ifs at hres with hlen
    · left
      simp only [Option.some.injEq, Prod.mk.injEq] at hres
      exact ⟨hres.1.symm, hres.2.symm⟩
    · split at hres
      · exact absurd hres (by simp)
      next newOrders used hl =>
        simp only [Option.some.injEq, Prod.mk.injEq] at hres
        obtain ⟨ho, hm⟩ := hres
        subst ho hm
        cases hpw : manager.PasteWd2 with
        | none =>
          have hr := iocLoop_nil_paste h manager _ copyPosMap pastePosMap scale hpw _ _ _ _ hl
          simp only [Prod.mk.injEq] at hr
          left
          exact ⟨hr.1, by rw [hr.2, ← hpw]⟩
        | some pp =>
          by_cases hu : (h.get pp).Time ∈ manager.UsedPasteWd2
          · rw [iocLoop_used h manager _ copyPosMap pastePosMap scale pp hpw _ _ _ hu] at hl
            simp only [Option.some.injEq, Prod.mk.injEq] at hl
            left
            exact ⟨hl.1.symm, by rw [← hl.2, ← hpw]⟩
          · rw [iocLoop_fresh h manager _ copyPosMap pastePosMap scale pp hpw _ _ _ hu] at hl
            cases hf : manager.AllowedSymbols.findSome?
                (iocBaseOrder h manager (h.get cp).Time copyPosMap pastePosMap scale) with
            | none =>
              simp only [hf, Option.some.injEq, Prod.mk.injEq] at hl
              left
              exact ⟨hl.1.symm, by rw [← hl.2, ← hpw]⟩
            | some o =>
              simp only [hf, Option.some.injEq, Prod.mk.injEq, List.nil_append] at hl
              right
              obtain ⟨s, _, hs⟩ := List.exists_of_findSome?_eq_some hf
              have hcoin := iocBaseOrder_coin h manager _ copyPosMap pastePosMap scale s o hs
              refine ⟨o, cp, pp, hc, rfl, hu, hl.1.symm, by rw [← hl.2, ← hpw], ?_⟩
              rw [hcoin]; exact hs

/-! ## The switch against the table of C2 -/

theorem iocSwitch_specTable (l f c p diff : ℚ) (side : String) (sz : ℚ) (ro : Bool)
    (hlc : l = 0 → c ≤ 20) (hfp : f = 0 → p ≤ 20)
    (hsw : iocSwitch l f c p diff = some (side, sz, ro)) (hside : side ≠ "") :
    specTable 20 l f c p diff = some (side, sz, ro) := by
  unfold iocSwitch minNotionalDiff at hsw
  unfold specTable
  by_cases h1 : c > 20 ∧ p < 20
  · rw [if_pos h1] at hsw
    rw [if_pos h1]
    have hl : l ≠ 0 := fun h0 => absurd (hlc h0) (not_le.mpr h1.1)
    rcases lt_or_gt_of_ne hl with hneg | hpos
    · rw [if_pos hneg] at hsw
      rw [if_neg (not_lt.mpr hneg.le)]
      exact hsw
    · rw [if_neg (not_lt.mpr hpos.le)] at hsw
      rw [if_pos hpos]
      exact hsw
  · rw [if_neg h1] at hsw
    rw [if_neg h1]
    by_cases h2 : c < 20 ∧ p > 20
    · rw [if_pos h2] at hsw
      rw [if_pos h2]
      have hf : f ≠ 0 := fun h0 => absurd (hfp h0) (not_le.mpr h2.2)
      rcases lt_or_gt_of_ne hf with hneg | hpos
      · rw [if_pos hneg] at hsw
        rw [if_neg (not_lt.mpr hneg.le)]
        exact hsw
      · rw [if_neg (not_lt.mpr hpos.le)] at hsw
        rw [if_pos hpos]
        exact hsw
    · rw [if_neg h2] at hsw
      rw [if_neg h2]
      by_cases h3 : l > 0 ∧ f > 0
      · rw [if_pos h3] at hsw
        rw [if_pos h3]
        by_cases h3a : c > fl (p - 20)
        · rw [if_pos h3a] at hsw
          rw [if_pos h3a]
          exact hsw
        · rw [if_neg h3a] at hsw
          rw [if_neg h3a]
          by_cases h3b : c < fl (p + 20)
          · rw [if_pos h3b] at hsw; exact hsw
          · rw [if_neg h3b] at hsw; exact absurd hsw (by simp)
      · rw [if_neg h3] at hsw
        rw [if_neg h3]
        by_cases h4 : l < 0 ∧ f < 0
        · rw [if_pos h4] at hsw
          rw [if_pos h4]
          by_cases h4a : c > fl (p - 20)
          · rw [if_pos h4a] at hsw
            rw [if_pos h4a]
            exact hsw
          · rw [if_neg h4a] at hsw
            rw [if_neg h4a]
            by_cases h4b : c < fl (p + 20)
            · rw [if_pos h4b] at hsw; exact hsw
            · rw [if_neg h4b] at hsw; exact absurd hsw (by simp)
        · rw [if_neg h4] at hsw
          rw [if_neg h4]
          by_cases h5 : l > 0 ∧ f < 0
          · rw [if_pos h5] at hsw
            rw [if_pos h5]
            exact hsw
          · rw [if_neg h5] at hsw
            rw [if_neg h5]
            by_cases h6 : l < 0 ∧ f > 0
            · rw [if_pos h6] at hsw
              rw [if_pos h6]
              exact hsw
            · rw [if_neg h6] at hsw
              simp only [Option.some.injEq, Prod.mk.injEq] at hsw
              exact absurd hsw.1.symm hside

/-- What an order built for a coin records: the coin passed every guard of the loop
body, and side, size and reduce-only flag are the outcome of the switch. -/
theorem iocBaseOrder_some (h : Heap) (manager : Manager) (copyTime : Int)
    (copyPosMap pastePosMap : GoMap Position) (scale : Bool) (s : String) (o : Order)
    (hb : iocBaseOrder h manager copyTime copyPosMap pastePosMap scale s = some o) :
    0 < manager.GetMidPrice s ∧
    20 ≤ notionalDiffOf h manager copyPosMap pastePosMap scale s ∧
    o.Side ≠ "" ∧
    iocSwitch (iocCopySzi h manager copyPosMap scale s) (GoMap.index pastePosMap s).Szi
      (copyNotionalOf h manager copyPosMap scale s) (pasteNotionalOf manager pastePosMap s)
      (diffSzOf h manager copyPosMap pastePosMap scale s) = some (o.Side, o.Sz, o.ReduceOnly) := by
  unfold iocBaseOrder at hb
  simp only [] at hb
  split_ifs at hb with hv hm hn
  split at hb
  · exact absurd hb (by simp)
  next side sz ro hsw =>
    split_ifs at hb with hskip
    simp only [Option.some.injEq] at hb
    subst hb
    refine ⟨not_le.mp hm, not_lt.mp hn, ?_, hsw⟩
    exact fun hempty => hskip (Or.inl hempty)

/-- The 2-dp notional of a size of 0 is 0. -/
theorem copyNotionalOf_zero (h : Heap) (manager : Manager) (copyPosMap : GoMap Position)
    (scale : Bool) (s : String) (h0 : iocCopySzi h manager copyPosMap scale s = 0) :
    copyNotionalOf h manager copyPosMap scale s = 0 := by
  unfold copyNotionalOf
  rw [h0, abs_zero, zero_mul, fl_zero, RoundToPrecision_zero]

/-- The 2-dp notional of a follower size of 0 is 0. -/
theorem pasteNotionalOf_zero (manager : Manager) (pastePosMap : GoMap Position) (s : String)
    (h0 : (GoMap.index pastePosMap s).Szi = 0) : pasteNotionalOf manager pastePosMap s = 0 := by
  unfold pasteNotionalOf
  rw [h0, abs_zero, zero_mul, fl_zero, RoundToPrecision_zero]

/-- **C2 (as amended).** Whenever `GetIocReconcileOrders` emits an order for a coin, its
side, size and reduce-only flag are those of the first matching row of the table read on
the scaled leader size `l` (its sign and its magnitude), with N = 20, c and p the 2-dp
notionals of `l` and of the follower size, diff the size difference rounded to
size-decimals, and every product, sum and difference a `float64` operation. -/
theorem ioc_order_follows_table (h : Heap) (manager : Manager)
    (copyPosMap pastePosMap : GoMap Position) (scale bypassCheck : Bool)
    (orders : List Order) (manager1 : Manager) (o : Order)
    (hres : manager.GetIocReconcileOrders h copyPosMap pastePosMap scale bypassCheck
      = some (orders, manager1))
    (ho : o ∈ orders) :
    specTable 20
      (iocCopySzi h manager copyPosMap scale o.Coin)
      (GoMap.index pastePosMap o.Coin).Szi
      (copyNotionalOf h manager copyPosMap scale o.Coin)
      (pasteNotionalOf manager pastePosMap o.Coin)
      (diffSzOf h manager copyPosMap pastePosMap scale o.Coin)
      = some (o.Side, o.Sz, o.ReduceOnly) := by
  rcases GetIocReconcileOrders_cases h manager copyPosMap pastePosMap scale bypassCheck
      orders manager1 hres with ⟨hnil, _⟩ | ⟨o1, cp, pp, _, _, _, hone, _, hb⟩
  · rw [hnil] at ho; exact absurd ho (List.not_mem_nil _)
  · rw [hone, List.mem_singleton] at ho
    subst ho
    obtain ⟨_, _, hside, hsw⟩ := iocBaseOrder_some h manager _ copyPosMap pastePosMap scale _ _ hb
    refine iocSwitch_specTable _ _ _ _ _ _ _ _ ?_ ?_ hsw hside
    · intro h0
      rw [copyNotionalOf_zero h manager copyPosMap scale _ h0]; norm_num
    · intro h0
      rw [pasteNotionalOf_zero manager pastePosMap _ h0]; norm_num

/-- Witness for C2 (as amended): at equities 100 and 170 a leader holding +0.75 of W
(size-decimals 3) scales to the `float64` 1.275 and a flat follower buys it (open row); a
leader holding +0.75 of X (size-decimals 2) scales to 1.27, and a follower at -0.5 of X
buys 1.77 (flip row). -/
theorem ioc_order_follows_table_witness :
    (exFloatManager.GetIocReconcileOrders exFloatHeap (exLeaderPos "W") [] true false
        = some ([exFloatOrder "W" "B" (fl (1275 / 1000)) false], exFloatManagerUsed) ∧
      specTable 20 (iocCopySzi exFloatHeap exFloatManager (exLeaderPos "W") true "W")
        (GoMap.index ([] : GoMap Position) "W").Szi
        (copyNotionalOf exFloatHeap exFloatManager (exLeaderPos "W") true "W")
        (pasteNotionalOf exFloatManager [] "W")
        (diffSzOf exFloatHeap exFloatManager (exLeaderPos "W") [] true "W")
        = some ("B", fl (1275 / 1000), false)) ∧
    (exFloatManager.GetIocReconcileOrders exFloatHeap (exLeaderPos "X")
          (exFollowerX (-1 / 2) 50) true false
        = some ([exFloatOrder "X" "B" (fl (177 / 100)) false], exFloatManagerUsed) ∧
      specTable 20 (iocCopySzi exFloatHeap exFloatManager (exLeaderPos "X") true "X")
        (GoMap.index (exFollowerX (-1 / 2) 50) "X").Szi
        (copyNotionalOf exFloatHeap exFloatManager (exLeaderPos "X") true "X")
        (pasteNotionalOf exFloatManager (exFollowerX (-1 / 2) 50) "X")
        (diffSzOf exFloatHeap exFloatManager (exLeaderPos "X") (exFollowerX (-1 / 2) 50) true "X")
        = some ("B", fl (177 / 100), false)) :=
  ⟨⟨by decide!,
      ioc_order_follows_table exFloatHeap exFloatManager (exLeaderPos "W") [] true false
        [exFloatOrder "W" "B" (fl (1275 / 1000)) false] exFloatManagerUsed
        (exFloatOrder "W" "B" (fl (1275 / 1000)) false) (by decide!)
        (List.mem_singleton.mpr rfl)⟩,
    ⟨by decide!,
      ioc_order_follows_table exFloatHeap exFloatManager (exLeaderPos "X")
        (exFollowerX (-1 / 2) 50) true false
        [exFloatOrder "X" "B" (fl (177 / 100)) false] exFloatManagerUsed
        (exFloatOrder "X" "B" (fl (177 / 100)) false) (by decide!)
        (List.mem_singleton.mpr rfl)⟩⟩

/-- The values that the table is read on in the witness for C2: the scaled leader sizes
1.275 (W) and 1.27 (X), and the notionals and size differences that follow from them. -/
theorem ioc_table_inputs :
    iocCopySzi exFloatHeap exFloatManager (exLeaderPos "W") true "W" = fl (1275 / 1000) ∧
    copyNotionalOf exFloatHeap exFloatManager (exLeaderPos "W") true "W" = 255 / 2 ∧
    iocCopySzi exFloatHeap exFloatManager (exLeaderPos "X") true "X" = fl (127 / 100) ∧
    copyNotionalOf exFloatHeap exFloatManager (exLeaderPos "X") true "X" = 127 ∧
    pasteNotionalOf exFloatManager (exFollowerX (-1 / 2) 50) "X" = 50 ∧
    diffSzOf exFloatHeap exFloatManager (exLeaderPos "X") (exFollowerX (-1 / 2) 50) true "X"
      = fl (177 / 100) := by
  refine ⟨by decide!, by decide!, by decide!, by decide!, by decide!, by decide!⟩

/-- Counterexample to C2 as stated: with a leader equity of -100 and a follower equity of
200 the scale factor is -2; the leader is long 10 X (side B), the scaled leader size is
-20, and the open row emits an ask of 20 X, not an order at the leader's side. -/
theorem open_row_against_leader_side :
    (GoMap.index exLeaderFrame.PositionsByCoin "X").Szi = 10 ∧
    iocCopySzi exNegativeHeap exManager exLeaderFrame.PositionsByCoin true "X" = -20 ∧
    (exManager.GetIocReconcileOrders exNegativeHeap exLeaderFrame.PositionsByCoin [] true
        false).map (fun r => r.1.map (fun o => (o.Coin, o.Side, o.Sz, o.ReduceOnly)))
      = some [("X", "A", 20, false)] := by
  refine ⟨by decide!, by decide!, by decide!⟩

/-! ## Go map lemmas -/

theorem GoMap.lookup_put_self {V : Type} (m : GoMap V) (k : String) (v : V) :
    GoMap.lookup (GoMap.put m k v) k = some v := by
  induction m with
  | nil => simp [GoMap.put, GoMap.lookup]
  | cons e t ih =>
    obtain ⟨k', v'⟩ := e
    by_cases hk : k' = k
    · simp [GoMap.put, GoMap.lookup, hk]
    · simp [GoMap.put, GoMap.lookup, hk, ih]

theorem GoMap.lookup_put_ne {V : Type} (m : GoMap V) (k k2 : String) (v : V) (hne : k ≠ k2) :
    GoMap.lookup (GoMap.put m k v) k2 = GoMap.lookup m k2 := by
  induction m with
  | nil => simp [GoMap.put, GoMap.lookup, hne]
  | cons e t ih =>
    obtain ⟨k', v'⟩ := e
    by_cases hk : k' = k
    · subst hk
      simp [GoMap.put, GoMap.lookup, hne]
    · by_cases hk2 : k' = k2
      · subst hk2
        simp [GoMap.put, GoMap.lookup, hk]
      · simp [GoMap.put, GoMap.lookup, hk, hk2, ih]

theorem GoMap.index_put_self {V : Type} [Inhabited V] (m : GoMap V) (k : String) (v : V) :
    GoMap.index (GoMap.put m k v) k = v := by
  simp [GoMap.index, GoMap.lookup_put_self]

/-! ## Passes of the IOC reconciler -/

/-- A pass returns at most one order. -/
theorem GetIocReconcileOrders_length_le_one (h : Heap) (manager : Manager)
    (copyPosMap pastePosMap : GoMap Position) (scale bypassCheck : Bool)
    (orders : List Order) (manager1 : Manager)
    (hres : manager.GetIocReconcileOrders h copyPosMap pastePosMap scale bypassCheck
      = some (orders, manager1)) :
    orders.length ≤ 1 := by
  rcases GetIocReconcileOrders_cases h manager copyPosMap pastePosMap scale bypassCheck
      orders manager1 hres with ⟨hnil, _⟩ | ⟨o1, cp, pp, _, _, _, hone, _, _⟩
  · simp [hnil]
  · simp [hone]

/-- The result of `handleIocReconcile` in terms of the pass it runs. -/
theorem handleIocReconcile_cases (h : Heap) (manager : Manager) (copyWd2 : WebData2Message)
    (pastePositionsModelled : GoMap Position) (r : IocPassResult)
    (hres : handleIocReconcile h manager copyWd2 pastePositionsModelled = some r) :
    (r.sent = [] ∧ r.positions = pastePositionsModelled) ∨
    ∃ manager1, manager.GetIocReconcileOrders h copyWd2.PositionsByCoin pastePositionsModelled
        true false = some (r.sent, manager1) ∧
      r.positions = applyIocOrders pastePositionsModelled r.sent := by
  unfold handleIocReconcile at hres
  split_ifs at hres with hready
  · split at hres
    · exact absurd hres (by simp)
    next orders manager1 hget =>
      simp only [Option.some.injEq] at hres
      subst hres
      exact Or.inr ⟨manager1, hget, rfl⟩
  · simp only [Option.some.injEq] at hres
    subst hres
    exact Or.inl ⟨rfl, rfl⟩

/-- The sent orders of a pass are none or one, and the projection is updated by it. -/
theorem handleIocReconcile_sent (h : Heap) (manager : Manager) (copyWd2 : WebData2Message)
    (pastePositionsModelled : GoMap Position) (r : IocPassResult)
    (hres : handleIocReconcile h manager copyWd2 pastePositionsModelled = some r) :
    (r.sent = [] ∧ r.positions = pastePositionsModelled) ∨
    ∃ o cp, r.sent = [o] ∧
      iocBaseOrder h manager cp copyWd2.PositionsByCoin pastePositionsModelled true o.Coin
        = some o ∧
      r.positions = GoMap.put pastePositionsModelled o.Coin
        { GoMap.index pastePositionsModelled o.Coin with
          Szi := fl ((GoMap.index pastePositionsModelled o.Coin).Szi
            + fl (sideSign o.Side * o.Sz)) } := by
  rcases handleIocReconcile_cases h manager copyWd2 pastePositionsModelled r hres with
    hnil | ⟨manager1, hget, hpos⟩
  · exact Or.inl hnil
  · rcases GetIocReconcileOrders_cases h manager _ pastePositionsModelled true false
        r.sent manager1 hget with ⟨hnil, _⟩ | ⟨o1, cp, pp, _, _, _, hone, _, hb⟩
    · left
      refine ⟨hnil, ?_⟩
      rw [hpos, hnil]; rfl
    · right
      refine ⟨o1, (h.get cp).Time, hone, hb, ?_⟩
      rw [hpos, hone]; rfl

/-- The switch of `GetIocReconcileOrders` sets the side to A or to B, or leaves it empty. -/
theorem iocSwitch_side (l f c p diff : ℚ) (side : String) (sz : ℚ) (ro : Bool)
    (hsw : iocSwitch l f c p diff = some (side, sz, ro)) :
    side = "B" ∨ side = "A" ∨ side = "" := by
  unfold iocSwitch at hsw
  split_ifs at hsw <;> simp only [Option.some.injEq, Prod.mk.injEq] at hsw <;>
    first
    | exact Or.inl hsw.1.symm
    | exact Or.inr (Or.inl hsw.1.symm)
    | exact Or.inr (Or.inr hsw.1.symm)

/-- **C6.** After `handleIocReconcile` emits order `o` for a coin, `o` is a bid (side B) or
an ask (side A), and the projected follower signed size of that coin is its value before
the pass plus `sign x o.Sz`, with sign +1 for a bid and -1 for an ask, the product and the
sum being `float64` operations; the projected position of every coin without an emitted
order is unchanged. -/
theorem projection_update (h : Heap) (manager : Manager) (copyWd2 : WebData2Message)
    (pastePositionsModelled : GoMap Position) (r : IocPassResult)
    (hres : handleIocReconcile h manager copyWd2 pastePositionsModelled = some r) :
    (∀ o ∈ r.sent,
      (o.Side = "B" ∨ o.Side = "A") ∧
      (o.Side = "B" → (GoMap.index r.positions o.Coin).Szi
        = fl ((GoMap.index pastePositionsModelled o.Coin).Szi + fl (1 * o.Sz))) ∧
      (o.Side = "A" → (GoMap.index r.positions o.Coin).Szi
        = fl ((GoMap.index pastePositionsModelled o.Coin).Szi + fl (-1 * o.Sz)))) ∧
    (∀ coin, (∀ o ∈ r.sent, o.Coin ≠ coin) →
        GoMap.lookup r.positions coin = GoMap.lookup pastePositionsModelled coin) := by
  rcases handleIocReconcile_sent h manager copyWd2 pastePositionsModelled r hres with
    ⟨hnil, hpos⟩ | ⟨o1, cp, hone, hb, hpos⟩
  · constructor
    · intro o ho; rw [hnil] at ho; exact absurd ho (List.not_mem_nil _)
    · intro coin _; rw [hpos]
  · constructor
    · intro o ho
      rw [hone, List.mem_singleton] at ho
      subst ho
      obtain ⟨_, _, hside, hsw⟩ :=
        iocBaseOrder_some h manager cp copyWd2.PositionsByCoin pastePositionsModelled true _ _ hb
      have hAB : o.Side = "B" ∨ o.Side = "A" := by
        rcases iocSwitch_side _ _ _ _ _ _ _ _ hsw with hB | hA | hE
        · exact Or.inl hB
        · exact Or.inr hA
        · exact absurd hE hside
      refine ⟨hAB, ?_, ?_⟩
      · intro hB
        rw [hpos, GoMap.index_put_self, hB]
        have hs : sideSign "B" = 1 := by simp [sideSign]
        rw [hs]
      · intro hA
        rw [hpos, GoMap.index_put_self, hA]
        have hne : ¬ ("A" = "B") := by decide
        have hs : sideSign "A" = -1 := by simp [sideSign, hne]
        rw [hs]
    · intro coin hcoin
      have hne : o1.Coin ≠ coin := hcoin o1 (by rw [hone]; exact List.mem_singleton.mpr rfl)
      rw [hpos, GoMap.lookup_put_ne _ _ _ _ hne]

/-- Witness for C6: at equities 100 and 170 with the leader at +0.75 of X and the follower
projected at +1.47 of X, the pass sends a reduce-only ask of 0.2 and the projection of X
becomes 1.47 - 0.2 = 1.27 in `float64`, while W, which got no order, is as it was; in the
flip scenario (follower projected at -5, bid of 25) the projection of X becomes 20. -/
theorem projection_update_witness :
    (handleIocReconcile exFloatHeap exFloatManager (exFloatLeaderOf "X")
        (exFollowerX (fl (147 / 100)) 147) = some exSellResult ∧
      exSellOrder.Side = "A" ∧
      (GoMap.index exSellResult.positions exSellOrder.Coin).Szi
        = fl ((GoMap.index (exFollowerX (fl (147 / 100)) 147) exSellOrder.Coin).Szi
            + fl (-1 * exSellOrder.Sz)) ∧
      (GoMap.index exSellResult.positions "X").Szi = fl (127 / 100) ∧
      GoMap.lookup exSellResult.positions "W"
        = GoMap.lookup (exFollowerX (fl (147 / 100)) 147) "W") ∧
    (handleIocReconcile exHeap exManager exLeaderFrame (exFollowerX (-5) 250)
        = some exFlipResult ∧
      exFlipOrder.Side = "B" ∧
      (GoMap.index exFlipResult.positions exFlipOrder.Coin).Szi
        = fl ((GoMap.index (exFollowerX (-5) 250) exFlipOrder.Coin).Szi
            + fl (1 * exFlipOrder.Sz)) ∧
      (GoMap.index exFlipResult.positions "X").Szi = 20) :=
  ⟨⟨by decide!, rfl,
      ((projection_update exFloatHeap exFloatManager (exFloatLeaderOf "X")
        (exFollowerX (fl (147 / 100)) 147) exSellResult (by decide!)).1 exSellOrder
        (List.mem_singleton.mpr rfl)).2.2 rfl,
      by decide!,
      (projection_update exFloatHeap exFloatManager (exFloatLeaderOf "X")
        (exFollowerX (fl (147 / 100)) 147) exSellResult (by decide!)).2 "W" (by decide!)⟩,
    ⟨by decide!, rfl,
      ((projection_update exHeap exManager exLeaderFrame (exFollowerX (-5) 250) exFlipResult
        (by decide!)).1 exFlipOrder (List.mem_singleton.mpr rfl)).2.1 rfl,
      by decide!⟩⟩

/-! ## Where the projection lands -/

/-- Evaluation for C1 at its failing input: equities 100 and 100 (scale factor 1), X at
mid price 3.10 with size-decimals 2, the leader long 7.77 X (notional 24.09), the follower
projected long 14.22 X (notional 44.08). The size difference is 6.45 (notional 20.00), the
test `c > p - 20` holds (24.09 > 24.08) although the follower is the larger, and the pass
sends a bid of 6.45: the projection of X ends at 20.67, not at the scaled leader size 7.77. -/
theorem same_sign_bid_overshoots :
    (handleIocReconcile exOvershootHeap exOvershootManager (exOvershootHeap.get 0)
        exOvershootFollower).map
        (fun r => (r.sent.map (fun o => (o.Coin, o.Side, o.Sz, o.ReduceOnly)),
                   (GoMap.index r.positions "X").Szi))
      = some ([("X", "B", fl (645 / 100), false)], fl (2067 / 100)) ∧
    iocCopySzi exOvershootHeap exOvershootManager (exOvershootHeap.get 0).PositionsByCoin true "X"
      = fl (777 / 100) ∧
    copyNotionalOf exOvershootHeap exOvershootManager (exOvershootHeap.get 0).PositionsByCoin
      true "X" = fl (2409 / 100) ∧
    pasteNotionalOf exOvershootManager exOvershootFollower "X" = fl (4408 / 100) ∧
    fl (2067 / 100) ≠ fl (777 / 100) := by
  refine ⟨by decide!, by decide!, by decide!, by decide!, by decide!⟩

/-! ## The minimum-notional guard -/

/-- **C4 (as amended).** For every coin, if the notional of the size difference
(|follower size - scaled leader size| rounded to size-decimals, times the mid price,
rounded to 2 dp, in `float64`) is below 20, `GetIocReconcileOrders` emits no order for
that coin. -/
theorem no_order_below_min_diff (h : Heap) (manager : Manager)
    (copyPosMap pastePosMap : GoMap Position) (scale bypassCheck : Bool)
    (orders : List Order) (manager1 : Manager) (symbol : String)
    (hres : manager.GetIocReconcileOrders h copyPosMap pastePosMap scale bypassCheck
      = some (orders, manager1))
    (hsmall : notionalDiffOf h manager copyPosMap pastePosMap scale symbol < 20) :
    ∀ o ∈ orders, o.Coin ≠ symbol := by
  intro o ho hcoin
  rcases GetIocReconcileOrders_cases h manager copyPosMap pastePosMap scale bypassCheck
      orders manager1 hres with ⟨hnil, _⟩ | ⟨o1, cp, pp, _, _, _, hone, _, hb⟩
  · rw [hnil] at ho; exact absurd ho (List.not_mem_nil _)
  · rw [hone, List.mem_singleton] at ho
    subst ho
    obtain ⟨_, hge, _, _⟩ := iocBaseOrder_some h manager _ copyPosMap pastePosMap scale _ _ hb
    rw [hcoin] at hge
    linarith

/-- Witness for C4 (as amended): scaled leader +20 against a follower at 19.7 differs by
15 dollars at mid 50; the pass, which goes on to Y, emits nothing for X. At equities 100
and 170 the scaled leader 1.27 against a follower at 1.37 of X differs by 10 dollars at mid
100, and the pass emits nothing; against a follower at 1.47 the difference is 0.2, its
notional is 20 in `float64`, not below the minimum, and the pass sends a reduce-only ask of
0.2. -/
theorem no_order_below_min_diff_witness :
    (notionalDiffOf exHeap exManager exLeaderFrame.PositionsByCoin
        (exFollowerX (fl (197 / 10)) 985) true "X" = 15 ∧
      exManager.GetIocReconcileOrders exHeap exLeaderFrame.PositionsByCoin
          (exFollowerX (fl (197 / 10)) 985) true false
        = some ([{ Coin := "Y", Side := "B", Sz := 20, Tif := TifFrontendMarket,
                   Cloid := "0xcc0678" }], exManagerUsed) ∧
      ({ Coin := "Y", Side := "B", Sz := 20, Tif := TifFrontendMarket,
         Cloid := "0xcc0678" } : Order).Coin ≠ "X") ∧
    (notionalDiffOf exFloatHeap exFloatManager (exLeaderPos "X")
        (exFollowerX (fl (137 / 100)) 137) true "X" = 10 ∧
      exFloatManager.GetIocReconcileOrders exFloatHeap (exLeaderPos "X")
          (exFollowerX (fl (137 / 100)) 137) true false = some ([], exFloatManager) ∧
      notionalDiffOf exFloatHeap exFloatManager (exLeaderPos "X")
        (exFollowerX (fl (147 / 100)) 147) true "X" = 20 ∧
      exFloatManager.GetIocReconcileOrders exFloatHeap (exLeaderPos "X")
          (exFollowerX (fl (147 / 100)) 147) true false
        = some ([exSellOrder], exFloatManagerUsed)) :=
  ⟨⟨by decide!, by decide!,
      no_order_below_min_diff exHeap exManager exLeaderFrame.PositionsByCoin
        (exFollowerX (fl (197 / 10)) 985) true false
        [{ Coin := "Y", Side := "B", Sz := 20, Tif := TifFrontendMarket, Cloid := "0xcc0678" }]
        exManagerUsed "X" (by decide!) (by decide!) _ (List.mem_singleton.mpr rfl)⟩,
    ⟨by decide!, by decide!, by decide!, by decide!⟩⟩

/-- Counterexample to C4 as stated: scaled leader +20 and follower -20 at mid 50 have the
same notional 1000, so the notionals differ by 0 < 20, yet the pass emits a buy of 40. -/
theorem equal_notional_counterexample :
    |(|iocCopySzi exHeap exManager exLeaderFrame.PositionsByCoin true "X"|
          * exManager.GetMidPrice "X")
        - (|(GoMap.index (exFollowerX (-20) 1000) "X").Szi| * exManager.GetMidPrice "X")| < 20 ∧
    (exManager.GetIocReconcileOrders exHeap exLeaderFrame.PositionsByCoin
        (exFollowerX (-20) 1000) true false).map
        (fun r => r.1.map (fun o => (o.Coin, o.Side, o.Sz, o.ReduceOnly)))
      = some [("X", "B", 40, false)] := by
  decide!

/-! ## One order per pass, and the consumed follower frame -/

/-- Evaluation for C3 at its failing input: X and Y are both enabled, both have a positive
mid price, a leader position value of 500 and a difference notional of 1000, and the
follower frame's time 1000 is not yet in `UsedPasteWd2`; the pass returns the order of X
only, none for Y. -/
theorem second_coin_gets_no_order :
    (exManager.GetIocReconcileOrders exHeap exLeaderFrame.PositionsByCoin [] true false).map
        (fun r => (r.1.map (fun o => (o.Coin, o.Side, o.Sz)), r.2.UsedPasteWd2))
      = some ([("X", "B", 20)], [1000]) ∧
    "Y" ∈ exManager.AllowedSymbols ∧
    0 < exManager.GetMidPrice "Y" ∧
    minNotionalDiff ≤ (GoMap.index exLeaderFrame.PositionsByCoin "Y").PositionValue ∧
    minNotionalDiff ≤ notionalDiffOf exHeap exManager exLeaderFrame.PositionsByCoin [] true "Y" ∧
    (1000 : Int) ∉ exManager.UsedPasteWd2 := by
  decide!

/-- A call made with the follower head frame's time already in `UsedPasteWd2` returns no
order and leaves the manager as it is. -/
theorem GetIocReconcileOrders_consumed (h : Heap) (manager : Manager)
    (copyPosMap pastePosMap : GoMap Position) (scale bypassCheck : Bool) (cp pp : Ptr)
    (hcp : manager.CopyWd2 = some cp) (hpp : manager.PasteWd2 = some pp)
    (hused : (h.get pp).Time ∈ manager.UsedPasteWd2) :
    manager.GetIocReconcileOrders h copyPosMap pastePosMap scale bypassCheck
      = some ([], manager) := by
  unfold Manager.GetIocReconcileOrders
  split
  next hnone => rw [hcp] at hnone; exact absurd hnone (by simp)
  next cp1 hc1 =>
    split_ifs with hlen
    · rfl
    · rw [iocLoop_used h manager _ copyPosMap pastePosMap scale pp hpp _ _ _ hused]

/-- A pass started with the follower head frame's time already in `UsedPasteWd2` returns
no order and leaves the set as it is. -/
theorem iocPass_consumed (used : List Int) (i : IocPassInput) (cp pp : Ptr)
    (hcp : i.manager.CopyWd2 = some cp) (hpp : i.manager.PasteWd2 = some pp)
    (hused : (i.h.get pp).Time ∈ used) :
    iocPass used i = some ([], used) := by
  unfold iocPass
  rw [GetIocReconcileOrders_consumed i.h { i.manager with UsedPasteWd2 := used }
    i.copyPosMap i.pastePosMap i.scale i.bypassCheck cp pp hcp hpp hused]

/-- A pass never removes a time from `UsedPasteWd2`, and a pass that emits an order
records the time of the follower head frame. -/
theorem iocPass_used (used : List Int) (i : IocPassInput) (orders : List Order)
    (used1 : List Int) (hres : iocPass used i = some (orders, used1)) :
    (∀ t ∈ used, t ∈ used1) ∧
    (orders ≠ [] → ∀ pp, i.manager.PasteWd2 = some pp → (i.h.get pp).Time ∈ used1) := by
  unfold iocPass at hres
  split at hres
  · exact absurd hres (by simp)
  next orders1 manager1 hget =>
    simp only [Option.some.injEq, Prod.mk.injEq] at hres
    obtain ⟨ho, hu⟩ := hres
    subst ho hu
    rcases GetIocReconcileOrders_cases _ _ _ _ _ _ _ _ hget with
      ⟨hnil, hm⟩ | ⟨o1, cp, pp, _, hpp, _, hone, hm, _⟩
    · rw [hm]
      exact ⟨fun t ht => ht, fun hne => absurd hnil hne⟩
    · rw [hm]
      refine ⟨fun t ht => List.mem_cons_of_mem _ ht, fun _ pp2 hpp2 => ?_⟩
      have hpeq : pp2 = pp := by
        have h1 : some pp2 = some pp := by rw [← hpp2]; exact hpp
        exact Option.some.inj h1
      rw [hpeq]
      exact List.mem_cons_self _ _

/-- A run of passes never removes a time from `UsedPasteWd2`. -/
theorem iocPasses_used (passes : List IocPassInput) (used used1 : List Int)
    (hres : iocPasses used passes = some used1) : ∀ t ∈ used, t ∈ used1 := by
  induction passes generalizing used with
  | nil =>
    simp only [iocPasses, Option.some.injEq] at hres
    subst hres
    exact fun t ht => ht
  | cons i rest ih =>
    unfold iocPasses at hres
    split at hres
    · exact absurd hres (by simp)
    next orders usedMid hpass =>
      intro t ht
      exact ih usedMid hres t ((iocPass_used used i orders usedMid hpass).1 t ht)

/-- **C5.** Once a pass of `GetIocReconcileOrders` has emitted an order while the follower
head frame has clearinghouse time t, every later pass made while the follower head frame
has that same time t returns no order (and returns: it leaves `UsedPasteWd2` as it is),
whatever happened in the passes in between and whatever the positions are. -/
theorem consumed_follower_frame_emits_nothing (used0 used1 used2 : List Int)
    (first last : IocPassInput) (between : List IocPassInput) (orders1 : List Order)
    (p1 p2 cp2 : Ptr)
    (hfirst : iocPass used0 first = some (orders1, used1))
    (hemit : orders1 ≠ [])
    (hp1 : first.manager.PasteWd2 = some p1)
    (hbetween : iocPasses used1 between = some used2)
    (hcp2 : last.manager.CopyWd2 = some cp2)
    (hp2 : last.manager.PasteWd2 = some p2)
    (htime : (last.h.get p2).Time = (first.h.get p1).Time) :
    iocPass used2 last = some ([], used2) := by
  have h1 : (first.h.get p1).Time ∈ used1 := (iocPass_used used0 first orders1 used1 hfirst).2 hemit p1 hp1
  have h2 : (first.h.get p1).Time ∈ used2 := iocPasses_used between used1 used2 hbetween _ h1
  exact iocPass_consumed used2 last cp2 p2 hcp2 hp2 (by rw [htime]; exact h2)

/-- Witness for C5: the first pass opens X on the follower frame of time 1000; a later
pass on a new leader frame with X grown to +30, the follower head unchanged, returns
nothing although X and Y both differ. -/
theorem consumed_follower_frame_emits_nothing_witness :
    iocPass [1000] (exPass2 []) = some ([], [1000]) :=
  consumed_follower_frame_emits_nothing [] [1000] [1000] (exPass []) (exPass2 []) [exPass []]
    [{ Coin := "X", Side := "B", Sz := 20, Tif := TifFrontendMarket, Cloid := "0xcc0678" }]
    1 1 2 (by decide!) (by simp) rfl (by decide!) rfl rfl (by decide!)

/-! ## Go maps built by loops -/

theorem GoMap.contains_iff_lookup {V : Type} (m : GoMap V) (k : String) :
    GoMap.contains m k = true ↔ ∃ v, GoMap.lookup m k = some v := by
  unfold GoMap.contains
  exact Option.isSome_iff_exists

theorem GoMap.contains_put {V : Type} (m : GoMap V) (k k2 : String) (v : V) :
    GoMap.contains (GoMap.put m k v) k2 = true ↔ k = k2 ∨ GoMap.contains m k2 = true := by
  by_cases hk : k = k2
  · subst hk
    simp [GoMap.contains, GoMap.lookup_put_self]
  · simp [GoMap.contains, GoMap.lookup_put_ne _ _ _ _ hk, hk]

theorem GoMap.mem_put {V : Type} (m : GoMap V) (k : String) (v : V) (e : String × V)
    (he : e ∈ GoMap.put m k v) : e = (k, v) ∨ e ∈ m := by
  induction m with
  | nil =>
    simp only [GoMap.put, List.mem_singleton] at he
    exact Or.inl he
  | cons e1 t ih =>
    obtain ⟨k1, v1⟩ := e1
    unfold GoMap.put at he
    split_ifs at he with hk
    · rcases List.mem_cons.mp he with h1 | h1
      · exact Or.inl h1
      · exact Or.inr (List.mem_cons_of_mem _ h1)
    · rcases List.mem_cons.mp he with h1 | h1
      · exact Or.inr (by rw [h1]; exact List.mem_cons_self _ _)
      · rcases ih h1 with h2 | h2
        · exact Or.inl h2
        · exact Or.inr (List.mem_cons_of_mem _ h2)

theorem GoMap.lookup_mem {V : Type} (m : GoMap V) (k : String) (v : V)
    (hl : GoMap.lookup m k = some v) : (k, v) ∈ m := by
  induction m with
  | nil => simp [GoMap.lookup] at hl
  | cons e1 t ih =>
    obtain ⟨k1, v1⟩ := e1
    unfold GoMap.lookup at hl
    split_ifs at hl with hk
    · simp only [Option.some.injEq] at hl
      subst hk hl
      exact List.mem_cons_self _ _
    · exact List.mem_cons_of_mem _ (ih hl)

theorem GoMap.contains_of_mem {V : Type} (m : GoMap V) (e : String × V) (he : e ∈ m) :
    GoMap.contains m e.1 = true := by
  induction m with
  | nil => exact absurd he (List.not_mem_nil _)
  | cons e1 t ih =>
    obtain ⟨k1, v1⟩ := e1
    by_cases hk : k1 = e.1
    · simp [GoMap.contains, GoMap.lookup, hk]
    · rcases List.mem_cons.mp he with h1 | h1
      · rw [h1] at hk; exact absurd rfl hk
      · have := ih h1
        simpa [GoMap.contains, GoMap.lookup, hk] using this

theorem putFold_nil {α V : Type} (P : α → Prop) [DecidablePred P] (key : α → String)
    (val : α → V) (init : GoMap V) : putFold P key val init [] = init := rfl

theorem putFold_cons {α V : Type} (P : α → Prop) [DecidablePred P] (key : α → String)
    (val : α → V) (init : GoMap V) (o : α) (os : List α) :
    putFold P key val init (o :: os)
      = putFold P key val (if P o then GoMap.put init (key o) (val o) else init) os := rfl

/-- A key is in the map built by the loop exactly when it was there before or the loop
stored an element under it. -/
theorem putFold_contains {α V : Type} (P : α → Prop) [DecidablePred P] (key : α → String)
    (val : α → V) (os : List α) (init : GoMap V) (k : String) :
    GoMap.contains (putFold P key val init os) k = true ↔
      GoMap.contains init k = true ∨ ∃ o ∈ os, P o ∧ key o = k := by
  induction os generalizing init with
  | nil => simp [putFold_nil]
  | cons o os ih =>
    rw [putFold_cons, ih]
    by_cases hP : P o
    · rw [if_pos hP, GoMap.contains_put]
      constructor
      · rintro ((hk | hc) | ⟨o2, ho2, h2⟩)
        · exact Or.inr ⟨o, List.mem_cons_self _ _, hP, hk⟩
        · exact Or.inl hc
        · exact Or.inr ⟨o2, List.mem_cons_of_mem _ ho2, h2⟩
      · rintro (hc | ⟨o2, ho2, h2⟩)
        · exact Or.inl (Or.inr hc)
        · rcases List.mem_cons.mp ho2 with h3 | h3
          · subst h3; exact Or.inl (Or.inl h2.2)
          · exact Or.inr ⟨o2, h3, h2⟩
    · rw [if_neg hP]
      constructor
      · rintro (hc | ⟨o2, ho2, h2⟩)
        · exact Or.inl hc
        · exact Or.inr ⟨o2, List.mem_cons_of_mem _ ho2, h2⟩
      · rintro (hc | ⟨o2, ho2, h2⟩)
        · exact Or.inl hc
        · rcases List.mem_cons.mp ho2 with h3 | h3
          · subst h3; exact absurd h2.1 hP
          · exact Or.inr ⟨o2, h3, h2⟩

/-- Every entry of the map built by the loop was there before or was stored by it. -/
theorem putFold_mem {α V : Type} (P : α → Prop) [DecidablePred P] (key : α → String)
    (val : α → V) (os : List α) (init : GoMap V) (e : String × V)
    (he : e ∈ putFold P key val init os) :
    e ∈ init ∨ ∃ o ∈ os, P o ∧ e = (key o, val o) := by
  induction os generalizing init with
  | nil => exact Or.inl he
  | cons o os ih =>
    rw [putFold_cons] at he
    rcases ih _ he with h1 | ⟨o2, ho2, h2⟩
    · by_cases hP : P o
      · rw [if_pos hP] at h1
        rcases GoMap.mem_put _ _ _ _ h1 with h3 | h3
        · exact Or.inr ⟨o, List.mem_cons_self _ _, hP, h3⟩
        · exact Or.inl h3
      · rw [if_neg hP] at h1
        exact Or.inl h1
    · exact Or.inr ⟨o2, List.mem_cons_of_mem _ ho2, h2⟩

theorem GoMap.nodupKeys_put {V : Type} (m : GoMap V) (k : String) (v : V)
    (hm : GoMap.NodupKeys m) : GoMap.NodupKeys (GoMap.put m k v) := by
  induction m with
  | nil => simp [GoMap.put, GoMap.NodupKeys]
  | cons e1 t ih =>
    obtain ⟨k1, v1⟩ := e1
    unfold GoMap.NodupKeys at hm ih ⊢
    simp only [List.map_cons, List.nodup_cons] at hm
    unfold GoMap.put
    split_ifs with hk
    · simp only [List.map_cons, List.nodup_cons]
      rw [← hk]
      exact hm
    · simp only [List.map_cons, List.nodup_cons]
      refine ⟨?_, ih hm.2⟩
      intro hin
      obtain ⟨e, he, hfst⟩ := List.mem_map.mp hin
      rcases GoMap.mem_put t k v e he with h1 | h1
      · rw [h1] at hfst
        exact hk hfst.symm
      · exact hm.1 (List.mem_map.mpr ⟨e, h1, hfst⟩)

theorem GoMap.lookup_of_mem {V : Type} (m : GoMap V) (hm : GoMap.NodupKeys m) (k : String)
    (v : V) (he : (k, v) ∈ m) : GoMap.lookup m k = some v := by
  induction m with
  | nil => exact absurd he (List.not_mem_nil _)
  | cons e1 t ih =>
    obtain ⟨k1, v1⟩ := e1
    unfold GoMap.NodupKeys at hm ih
    simp only [List.map_cons, List.nodup_cons] at hm
    rcases List.mem_cons.mp he with h1 | h1
    · simp only [Prod.mk.injEq] at h1
      simp [GoMap.lookup, h1.1, h1.2]
    · have hne : k1 ≠ k := by
        intro heq
        exact hm.1 (List.mem_map.mpr ⟨(k, v), h1, heq.symm⟩)
      simp only [GoMap.lookup, if_neg hne]
      exact ih hm.2 h1

theorem putFold_nodupKeys {α V : Type} (P : α → Prop) [DecidablePred P] (key : α → String)
    (val : α → V) (os : List α) (init : GoMap V) (hinit : GoMap.NodupKeys init) :
    GoMap.NodupKeys (putFold P key val init os) := by
  induction os generalizing init with
  | nil => exact hinit
  | cons o os ih =>
    rw [putFold_cons]
    by_cases hP : P o
    · rw [if_pos hP]; exact ih _ (GoMap.nodupKeys_put _ _ _ hinit)
    · rw [if_neg hP]; exact ih _ hinit

/-! ## The by-client-id view and the frame diffs -/

theorem OrdersByCloid_eq (wd2 : WebData2Message) :
    wd2.OrdersByCloid = putFold (fun o : Order => o.Cloid ≠ "") Order.Cloid id [] wd2.OpenOrders :=
  rfl

theorem OrdersByCloid_nodupKeys (wd2 : WebData2Message) : GoMap.NodupKeys wd2.OrdersByCloid := by
  rw [OrdersByCloid_eq]
  exact putFold_nodupKeys _ _ _ _ _ (by simp [GoMap.NodupKeys])

/-- A client-id is a key of the by-client-id view exactly when it is not empty and some
open order of the frame carries it. -/
theorem OrdersByCloid_contains (wd2 : WebData2Message) (c : String) :
    GoMap.contains wd2.OrdersByCloid c = true ↔ c ≠ "" ∧ ∃ o ∈ wd2.OpenOrders, o.Cloid = c := by
  rw [OrdersByCloid_eq, putFold_contains]
  constructor
  · rintro (hc | ⟨o, ho, hne, hk⟩)
    · simp [GoMap.contains, GoMap.lookup] at hc
    · exact ⟨by rw [← hk]; exact hne, o, ho, hk⟩
  · rintro ⟨hne, o, ho, hk⟩
    exact Or.inr ⟨o, ho, by rw [hk]; exact hne, hk⟩

/-- Every entry of the by-client-id view is an open order of the frame stored under its
own, non-empty client-id. -/
theorem OrdersByCloid_entry (wd2 : WebData2Message) (e : String × Order)
    (he : e ∈ wd2.OrdersByCloid) : e.2.Cloid = e.1 ∧ e.1 ≠ "" ∧ e.2 ∈ wd2.OpenOrders := by
  rw [OrdersByCloid_eq] at he
  rcases putFold_mem _ _ _ _ _ _ he with h1 | ⟨o, ho, hne, heq⟩
  · exact absurd h1 (List.not_mem_nil _)
  · rw [heq]
    exact ⟨rfl, hne, ho⟩

/-- The shape shared by `NewAloOrders` and `CancelledAloOrders`: the entries of `src`
whose coin is a key of the risk map and whose client-id `other` lacks. -/
theorem diffFold_contains (src other : GoMap Order) (coinRiskMap : GoMap ℚ)
    (hsrc : GoMap.NodupKeys src) (c : String) :
    GoMap.contains
      (src.foldl
        (fun acc e =>
          if GoMap.contains coinRiskMap e.2.Coin then
            if ¬ GoMap.contains other e.1 then GoMap.put acc e.1 e.2 else acc
          else acc)
        []) c = true ↔
      ∃ o, GoMap.lookup src c = some o ∧ GoMap.contains coinRiskMap o.Coin = true ∧
        GoMap.contains other c = false := by
  have hfold : (src.foldl
        (fun acc e =>
          if GoMap.contains coinRiskMap e.2.Coin then
            if ¬ GoMap.contains other e.1 then GoMap.put acc e.1 e.2 else acc
          else acc)
        [])
      = putFold (fun e : String × Order => GoMap.contains coinRiskMap e.2.Coin = true ∧
          ¬ GoMap.contains other e.1 = true) Prod.fst Prod.snd [] src := by
    unfold putFold
    congr 1
    funext acc e
    by_cases h1 : GoMap.contains coinRiskMap e.2.Coin = true
    · by_cases h2 : GoMap.contains other e.1 = true
      · simp [h1, h2]
      · simp [h1, h2]
    · simp [h1]
  rw [hfold, putFold_contains]
  constructor
  · rintro (hc | ⟨e, he, ⟨hrisk, hother⟩, hk⟩)
    · simp [GoMap.contains, GoMap.lookup] at hc
    · refine ⟨e.2, ?_, hrisk, ?_⟩
      · rw [← hk]; exact GoMap.lookup_of_mem src hsrc e.1 e.2 he
      · rw [← hk]; simpa using hother
  · rintro ⟨o, hl, hrisk, hother⟩
    refine Or.inr ⟨(c, o), GoMap.lookup_mem src c o hl, ⟨hrisk, ?_⟩, rfl⟩
    simp [hother]

/-- The raw create map of a frame with a predecessor: the client-ids of the frame's view
whose order is on a coin that is a key of the risk map and that the predecessor's view
lacks. -/
theorem NewAloOrders_contains (h : Heap) (wd2 : WebData2Message) (coinRiskMap : GoMap ℚ)
    (q : Ptr) (hprev : wd2.prev = some q) (c : String) :
    GoMap.contains (wd2.NewAloOrders h coinRiskMap) c = true ↔
      ∃ o, GoMap.lookup wd2.OrdersByCloid c = some o ∧
        GoMap.contains coinRiskMap o.Coin = true ∧
        GoMap.contains (h.get q).OrdersByCloid c = false := by
  unfold WebData2Message.NewAloOrders
  simp only [hprev]
  exact diffFold_contains _ _ _ (OrdersByCloid_nodupKeys wd2) c

/-- The cancels of the leader diff of a frame with a predecessor: the client-ids of the
predecessor's view whose order is on a coin that is a key of the risk map and that the
frame's view lacks. -/
theorem CancelledAloOrders_contains (h : Heap) (wd2 : WebData2Message)
    (coinRiskMap : GoMap ℚ) (q : Ptr) (hprev : wd2.prev = some q) (c : String) :
    GoMap.contains (wd2.CancelledAloOrders h coinRiskMap) c = true ↔
      ∃ o, GoMap.lookup (h.get q).OrdersByCloid c = some o ∧
        GoMap.contains coinRiskMap o.Coin = true ∧
        GoMap.contains wd2.OrdersByCloid c = false := by
  unfold WebData2Message.CancelledAloOrders
  simp only [hprev]
  exact diffFold_contains _ _ _ (OrdersByCloid_nodupKeys (h.get q)) c

/-- The orphan loop adds the keys of the follower's view that the leader's view lacks. -/
theorem aloOrphanLoop_contains (paste copy : WebData2Message) (toCancel : GoMap Order)
    (c : String) :
    GoMap.contains (aloOrphanLoop paste.OrdersByCloid copy.OrdersByCloid toCancel) c = true ↔
      GoMap.contains toCancel c = true ∨
      (GoMap.contains paste.OrdersByCloid c = true ∧
        GoMap.contains copy.OrdersByCloid c = false) := by
  have hfold : aloOrphanLoop paste.OrdersByCloid copy.OrdersByCloid toCancel
      = putFold (fun e : String × Order => ¬ GoMap.contains copy.OrdersByCloid e.2.Cloid = true)
          (fun e => e.2.Cloid) Prod.snd toCancel paste.OrdersByCloid := rfl
  rw [hfold, putFold_contains]
  constructor
  · rintro (hc | ⟨e, he, hnot, hk⟩)
    · exact Or.inl hc
    · have hent := OrdersByCloid_entry paste e he
      right
      constructor
      · rw [← hk, hent.1]; exact GoMap.contains_of_mem _ e he
      · rw [← hk]; simpa using hnot
  · rintro (hc | ⟨hp, hnot⟩)
    · exact Or.inl hc
    · obtain ⟨o, hl⟩ := (GoMap.contains_iff_lookup _ _).mp hp
      have hmem := GoMap.lookup_mem _ _ _ hl
      have hent := OrdersByCloid_entry paste (c, o) hmem
      have hcl : o.Cloid = c := hent.1
      refine Or.inr ⟨(c, o), hmem, ?_, hcl⟩
      show ¬ GoMap.contains copy.OrdersByCloid o.Cloid = true
      rw [hcl, hnot]
      simp

/-- The create loop keeps the raw creates that were not yet recorded, and records every
raw create. -/
theorem aloCreateLoop_contains (raw : GoMap Order) (fin0 : GoMap Order) (cr0 : GoMap Bool)
    (c : String) :
    (GoMap.contains (raw.foldl
        (fun st e =>
          if ¬ GoMap.contains st.2 e.1 then (GoMap.put st.1 e.1 e.2, GoMap.put st.2 e.1 true)
          else st) (fin0, cr0)).1 c = true ↔
      GoMap.contains fin0 c = true ∨
        (GoMap.contains raw c = true ∧ GoMap.contains cr0 c = false)) ∧
    (GoMap.contains (raw.foldl
        (fun st e =>
          if ¬ GoMap.contains st.2 e.1 then (GoMap.put st.1 e.1 e.2, GoMap.put st.2 e.1 true)
          else st) (fin0, cr0)).2 c = true ↔
      GoMap.contains cr0 c = true ∨ GoMap.contains raw c = true) := by
  induction raw generalizing fin0 cr0 with
  | nil => simp [GoMap.contains, GoMap.lookup]
  | cons e t ih =>
    obtain ⟨k, v⟩ := e
    simp only [List.foldl_cons]
    have hraw : GoMap.contains ((k, v) :: t) c = true ↔ k = c ∨ GoMap.contains t c = true := by
      by_cases hk : k = c
      · simp [GoMap.contains, GoMap.lookup, hk]
      · simp [GoMap.contains, GoMap.lookup, hk]
    by_cases hin : GoMap.contains cr0 k = true
    · have hstep : (if ¬ GoMap.contains cr0 k = true
          then (GoMap.put fin0 k v, GoMap.put cr0 k true) else (fin0, cr0)) = (fin0, cr0) := by
        simp [hin]
      rw [hstep]
      obtain ⟨ih1, ih2⟩ := ih fin0 cr0
      rw [ih1, ih2, hraw]
      constructor
      · constructor
        · rintro (h1 | ⟨h1, h2⟩)
          · exact Or.inl h1
          · exact Or.inr ⟨Or.inr h1, h2⟩
        · rintro (h1 | ⟨h1 | h1, h2⟩)
          · exact Or.inl h1
          · rw [h1] at hin; rw [hin] at h2; exact absurd h2 (by simp)
          · exact Or.inr ⟨h1, h2⟩
      · constructor
        · rintro (h1 | h1)
          · exact Or.inl h1
          · exact Or.inr (Or.inr h1)
        · rintro (h1 | h1 | h1)
          · exact Or.inl h1
          · rw [h1] at hin; exact Or.inl hin
          · exact Or.inr h1
    · have hstep : (if ¬ GoMap.contains cr0 k = true
          then (GoMap.put fin0 k v, GoMap.put cr0 k true) else (fin0, cr0))
          = (GoMap.put fin0 k v, GoMap.put cr0 k true) := by
        simp [hin]
      rw [hstep]
      obtain ⟨ih1, ih2⟩ := ih (GoMap.put fin0 k v) (GoMap.put cr0 k true)
      rw [ih1, ih2, hraw, GoMap.contains_put, GoMap.contains_put]
      have hfalse : GoMap.contains cr0 k = false := by simpa using hin
      constructor
      · constructor
        · rintro ((h1 | h1) | ⟨h1, h2⟩)
          · exact Or.inr ⟨Or.inl h1, by rw [← h1]; exact hfalse⟩
          · exact Or.inl h1
          · refine Or.inr ⟨Or.inr h1, ?_⟩
            by_contra hcon
            have hcon2 : GoMap.contains cr0 c = true := by simpa using hcon
            have := (GoMap.contains_put cr0 k c true).mpr (Or.inr hcon2)
            rw [this] at h2
            exact absurd h2 (by simp)
        · rintro (h1 | ⟨h1 | h1, h2⟩)
          · exact Or.inl (Or.inr h1)
          · exact Or.inl (Or.inl h1)
          · by_cases hk : k = c
            · exact Or.inl (Or.inl hk)
            · refine Or.inr ⟨h1, ?_⟩
              have hiff := GoMap.contains_put cr0 k c true
              by_contra hcon
              have hcon2 : GoMap.contains (GoMap.put cr0 k true) c = true := by simpa using hcon
              rcases hiff.mp hcon2 with h3 | h3
              · exact hk h3
              · rw [h3] at h2; exact absurd h2 (by simp)
      · constructor
        · rintro ((h1 | h1) | h1)
          · exact Or.inr (Or.inl h1)
          · exact Or.inl h1
          · exact Or.inr (Or.inr h1)
        · rintro (h1 | h1 | h1)
          · exact Or.inl (Or.inr h1)
          · exact Or.inl (Or.inl h1)
          · exact Or.inr h1

/-! ## Passes of the ALO reconciler -/

/-- The result of `RunAloReconcile` spelled out. -/
theorem RunAloReconcile_cases (h : Heap) (engine : AloEngine) (manager : Manager)
    (create cancel : GoMap Order) (engine1 : AloEngine)
    (hres : RunAloReconcile h engine manager = some (create, cancel, engine1)) :
    ∃ cp pp, manager.CopyWd2 = some cp ∧ manager.PasteWd2 = some pp ∧
      create = (aloCreateLoop ((h.get cp).NewAloOrders h manager.CoinRiskMap)
        engine.createdCloids).1 ∧
      engine1.createdCloids = (aloCreateLoop ((h.get cp).NewAloOrders h manager.CoinRiskMap)
        engine.createdCloids).2 ∧
      cancel = aloOrphanLoop (h.get pp).OrdersByCloid (h.get cp).OrdersByCloid
        ((h.get cp).CancelledAloOrders h manager.CoinRiskMap) := by
  unfold RunAloReconcile at hres
  split at hres
  · exact absurd hres (by simp)
  next cp hcp =>
    split at hres
    · exact absurd hres (by simp)
    next pp hpp =>
      simp only [Option.some.injEq, Prod.mk.injEq] at hres
      obtain ⟨h1, h2, h3⟩ := hres
      refine ⟨cp, pp, hcp, hpp, h1.symm, ?_, h2.symm⟩
      rw [← h3]

/-- **C7 (as amended).** For every leader head frame that has a previous frame, the create
set returned by `RunAloReconcile` is exactly the set of non-empty client-ids that are
present in the leader's latest frame, absent from the leader's previous frame, belong to an
order (the one the latest frame's by-client-id view holds) whose coin is a key of the risk
map, and were not in the already-created set before the pass. -/
theorem create_set_characterised (h : Heap) (engine : AloEngine) (manager : Manager)
    (cp q : Ptr) (create cancel : GoMap Order) (engine1 : AloEngine)
    (hcp : manager.CopyWd2 = some cp) (hprev : (h.get cp).prev = some q)
    (hres : RunAloReconcile h engine manager = some (create, cancel, engine1)) (c : String) :
    GoMap.contains create c = true ↔
      c ≠ "" ∧
      (∃ o, GoMap.lookup (h.get cp).OrdersByCloid c = some o ∧
        GoMap.contains manager.CoinRiskMap o.Coin = true) ∧
      (∀ o ∈ (h.get q).OpenOrders, o.Cloid ≠ c) ∧
      GoMap.contains engine.createdCloids c = false := by
  obtain ⟨cp1, pp, hcp1, _, hcreate, _, _⟩ :=
    RunAloReconcile_cases h engine manager create cancel engine1 hres
  have hcpeq : cp1 = cp := by
    have h1 : some cp1 = some cp := by rw [← hcp1]; exact hcp
    exact Option.some.inj h1
  subst hcpeq
  rw [hcreate]
  unfold aloCreateLoop
  rw [(aloCreateLoop_contains _ [] engine.createdCloids c).1,
    NewAloOrders_contains h (h.get cp1) manager.CoinRiskMap q hprev c]
  have hprevIff := OrdersByCloid_contains (h.get q) c
  constructor
  · rintro (hc | ⟨⟨o, hl, hrisk, habs⟩, hnew⟩)
    · simp [GoMap.contains, GoMap.lookup] at hc
    · have hmem := GoMap.lookup_mem _ _ _ hl
      have hent := OrdersByCloid_entry (h.get cp1) (c, o) hmem
      refine ⟨hent.2.1, ⟨o, hl, hrisk⟩, ?_, hnew⟩
      intro o2 ho2 hcl
      have : GoMap.contains (h.get q).OrdersByCloid c = true :=
        hprevIff.mpr ⟨hent.2.1, o2, ho2, hcl⟩
      rw [this] at habs
      exact absurd habs (by simp)
  · rintro ⟨hne, ⟨o, hl, hrisk⟩, habs, hnew⟩
    refine Or.inr ⟨⟨o, hl, hrisk, ?_⟩, hnew⟩
    by_contra hcon
    have hcon2 : GoMap.contains (h.get q).OrdersByCloid c = true := by simpa using hcon
    obtain ⟨_, o2, ho2, hcl⟩ := hprevIff.mp hcon2
    exact habs o2 ho2 hcl

/-- Witness for C7 (as amended): on leader frame D the create set holds `0xnew`. -/
theorem create_set_characterised_witness :
    GoMap.contains [("0xnew", exOrderNew)] "0xnew" = true ↔
      "0xnew" ≠ "" ∧
      (∃ o, GoMap.lookup (exAloHeap.get 1).OrdersByCloid "0xnew" = some o ∧
        GoMap.contains (exAloManager 1).CoinRiskMap o.Coin = true) ∧
      (∀ o ∈ (exAloHeap.get 0).OpenOrders, o.Cloid ≠ "0xnew") ∧
      GoMap.contains ({} : AloEngine).createdCloids "0xnew" = false :=
  create_set_characterised exAloHeap {} (exAloManager 1) 1 0 [("0xnew", exOrderNew)]
    [("0xabc", exFollowerAbc), ("0xzed", exOrderZed)] exAloEngine1 rfl rfl (by decide!) "0xnew"

/-- Counterexample to C7 as stated: the leader head frame D has a previous frame, and the
create set of the pass is `0xnew`, an order on Z; Z has risk multiplier 2 but is not in the
asset registry, so it is not an enabled coin. -/
theorem create_set_not_enabled_counterexample :
    (exAloHeap.get 1).prev = some 0 ∧
    (RunAloReconcile exAloHeap {} (exAloManager 1)).map (fun r => r.1)
      = some [("0xnew", exOrderNew)] ∧
    exOrderNew.Coin = "Z" ∧
    ¬ enabledCoin (exAloManager 1) "Z" := by
  decide!

/-- **C8 (as amended).** For every leader head frame that has a previous frame and every
follower head frame, the client-ids of the cancel set returned by `RunAloReconcile` are the
union of (a) the client-ids present in the leader's previous frame but absent from its
latest frame, whose order is on a coin that is a key of the risk map, and (b) the
client-ids present in the follower's open orders but absent from the leader's. -/
theorem cancel_set_characterised (h : Heap) (engine : AloEngine) (manager : Manager)
    (cp q pp : Ptr) (create cancel : GoMap Order) (engine1 : AloEngine)
    (hcp : manager.CopyWd2 = some cp) (hprev : (h.get cp).prev = some q)
    (hpp : manager.PasteWd2 = some pp)
    (hres : RunAloReconcile h engine manager = some (create, cancel, engine1)) (c : String) :
    GoMap.contains cancel c = true ↔
      (∃ o, GoMap.lookup (h.get q).OrdersByCloid c = some o ∧
          GoMap.contains manager.CoinRiskMap o.Coin = true ∧
          GoMap.contains (h.get cp).OrdersByCloid c = false) ∨
      (GoMap.contains (h.get pp).OrdersByCloid c = true ∧
          GoMap.contains (h.get cp).OrdersByCloid c = false) := by
  obtain ⟨cp1, pp1, hcp1, hpp1, _, _, hcancel⟩ :=
    RunAloReconcile_cases h engine manager create cancel engine1 hres
  have hcpeq : cp1 = cp := by
    have h1 : some cp1 = some cp := by rw [← hcp1]; exact hcp
    exact Option.some.inj h1
  have hppeq : pp1 = pp := by
    have h1 : some pp1 = some pp := by rw [← hpp1]; exact hpp
    exact Option.some.inj h1
  subst hcpeq hppeq
  rw [hcancel, aloOrphanLoop_contains,
    CancelledAloOrders_contains h (h.get cp1) manager.CoinRiskMap q hprev c]

/-- Witness for C8 (as amended): on leader frame D the cancel set holds `0xabc`. -/
theorem cancel_set_characterised_witness :
    GoMap.contains [("0xabc", exFollowerAbc), ("0xzed", exOrderZed)] "0xabc" = true ↔
      (∃ o, GoMap.lookup (exAloHeap.get 0).OrdersByCloid "0xabc" = some o ∧
          GoMap.contains (exAloManager 1).CoinRiskMap o.Coin = true ∧
          GoMap.contains (exAloHeap.get 1).OrdersByCloid "0xabc" = false) ∨
      (GoMap.contains (exAloHeap.get 2).OrdersByCloid "0xabc" = true ∧
          GoMap.contains (exAloHeap.get 1).OrdersByCloid "0xabc" = false) :=
  cancel_set_characterised exAloHeap {} (exAloManager 1) 1 0 2 [("0xnew", exOrderNew)]
    [("0xabc", exFollowerAbc), ("0xzed", exOrderZed)] exAloEngine1 rfl rfl rfl (by decide!)
    "0xabc"

/-- Counterexample to C8 as stated: the cancel set of the pass on leader frame D holds
`0xzed`; its order is on Z, which is not an enabled coin, so it is not in part (a), and the
follower has no open order `0xzed`, so it is not in part (b). -/
theorem cancel_set_not_enabled_counterexample :
    (exAloHeap.get 1).prev = some 0 ∧
    (RunAloReconcile exAloHeap {} (exAloManager 1)).map (fun r => r.2.1.map Prod.fst)
      = some ["0xabc", "0xzed"] ∧
    GoMap.lookup (exAloHeap.get 0).OrdersByCloid "0xzed" = some exOrderZed ∧
    exOrderZed.Coin = "Z" ∧
    ¬ enabledCoin (exAloManager 1) "Z" ∧
    GoMap.contains (exAloHeap.get 2).OrdersByCloid "0xzed" = false := by
  decide!

/-- One pass: the already-created set keeps its elements, and the create set holds only
client-ids that were not in it before and are in it afterwards. -/
theorem RunAloReconcile_created (h : Heap) (engine : AloEngine) (manager : Manager)
    (create cancel : GoMap Order) (engine1 : AloEngine)
    (hres : RunAloReconcile h engine manager = some (create, cancel, engine1)) :
    (∀ c, GoMap.contains engine.createdCloids c = true →
      GoMap.contains engine1.createdCloids c = true) ∧
    (∀ c, GoMap.contains create c = true →
      GoMap.contains engine.createdCloids c = false ∧
      GoMap.contains engine1.createdCloids c = true) := by
  obtain ⟨cp, pp, _, _, hcreate, hcreated, _⟩ :=
    RunAloReconcile_cases h engine manager create cancel engine1 hres
  unfold aloCreateLoop at hcreate hcreated
  constructor
  · intro c hc
    rw [hcreated, (aloCreateLoop_contains _ [] engine.createdCloids c).2]
    exact Or.inl hc
  · intro c hc
    rw [hcreate, (aloCreateLoop_contains _ [] engine.createdCloids c).1] at hc
    rcases hc with hc | ⟨hraw, hnew⟩
    · simp [GoMap.contains, GoMap.lookup] at hc
    · refine ⟨hnew, ?_⟩
      rw [hcreated, (aloCreateLoop_contains _ [] engine.createdCloids c).2]
      exact Or.inr hraw

/-- A run of passes keeps every element of the already-created set. -/
theorem aloPasses_created (passes : List (Heap × Manager)) (engine engine1 : AloEngine)
    (hres : aloPasses engine passes = some engine1) :
    ∀ c, GoMap.contains engine.createdCloids c = true →
      GoMap.contains engine1.createdCloids c = true := by
  induction passes generalizing engine with
  | nil =>
    simp only [aloPasses, Option.some.injEq] at hres
    subst hres
    exact fun c hc => hc
  | cons e rest ih =>
    obtain ⟨h, manager⟩ := e
    unfold aloPasses at hres
    split at hres
    · exact absurd hres (by simp)
    next create cancel engineMid hpass =>
      intro c hc
      exact ih engineMid hres c
        ((RunAloReconcile_created h engine manager create cancel engineMid hpass).1 c hc)

/-- **C9.** Across every sequence of `RunAloReconcile` passes the already-created set never
loses an element, and a client-id returned in the create set of one pass is not returned
in the create set of any later pass, whatever frames the passes in between ran on. -/
theorem create_set_never_repeats (engine0 engine1 engine2 engine3 : AloEngine)
    (h1 h2 : Heap) (m1 m2 : Manager) (between : List (Heap × Manager))
    (create1 cancel1 create2 cancel2 : GoMap Order)
    (hfirst : RunAloReconcile h1 engine0 m1 = some (create1, cancel1, engine1))
    (hbetween : aloPasses engine1 between = some engine2)
    (hlast : RunAloReconcile h2 engine2 m2 = some (create2, cancel2, engine3)) :
    (∀ c, GoMap.contains engine0.createdCloids c = true →
      GoMap.contains engine1.createdCloids c = true ∧
      GoMap.contains engine2.createdCloids c = true ∧
      GoMap.contains engine3.createdCloids c = true) ∧
    (∀ c, GoMap.contains create1 c = true → GoMap.contains create2 c = false) := by
  have hA := RunAloReconcile_created h1 engine0 m1 create1 cancel1 engine1 hfirst
  have hB := aloPasses_created between engine1 engine2 hbetween
  have hC := RunAloReconcile_created h2 engine2 m2 create2 cancel2 engine3 hlast
  constructor
  · intro c hc
    exact ⟨hA.1 c hc, hB c (hA.1 c hc), hC.1 c (hB c (hA.1 c hc))⟩
  · intro c hc
    have h2c : GoMap.contains engine2.createdCloids c = true := hB c (hA.2 c hc).2
    by_contra hcon
    have hcon2 : GoMap.contains create2 c = true := by simpa using hcon
    have := (hC.2 c hcon2).1
    rw [h2c] at this
    exact absurd this (by simp)

/-- Witness for C9: the pass on leader frame D creates `0xnew`; after a pass on leader
frame E, a further pass on leader frame D, whose diff against frame C holds `0xnew` again,
does not create it a second time. -/
theorem create_set_never_repeats_witness :
    RunAloReconcile exAloHeap {} (exAloManager 1)
      = some ([("0xnew", exOrderNew)], [("0xabc", exFollowerAbc), ("0xzed", exOrderZed)],
          exAloEngine1) ∧
    GoMap.contains ((exAloHeap.get 1).NewAloOrders exAloHeap (exAloManager 1).CoinRiskMap)
      "0xnew" = true ∧
    GoMap.contains exAloEngine1.createdCloids "0xnew" = true ∧
    GoMap.contains ([] : GoMap Order) "0xnew" = false :=
  ⟨by decide!, by decide!, by decide!,
    (create_set_never_repeats {} exAloEngine1 exAloEngine1 exAloEngine1 exAloHeap exAloHeap
      (exAloManager 1) (exAloManager 1) [(exAloHeap, exAloManager 3)]
      [("0xnew", exOrderNew)] [("0xabc", exFollowerAbc), ("0xzed", exOrderZed)]
      [] [("0xabc", exFollowerAbc), ("0xzed", exOrderZed)]
      (by decide!) (by decide!) (by decide!)).2 "0xnew" (by decide!)⟩

/-- Evaluation for C10 at its failing input: the pass on leader frame D returns the
cancels `0xabc` and `0xzed`; the next pass, on leader frame E whose open orders are those
of D, returns an empty create set and the cancel `0xabc` again, the follower frame still
showing it. Nothing was written to `canceledCloids`. -/
theorem cancel_repeats_on_unchanged_leader :
    (RunAloReconcile exAloHeap {} (exAloManager 1)).map
        (fun r => (r.2.1.map Prod.fst, r.2.2))
      = some (["0xabc", "0xzed"], exAloEngine1) ∧
    exAloFrameE.OpenOrders = exAloFrameD.OpenOrders ∧
    (RunAloReconcile exAloHeap exAloEngine1 (exAloManager 3)).map
        (fun r => (r.1.map Prod.fst, r.2.1.map Prod.fst, r.2.2.canceledCloids))
      = some ([], ["0xabc"], []) := by
  decide!

/-! ## The create path of the ALO engine -/

theorem mathRound_intCast (n : ℤ) : mathRound (n : ℚ) = n := by
  unfold mathRound
  have hhalf : ⌊(1 / 2 : ℚ)⌋ = 0 := by norm_num
  split_ifs with hn
  · rw [Int.floor_int_add, hhalf, add_zero]
  · have hcast : (-(n : ℚ)) = ((-n : ℤ) : ℚ) := by push_cast; ring
    rw [hcast, Int.floor_int_add, hhalf, add_zero]
    push_cast; ring

/-- Rounding to decimals twice, in exact arithmetic, is rounding once. -/
theorem roundDecimals_idem (x : ℚ) (p : Int) :
    roundDecimals (roundDecimals x p) p = roundDecimals x p := by
  have hp : (10 : ℚ) ^ p ≠ 0 := zpow_ne_zero p (by norm_num)
  have hint : ∃ n : ℤ, mathRound (x * (10 : ℚ) ^ p) = n := by
    unfold mathRound
    split_ifs
    · exact ⟨_, rfl⟩
    · exact ⟨-⌊-(x * (10 : ℚ) ^ p) + 1 / 2⌋, by push_cast; ring⟩
  obtain ⟨n, hn⟩ := hint
  unfold roundDecimals
  rw [hn, div_mul_cancel₀ _ hp, mathRound_intCast]

/-- `math.Round` returns an integer. -/
theorem mathRound_isInt (x : ℚ) : ∃ n : ℤ, mathRound x = n := by
  unfold mathRound
  split_ifs
  · exact ⟨_, rfl⟩
  · exact ⟨-⌊-x + 1 / 2⌋, by push_cast; ring⟩

/-- `math.Round` moves a number by at most one half. -/
theorem mathRound_near (x : ℚ) : |mathRound x - x| ≤ 1 / 2 := by
  unfold mathRound
  split_ifs with hx
  · have h1 := Int.floor_le (x + 1 / 2)
    have h2 := Int.lt_floor_add_one (x + 1 / 2)
    rw [abs_le]; constructor <;> linarith
  · have h1 := Int.floor_le (-x + 1 / 2)
    have h2 := Int.lt_floor_add_one (-x + 1 / 2)
    rw [abs_le]; constructor <;> linarith

/-- A number less than one half away from an integer is rounded to it. -/
theorem mathRound_of_near (y : ℚ) (n : ℤ) (h : |y - n| < 1 / 2) : mathRound y = n := by
  obtain ⟨h1, h2⟩ := abs_lt.mp h
  unfold mathRound
  split_ifs with hy
  · have : ⌊y + 1 / 2⌋ = n := by
      rw [Int.floor_eq_iff]; constructor <;> linarith
    rw [this]
  · have : ⌊-y + 1 / 2⌋ = -n := by
      rw [Int.floor_eq_iff]; push_cast; constructor <;> linarith
    rw [this]; push_cast; ring

/-- Rounding to a precision twice is rounding once, in `float64`, for a value of at most
`2^49` units of the last decimal. -/
theorem RoundToPrecision_idem (x : ℚ) (p : Int) (hb : |x| * Pow10 p ≤ 2 ^ 49) :
    RoundToPrecision (RoundToPrecision x p) p = RoundToPrecision x p := by
  have hS : 0 < Pow10 p := Pow10_pos p
  have he : (2 : ℚ) ^ (-53 : ℤ) = 1 / 9007199254740992 := by norm_num
  have hxS : |x * Pow10 p| ≤ 2 ^ 49 := by rw [abs_mul, abs_of_pos hS]; exact hb
  have h1 := fl_near (x * Pow10 p)
  have h2 := mathRound_near (fl (x * Pow10 p))
  obtain ⟨n, hn⟩ := mathRound_isInt (fl (x * Pow10 p))
  have hflb : |fl (x * Pow10 p)| ≤ 2 ^ 49 + 1 / 16 := by
    have := abs_sub_abs_le_abs_sub (fl (x * Pow10 p)) (x * Pow10 p)
    rw [he] at h1
    nlinarith [abs_nonneg (x * Pow10 p)]
  have hnb : |(n : ℚ)| ≤ 2 ^ 50 := by
    rw [← hn]
    have := abs_sub_abs_le_abs_sub (mathRound (fl (x * Pow10 p))) (fl (x * Pow10 p))
    norm_num at hflb ⊢
    linarith
  unfold RoundToPrecision
  simp only
  rw [hn]
  have h3 := fl_near ((n : ℚ) / Pow10 p)
  have h4 := fl_near (fl ((n : ℚ) / Pow10 p) * Pow10 p)
  rw [he] at h3 h4
  have h3' : |fl ((n : ℚ) / Pow10 p) * Pow10 p - n| ≤ |(n : ℚ)| * (1 / 9007199254740992) := by
    have e : fl ((n : ℚ) / Pow10 p) * Pow10 p - n
        = (fl ((n : ℚ) / Pow10 p) - (n : ℚ) / Pow10 p) * Pow10 p := by field_simp
    rw [e, abs_mul, abs_of_pos hS]
    have e2 : |(n : ℚ)| = |(n : ℚ) / Pow10 p| * Pow10 p := by
      rw [abs_div, abs_of_pos hS]; field_simp
    calc |fl ((n : ℚ) / Pow10 p) - (n : ℚ) / Pow10 p| * Pow10 p
        ≤ |(n : ℚ) / Pow10 p| * (1 / 9007199254740992) * Pow10 p :=
          mul_le_mul_of_nonneg_right h3 hS.le
      _ = |(n : ℚ)| * (1 / 9007199254740992) := by rw [e2]; ring
  have hrS : |fl ((n : ℚ) / Pow10 p) * Pow10 p| ≤ |(n : ℚ)| + |(n : ℚ)| * (1 / 9007199254740992) := by
    have := abs_sub_abs_le_abs_sub (fl ((n : ℚ) / Pow10 p) * Pow10 p) (n : ℚ)
    linarith
  have hnear : |fl (fl ((n : ℚ) / Pow10 p) * Pow10 p) - n| < 1 / 2 := by
    have htri : |fl (fl ((n : ℚ) / Pow10 p) * Pow10 p) - n|
        ≤ |fl (fl ((n : ℚ) / Pow10 p) * Pow10 p) - fl ((n : ℚ) / Pow10 p) * Pow10 p|
          + |fl ((n : ℚ) / Pow10 p) * Pow10 p - n| := by
      have := abs_add (fl (fl ((n : ℚ) / Pow10 p) * Pow10 p) - fl ((n : ℚ) / Pow10 p) * Pow10 p)
        (fl ((n : ℚ) / Pow10 p) * Pow10 p - n)
      simpa using this
    norm_num at hnb
    nlinarith [abs_nonneg (n : ℚ), abs_nonneg (fl ((n : ℚ) / Pow10 p) * Pow10 p)]
  rw [mathRound_of_near _ n hnear]

/-- What a request built for a batch entry records. -/
theorem aloRequestFor_some (h : Heap) (manager : Manager) (cloid : String) (o : Order)
    (req : OrderRequest) (hreq : aloRequestFor h manager cloid o = some req) :
    o.Tif = TifAlo ∧ req.Tif = TifAlo ∧ req.Coin = o.Coin ∧
    req.IsBuy = (if o.Side = "A" then false else true) ∧
    req.LimitPx = o.LimitPx ∧ req.ReduceOnly = o.ReduceOnly ∧ req.Cloid = cloid ∧
    req.Sz = SizeToFloat (manager.scaleSize h o) (manager.Decimals o.Coin) ∧
    req.Sz ≠ 0 ∧ fl (req.Sz * req.LimitPx) > 20 := by
  unfold aloRequestFor at hreq
  simp only [] at hreq
  by_cases htif : o.Tif ≠ TifAlo
  · rw [if_pos htif] at hreq
    exact absurd hreq (by simp)
  · rw [if_neg htif] at hreq
    by_cases hzero : SizeToFloat (manager.scaleSize h o) (manager.Decimals o.Coin) = 0
    · rw [if_pos hzero] at hreq
      exact absurd hreq (by simp)
    · rw [if_neg hzero] at hreq
      by_cases hnotional : fl (SizeToFloat (manager.scaleSize h o) (manager.Decimals o.Coin)
          * o.LimitPx) > minNotionalDiff
      · rw [if_pos hnotional] at hreq
        simp only [Option.some.injEq] at hreq
        subst hreq
        exact ⟨not_not.mp htif, rfl, rfl, rfl, rfl, rfl, rfl, rfl, hzero, hnotional⟩
      · rw [if_neg hnotional] at hreq
        exact absurd hreq (by simp)

/-- Every request of the loop was there before or was built for an entry of the batch. -/
theorem aloRequestLoop_mem (h : Heap) (manager : Manager) (batch : GoMap Order)
    (acc : List OrderRequest) (req : OrderRequest)
    (hreq : req ∈ batch.foldl
      (fun pasteRequests e =>
        match aloRequestFor h manager e.1 e.2 with
        | some orderRequest => pasteRequests ++ [orderRequest]
        | none => pasteRequests) acc) :
    req ∈ acc ∨ ∃ e ∈ batch, aloRequestFor h manager e.1 e.2 = some req := by
  induction batch generalizing acc with
  | nil => exact Or.inl hreq
  | cons e t ih =>
    simp only [List.foldl_cons] at hreq
    rcases ih _ hreq with h1 | ⟨e2, he2, h2⟩
    · cases hr : aloRequestFor h manager e.1 e.2 with
      | none =>
        rw [hr] at h1
        exact Or.inl h1
      | some r =>
        rw [hr] at h1
        rcases List.mem_append.mp h1 with h3 | h3
        · exact Or.inl h3
        · rw [List.mem_singleton] at h3
          exact Or.inr ⟨e, List.mem_cons_self _ _, by rw [hr, h3]⟩
    · exact Or.inr ⟨e2, List.mem_cons_of_mem _ he2, h2⟩

/-- **C11.** Every follower request that `processNewAloOrders` submits for a create batch
(whose entries are keyed by the leader's client-id) comes from a leader order of the batch
with time-in-force ALO and has time-in-force ALO, the leader's coin, the leader's side
(buy unless the side is A), the leader's limit price, the leader's reduce-only flag and the
leader's client-id. Its size is `SizeToFloat` of the scaled size, which is the `float64`
product leader size x scale factor rounded to the coin's size-decimals whenever that product
has at most `2^49` units of the last decimal. -/
theorem alo_request_mirrors_leader (h : Heap) (manager : Manager) (batch : GoMap Order)
    (req : OrderRequest)
    (hkeys : ∀ e ∈ batch, e.2.Cloid = e.1)
    (hreq : req ∈ processNewAloOrders h manager batch) :
    ∃ o, (o.Cloid, o) ∈ batch ∧ o.Tif = TifAlo ∧
      req.Tif = TifAlo ∧ req.Coin = o.Coin ∧
      req.IsBuy = (if o.Side = "A" then false else true) ∧
      req.LimitPx = o.LimitPx ∧ req.ReduceOnly = o.ReduceOnly ∧ req.Cloid = o.Cloid ∧
      req.Sz = SizeToFloat
        (RoundToPrecision (fl (o.Sz * manager.deriveScaleFactor h o.Coin o.Side))
          (manager.Decimals o.Coin)) (manager.Decimals o.Coin) ∧
      (|fl (o.Sz * manager.deriveScaleFactor h o.Coin o.Side)| * Pow10 (manager.Decimals o.Coin)
          ≤ 2 ^ 49 →
        req.Sz = RoundToPrecision (fl (o.Sz * manager.deriveScaleFactor h o.Coin o.Side))
          (manager.Decimals o.Coin)) := by
  unfold processNewAloOrders at hreq
  split_ifs at hreq with hlen
  · exact absurd hreq (List.not_mem_nil _)
  · rcases aloRequestLoop_mem h manager batch [] req hreq with h1 | ⟨e, he, h2⟩
    · exact absurd h1 (List.not_mem_nil _)
    · obtain ⟨k, o⟩ := e
      have hk : o.Cloid = k := hkeys (k, o) he
      obtain ⟨a1, a2, a3, a4, a5, a6, a7, a8, _, _⟩ := aloRequestFor_some h manager k o req h2
      refine ⟨o, by rw [hk]; exact he, a1, a2, a3, a4, a5, a6, by rw [a7, hk], a8, ?_⟩
      intro hb
      rw [a8]
      unfold SizeToFloat Manager.scaleSize
      exact RoundToPrecision_idem _ _ hb

/-- The sizes of the witness for C11: at equities 100 and 170 and multiplier 1 the scale
factor is the `float64` 1.7, and a leader size of 0.75 gives 1.27 at 2 size-decimals (X)
and 1.275 at 3 size-decimals (W); scenario S1 gives 4. -/
theorem alo_request_sizes :
    exFloatManager.deriveScaleFactor exFloatHeap "X" "B" = fl (17 / 10) ∧
    RoundToPrecision (fl (3 / 4 * fl (17 / 10))) 2 = fl (127 / 100) ∧
    RoundToPrecision (fl (3 / 4 * fl (17 / 10))) 3 = fl (1275 / 1000) ∧
    fl (127 / 100) ≠ 32 / 25 ∧
    RoundToPrecision (fl (1 * (exS1Manager true).deriveScaleFactor exS1Heap "X" "B")) 2 = 4 := by
  refine ⟨by decide!, by decide!, by decide!, by decide!, by decide!⟩

/-- Witness for C11: scenario S1, leader bid of 1.0 X at 100 with follower equity 200,
leader equity 100 and multiplier 2, gives one follower bid of 4.0 at 100, `0xabc`; at
equities 100 and 170 and multiplier 1 a leader bid of 0.75 at 100 gives a follower bid of
1.27 on X (size-decimals 2) and of 1.275 on W (size-decimals 3). -/
theorem alo_request_mirrors_leader_witness :
    processNewAloOrders exS1Heap (exS1Manager true) [("0xabc", exS1Order)] = [exS1Request] ∧
    processNewAloOrders exFloatHeap exFloatManager [("0xabc", exFloatAlo "X")]
      = [exFloatRequest "X" (fl (127 / 100))] ∧
    processNewAloOrders exFloatHeap exFloatManager [("0xabc", exFloatAlo "W")]
      = [exFloatRequest "W" (fl (1275 / 1000))] ∧
    ∃ o, (o.Cloid, o) ∈ ([("0xabc", exFloatAlo "W")] : GoMap Order) ∧ o.Tif = TifAlo ∧
      (exFloatRequest "W" (fl (1275 / 1000))).Tif = TifAlo ∧
      (exFloatRequest "W" (fl (1275 / 1000))).Coin = o.Coin ∧
      (exFloatRequest "W" (fl (1275 / 1000))).IsBuy = (if o.Side = "A" then false else true) ∧
      (exFloatRequest "W" (fl (1275 / 1000))).LimitPx = o.LimitPx ∧
      (exFloatRequest "W" (fl (1275 / 1000))).ReduceOnly = o.ReduceOnly ∧
      (exFloatRequest "W" (fl (1275 / 1000))).Cloid = o.Cloid ∧
      (exFloatRequest "W" (fl (1275 / 1000))).Sz = SizeToFloat
        (RoundToPrecision (fl (o.Sz * exFloatManager.deriveScaleFactor exFloatHeap o.Coin o.Side))
          (exFloatManager.Decimals o.Coin)) (exFloatManager.Decimals o.Coin) ∧
      (|fl (o.Sz * exFloatManager.deriveScaleFactor exFloatHeap o.Coin o.Side)|
          * Pow10 (exFloatManager.Decimals o.Coin) ≤ 2 ^ 49 →
        (exFloatRequest "W" (fl (1275 / 1000))).Sz
          = RoundToPrecision
              (fl (o.Sz * exFloatManager.deriveScaleFactor exFloatHeap o.Coin o.Side))
              (exFloatManager.Decimals o.Coin)) :=
  ⟨by decide!, by decide!, by decide!,
    alo_request_mirrors_leader exFloatHeap exFloatManager [("0xabc", exFloatAlo "W")]
      (exFloatRequest "W" (fl (1275 / 1000))) (by decide!) (by decide!)⟩

/-- Every entry kept by the create loop is an entry of the raw creates. -/
theorem aloCreateLoop_mem (raw fin0 : GoMap Order) (cr0 : GoMap Bool) (e : String × Order)
    (he : e ∈ (raw.foldl
        (fun st e =>
          if ¬ GoMap.contains st.2 e.1 then (GoMap.put st.1 e.1 e.2, GoMap.put st.2 e.1 true)
          else st) (fin0, cr0)).1) :
    e ∈ fin0 ∨ e ∈ raw := by
  induction raw generalizing fin0 cr0 with
  | nil => exact Or.inl he
  | cons e1 t ih =>
    simp only [List.foldl_cons] at he
    by_cases hin : GoMap.contains cr0 e1.1 = true
    · rw [if_neg (not_not.mpr hin)] at he
      rcases ih _ _ he with h1 | h1
      · exact Or.inl h1
      · exact Or.inr (List.mem_cons_of_mem _ h1)
    · rw [if_pos hin] at he
      rcases ih _ _ he with h1 | h1
      · rcases GoMap.mem_put _ _ _ _ h1 with h2 | h2
        · exact Or.inr (by rw [h2]; exact List.mem_cons_self _ _)
        · exact Or.inl h2
      · exact Or.inr (List.mem_cons_of_mem _ h1)

/-- Every entry of the raw creates is an entry of the frame's by-client-id view. -/
theorem NewAloOrders_mem (h : Heap) (wd2 : WebData2Message) (coinRiskMap : GoMap ℚ)
    (e : String × Order) (he : e ∈ wd2.NewAloOrders h coinRiskMap) :
    e ∈ wd2.OrdersByCloid := by
  unfold WebData2Message.NewAloOrders at he
  split at he
  · exact absurd he (List.not_mem_nil _)
  next p hp =>
    have hgen : ∀ (src acc : GoMap Order), e ∈ src.foldl
        (fun newOrders e =>
          if GoMap.contains coinRiskMap e.2.Coin then
            if ¬ GoMap.contains (h.get p).OrdersByCloid e.1 then GoMap.put newOrders e.1 e.2
            else newOrders
          else newOrders) acc → e ∈ acc ∨ e ∈ src := by
      intro src
      induction src with
      | nil => intro acc hacc; exact Or.inl hacc
      | cons e1 t ih =>
        intro acc hacc
        simp only [List.foldl_cons] at hacc
        rcases ih _ hacc with h1 | h1
        · by_cases hA : GoMap.contains coinRiskMap e1.2.Coin = true
          · rw [if_pos hA] at h1
            by_cases hB : ¬ GoMap.contains (h.get p).OrdersByCloid e1.1 = true
            · rw [if_pos hB] at h1
              rcases GoMap.mem_put _ _ _ _ h1 with h2 | h2
              · exact Or.inr (by rw [h2]; exact List.mem_cons_self _ _)
              · exact Or.inl h2
            · rw [if_neg hB] at h1
              exact Or.inl h1
          · rw [if_neg hA] at h1
            exact Or.inl h1
        · exact Or.inr (List.mem_cons_of_mem _ h1)
    rcases hgen _ _ he with h1 | h1
    · exact absurd h1 (List.not_mem_nil _)
    · exact h1

/-- The create set of `RunAloReconcile` holds every leader order under its own client-id,
so it is a batch as C11 takes it. -/
theorem RunAloReconcile_create_keys (h : Heap) (engine : AloEngine) (manager : Manager)
    (create cancel : GoMap Order) (engine1 : AloEngine)
    (hres : RunAloReconcile h engine manager = some (create, cancel, engine1)) :
    ∀ e ∈ create, e.2.Cloid = e.1 := by
  obtain ⟨cp, pp, _, _, hcreate, _, _⟩ :=
    RunAloReconcile_cases h engine manager create cancel engine1 hres
  intro e he
  rw [hcreate] at he
  unfold aloCreateLoop at he
  rcases aloCreateLoop_mem _ _ _ e he with h1 | h1
  · exact absurd h1 (List.not_mem_nil _)
  · exact (OrdersByCloid_entry _ e (NewAloOrders_mem h _ _ e h1)).1

/-! ## The scale factor -/

/-- With both head frames present and both account values non-zero the scale factor is
(follower account value / leader account value) x risk multiplier, in `float64`. -/
theorem deriveScaleFactor_eq (h : Heap) (manager : Manager) (symbol side : String)
    (cp pp : Ptr) (hcp : manager.CopyWd2 = some cp) (hpp : manager.PasteWd2 = some pp)
    (hc : (h.get cp).AccountValue ≠ 0) (hp : (h.get pp).AccountValue ≠ 0) :
    manager.deriveScaleFactor h symbol side
      = fl (fl ((h.get pp).AccountValue / (h.get cp).AccountValue)
        * GoMap.index manager.CoinRiskMap symbol) := by
  unfold Manager.deriveScaleFactor WebData2Message.accountValue
  rw [hcp, hpp]
  simp [hc, hp]

/-- With the leader's account value at 0 the scale factor is 0. -/
theorem deriveScaleFactor_copy_zero (h : Heap) (manager : Manager) (symbol side : String)
    (cp : Ptr) (hcp : manager.CopyWd2 = some cp) (hc : (h.get cp).AccountValue = 0) :
    manager.deriveScaleFactor h symbol side = 0 := by
  unfold Manager.deriveScaleFactor WebData2Message.accountValue
  rw [hcp]
  cases manager.PasteWd2 with
  | none => rfl
  | some pp => simp [hc]

/-- With a head frame missing the scale factor is 0. -/
theorem deriveScaleFactor_nil (h : Heap) (manager : Manager) (symbol side : String)
    (hnil : manager.CopyWd2 = none ∨ manager.PasteWd2 = none) :
    manager.deriveScaleFactor h symbol side = 0 := by
  unfold Manager.deriveScaleFactor
  rcases hnil with h1 | h1
  · rw [h1]
  · rw [h1]
    cases manager.CopyWd2 <;> rfl

/-- Evaluation for C12 at its failing input: both head frames exist, the leader's account
value is -100 (not positive), the follower's is 200 and the multiplier of X is 1; the scale
factor is -2, not 0. -/
theorem negative_account_value_scale_factor :
    exManager.CopyWd2 = some 0 ∧ exManager.PasteWd2 = some 1 ∧
    (exNegativeHeap.get 0).AccountValue = -100 ∧ (exNegativeHeap.get 1).AccountValue = 200 ∧
    exManager.deriveScaleFactor exNegativeHeap "X" "B" = -2 := by
  decide!

/-! ## A scale factor of 0 -/

/-- With a scale factor of 0 the create path builds no request for any batch entry. -/
theorem aloRequestFor_zero_scale (h : Heap) (manager : Manager) (cloid : String) (o : Order)
    (hzero : manager.deriveScaleFactor h o.Coin o.Side = 0) :
    aloRequestFor h manager cloid o = none := by
  unfold aloRequestFor
  simp only []
  have hsz : SizeToFloat (manager.scaleSize h o) (manager.Decimals o.Coin) = 0 := by
    unfold SizeToFloat Manager.scaleSize
    simp only [hzero, mul_zero, fl_zero, RoundToPrecision_zero]
  by_cases htif : o.Tif ≠ TifAlo
  · rw [if_pos htif]
  · rw [if_neg htif, if_pos hsz]

/-- **C13 (as amended).** Whenever the scale factor is 0 for every coin, the ALO create path
builds no request, and `GetIocReconcileOrders` (scaling the leader sizes) returns no order
other than a reduce-only order that closes the follower's own position: its size is the
follower's absolute size, its side is opposite to the follower's, and the follower's
notional is above 20. -/
theorem zero_scale_factor_orders (h : Heap) (manager : Manager)
    (hzero : ∀ symbol side, manager.deriveScaleFactor h symbol side = 0) :
    (∀ batch, processNewAloOrders h manager batch = []) ∧
    (∀ copyPosMap pastePosMap bypassCheck orders manager1,
      manager.GetIocReconcileOrders h copyPosMap pastePosMap true bypassCheck
        = some (orders, manager1) →
      ∀ o ∈ orders, o.ReduceOnly = true ∧
        o.Sz = |(GoMap.index pastePosMap o.Coin).Szi| ∧
        o.Side = (if (GoMap.index pastePosMap o.Coin).Szi < 0 then "B" else "A") ∧
        pasteNotionalOf manager pastePosMap o.Coin > 20) := by
  constructor
  · intro batch
    unfold processNewAloOrders
    split_ifs with hlen
    · rfl
    · have hgen : ∀ (b : GoMap Order) (acc : List OrderRequest), b.foldl
          (fun pasteRequests e =>
            match aloRequestFor h manager e.1 e.2 with
            | some orderRequest => pasteRequests ++ [orderRequest]
            | none => pasteRequests) acc = acc := by
        intro b
        induction b with
        | nil => intro acc; rfl
        | cons e t ih =>
          intro acc
          simp only [List.foldl_cons]
          rw [aloRequestFor_zero_scale h manager e.1 e.2 (hzero _ _)]
          exact ih acc
      exact hgen batch []
  · intro copyPosMap pastePosMap bypassCheck orders manager1 hres o ho
    rcases GetIocReconcileOrders_cases h manager copyPosMap pastePosMap true bypassCheck
        orders manager1 hres with ⟨hnil, _⟩ | ⟨o1, cp, pp, _, _, _, hone, _, hb⟩
    · rw [hnil] at ho; exact absurd ho (List.not_mem_nil _)
    · rw [hone, List.mem_singleton] at ho
      subst ho
      obtain ⟨_, _, hside, hsw⟩ :=
        iocBaseOrder_some h manager _ copyPosMap pastePosMap true _ _ hb
      have hl : iocCopySzi h manager copyPosMap true o.Coin = 0 := by
        unfold iocCopySzi Manager.scaleSize
        simp only [if_true, hzero, mul_zero, fl_zero, RoundToPrecision_zero]
      rw [copyNotionalOf_zero h manager copyPosMap true _ hl, hl] at hsw
      unfold iocSwitch minNotionalDiff at hsw
      have h1 : ¬ ((0 : ℚ) > 20 ∧ pasteNotionalOf manager pastePosMap o.Coin < 20) := by
        rintro ⟨hgt, _⟩; linarith
      rw [if_neg h1] at hsw
      by_cases h2 : (0 : ℚ) < 20 ∧ pasteNotionalOf manager pastePosMap o.Coin > 20
      · rw [if_pos h2] at hsw
        simp only [Option.some.injEq, Prod.mk.injEq] at hsw
        exact ⟨hsw.2.2.symm, hsw.2.1.symm, hsw.1.symm, h2.2⟩
      · rw [if_neg h2] at hsw
        have h3 : ¬ ((0 : ℚ) > 0 ∧ (GoMap.index pastePosMap o.Coin).Szi > 0) := by
          rintro ⟨hgt, _⟩; exact lt_irrefl _ hgt
        have h4 : ¬ ((0 : ℚ) < 0 ∧ (GoMap.index pastePosMap o.Coin).Szi < 0) := by
          rintro ⟨hgt, _⟩; exact lt_irrefl _ hgt
        have h5 : ¬ ((0 : ℚ) > 0 ∧ (GoMap.index pastePosMap o.Coin).Szi < 0) := by
          rintro ⟨hgt, _⟩; exact lt_irrefl _ hgt
        have h6 : ¬ ((0 : ℚ) < 0 ∧ (GoMap.index pastePosMap o.Coin).Szi > 0) := by
          rintro ⟨hgt, _⟩; exact lt_irrefl _ hgt
        rw [if_neg h3, if_neg h4, if_neg h5, if_neg h6] at hsw
        simp only [Option.some.injEq, Prod.mk.injEq] at hsw
        exact absurd hsw.1.symm hside

/-- Witness for C13 (as amended): with the leader's account value at 0 the create path
builds nothing for the S1 batch. -/
theorem zero_scale_factor_orders_witness :
    (exZeroHeap.get 0).AccountValue = 0 ∧
    processNewAloOrders exZeroHeap exManager [("0xabc", exS1Order)] = [] :=
  ⟨by decide!,
    (zero_scale_factor_orders exZeroHeap exManager
      (fun symbol side => deriveScaleFactor_copy_zero exZeroHeap exManager symbol side 0 rfl
        (by decide!))).1 [("0xabc", exS1Order)]⟩

/-- Counterexample to C13 as stated: the leader's account value is 0, so the scale factor
of X is 0, and the follower holds +10 X (notional 500); `GetIocReconcileOrders` returns a
reduce-only sell of 10 X. -/
theorem zero_scale_factor_counterexample :
    exManager.deriveScaleFactor exZeroHeap "X" "B" = 0 ∧
    exManager.deriveScaleFactor exZeroHeap "Y" "B" = 0 ∧
    (exManager.GetIocReconcileOrders exZeroHeap exLeaderFrame.PositionsByCoin
        (exFollowerX 10 500) true false).map
        (fun r => r.1.map (fun o => (o.Coin, o.Side, o.Sz, o.ReduceOnly)))
      = some [("X", "A", 10, true)] := by
  decide!

/-! ## Readiness -/

/-- Evaluation for C14 at its failing input: both accounts have a snapshot but no asset
data has arrived, so `IsReady` is false; on the leader frame B of scenario S1 the ALO
engine loop submits the create `0xabc`. -/
theorem alo_submits_before_ready :
    (exS1Manager false).IsReady = false ∧
    (aloOnCopyFrame exS1Heap {} (exS1Manager false)).map (fun r => r.creates)
      = some [exS1Request] := by
  decide!

/-- Evaluation for C15 at its failing input: two coins are enabled and the leader's
asset-data message for X arrives twice; the leader's flag is set although asset data was
received for one (user, coin) pair only. -/
theorem repeated_asset_data_sets_ready :
    exAssetManager.AllowedSymbols.length = 2 ∧
    (exAssetManager.handleActiveAssetData exAssetDataX).CopyAssetDataReady = false ∧
    ((exAssetManager.handleActiveAssetData exAssetDataX).handleActiveAssetData
        exAssetDataX).CopyAssetDataReady = true ∧
    ((exAssetManager.handleActiveAssetData exAssetDataX).handleActiveAssetData
        exAssetDataX).AssetDetailsStore.map Prod.fst = ["0xleader:X"] := by
  decide!

/-! ## Heap lemmas -/

theorem Heap.length_update (h : Heap) (p : Ptr) (g : WebData2Message → WebData2Message) :
    (h.update p g).length = h.length := by
  unfold Heap.update
  exact List.length_set _ _ _

theorem Heap.get_update_self (h : Heap) (p : Ptr) (g : WebData2Message → WebData2Message)
    (hp : p < h.length) : (h.update p g).get p = g (h.get p) := by
  unfold Heap.update Heap.get
  simp [List.getD_eq_getElem?_getD, List.getElem?_set_self hp]

theorem Heap.get_update_ne (h : Heap) (p q : Ptr) (g : WebData2Message → WebData2Message)
    (hne : q ≠ p) : (h.update p g).get q = h.get q := by
  unfold Heap.update Heap.get
  simp [List.getD_eq_getElem?_getD, List.getElem?_set_ne (Ne.symm hne)]

theorem Heap.update_of_ge (h : Heap) (p : Ptr) (g : WebData2Message → WebData2Message)
    (hp : h.length ≤ p) : h.update p g = h := by
  unfold Heap.update
  exact List.set_eq_of_length_le hp

/-- A field that the assignment leaves alone reads the same through every pointer. -/
theorem Heap.get_update_field {α : Type} (φ : WebData2Message → α) (h : Heap) (p q : Ptr)
    (g : WebData2Message → WebData2Message) (hφ : ∀ f, φ (g f) = φ f) :
    φ ((h.update p g).get q) = φ (h.get q) := by
  by_cases hq : q = p
  · subst hq
    by_cases hlt : q < h.length
    · rw [Heap.get_update_self h q g hlt, hφ]
    · rw [Heap.update_of_ge h q g (not_lt.mp hlt)]
  · rw [Heap.get_update_ne h p q g hq]

theorem Heap.get_append_new (h : Heap) (f : WebData2Message) : Heap.get (h ++ [f]) h.length = f := by
  unfold Heap.get
  simp [List.getD_eq_getElem?_getD]

theorem Heap.get_append_old (h : Heap) (f : WebData2Message) (p : Ptr) (hp : p < h.length) :
    Heap.get (h ++ [f]) p = h.get p := by
  unfold Heap.get
  simp [List.getD_eq_getElem?_getD, List.getElem?_append_left hp]

/-! ## The frame linker -/

theorem linkPrev_length (h : Heap) (c p : Ptr) : (linkPrev h c p).length = h.length := by
  unfold linkPrev
  simp only [Heap.length_update]

theorem linkPrev_User (h : Heap) (c p q : Ptr) :
    ((linkPrev h c p).get q).User = (h.get q).User := by
  unfold linkPrev
  simp only []
  refine Eq.trans (Heap.get_update_field WebData2Message.User _ _ _ _ ?_) ?_
  · intro f; rfl
  refine Eq.trans (Heap.get_update_field WebData2Message.User _ _ _ _ ?_) ?_
  · intro f; rfl
  refine Heap.get_update_field WebData2Message.User _ _ _ _ ?_
  intro f; rfl

theorem linkPrev_ServerTime (h : Heap) (c p q : Ptr) :
    ((linkPrev h c p).get q).ServerTime = (h.get q).ServerTime := by
  unfold linkPrev
  simp only []
  refine Eq.trans (Heap.get_update_field WebData2Message.ServerTime _ _ _ _ ?_) ?_
  · intro f; rfl
  refine Eq.trans (Heap.get_update_field WebData2Message.ServerTime _ _ _ _ ?_) ?_
  · intro f; rfl
  refine Heap.get_update_field WebData2Message.ServerTime _ _ _ _ ?_
  intro f; rfl

theorem linkPrev_Time (h : Heap) (c p q : Ptr) :
    ((linkPrev h c p).get q).Time = (h.get q).Time := by
  unfold linkPrev
  simp only []
  refine Eq.trans (Heap.get_update_field WebData2Message.Time _ _ _ _ ?_) ?_
  · intro f; rfl
  refine Eq.trans (Heap.get_update_field WebData2Message.Time _ _ _ _ ?_) ?_
  · intro f; rfl
  refine Heap.get_update_field WebData2Message.Time _ _ _ _ ?_
  intro f; rfl

/-- **C16.** For every new frame F and latest existing frame P, `F.AddPrev(P)` panics if and
only if P is present and P's user differs from F's, or P's server time is not below F's,
or P's clearinghouse time is above F's; with P absent it never panics. -/
theorem AddPrev_panics_iff (h : Heap) (currWd2 : Ptr) (prevWd2 : Option Ptr) :
    AddPrev h currWd2 prevWd2 = none ↔
      ∃ p, prevWd2 = some p ∧
        ((h.get p).User ≠ (h.get currWd2).User ∨
         (h.get p).ServerTime ≥ (h.get currWd2).ServerTime ∨
         (h.get p).Time > (h.get currWd2).Time) := by
  cases prevWd2 with
  | none => simp [AddPrev]
  | some p =>
    unfold AddPrev
    simp only [linkPrev_User, linkPrev_ServerTime, linkPrev_Time]
    constructor
    · intro hnone
      refine ⟨p, rfl, ?_⟩
      by_cases hu : (h.get p).User ≠ (h.get currWd2).User
      · exact Or.inl hu
      · by_cases hs : ¬ ((h.get p).ServerTime < (h.get currWd2).ServerTime)
        · exact Or.inr (Or.inl (not_lt.mp hs))
        · by_cases ht : (h.get p).Time > (h.get currWd2).Time
          · exact Or.inr (Or.inr ht)
          · rw [if_neg hu, if_neg hs, if_neg ht] at hnone
            exact absurd hnone (by simp)
    · rintro ⟨p1, hp1, hcond⟩
      have hpeq : p1 = p := (Option.some.inj hp1).symm
      subst hpeq
      rcases hcond with hu | hs | ht
      · rw [if_pos hu]
      · by_cases hu : (h.get p1).User ≠ (h.get currWd2).User
        · rw [if_pos hu]
        · rw [if_neg hu, if_pos (not_lt.mpr hs)]
      · by_cases hu : (h.get p1).User ≠ (h.get currWd2).User
        · rw [if_pos hu]
        · by_cases hs : ¬ ((h.get p1).ServerTime < (h.get currWd2).ServerTime)
          · rw [if_neg hu, if_pos hs]
          · rw [if_neg hu, if_neg hs, if_pos ht]

theorem linkPrev_prev_of_ne (h : Heap) (c p q : Ptr) (hq : q ≠ c) :
    ((linkPrev h c p).get q).prev = (h.get q).prev := by
  unfold linkPrev
  simp only []
  refine Eq.trans (Heap.get_update_field WebData2Message.prev _ _ _ _ ?_) ?_
  · intro f; rfl
  rw [Heap.get_update_ne _ _ _ _ hq, Heap.get_update_ne _ _ _ _ hq]

theorem linkPrev_n_of_ne (h : Heap) (c p q : Ptr) (hq : q ≠ c) :
    ((linkPrev h c p).get q).n = (h.get q).n := by
  unfold linkPrev
  simp only []
  refine Eq.trans (Heap.get_update_field WebData2Message.n _ _ _ _ ?_) ?_
  · intro f; rfl
  rw [Heap.get_update_ne _ _ _ _ hq, Heap.get_update_ne _ _ _ _ hq]

theorem linkPrev_next_of_ne (h : Heap) (c p q : Ptr) (hq : q ≠ p) :
    ((linkPrev h c p).get q).next = (h.get q).next := by
  unfold linkPrev
  simp only []
  rw [Heap.get_update_ne _ _ _ _ hq]
  refine Eq.trans (Heap.get_update_field WebData2Message.next _ _ _ _ ?_) ?_
  · intro f; rfl
  refine Heap.get_update_field WebData2Message.next _ _ _ _ ?_
  intro f; rfl

theorem linkPrev_curr (h : Heap) (c p : Ptr) (hc : c < h.length) (hne : p ≠ c) :
    ((linkPrev h c p).get c).prev = some p ∧
    ((linkPrev h c p).get c).n = (h.get p).n + 1 := by
  unfold linkPrev
  simp only []
  rw [Heap.get_update_ne _ _ _ _ (Ne.symm hne),
    Heap.get_update_self _ _ _ (by rw [Heap.length_update]; exact hc),
    Heap.get_update_self _ _ _ hc, Heap.get_update_ne _ _ _ _ hne]
  exact ⟨rfl, rfl⟩

theorem linkPrev_next (h : Heap) (c p : Ptr) (hp : p < h.length) :
    ((linkPrev h c p).get p).next = some c := by
  unfold linkPrev
  simp only []
  rw [Heap.get_update_self _ _ _ (by rw [Heap.length_update, Heap.length_update]; exact hp)]

/-- A successful `AddPrev` with a present predecessor: the heap is the relinked one and the
three checks held on the frames as they were. -/
theorem AddPrev_some (h : Heap) (c p : Ptr) (h1 : Heap)
    (hres : AddPrev h c (some p) = some h1) :
    h1 = linkPrev h c p ∧ (h.get p).User = (h.get c).User ∧
    (h.get p).ServerTime < (h.get c).ServerTime ∧ (h.get p).Time ≤ (h.get c).Time := by
  unfold AddPrev at hres
  simp only [linkPrev_User, linkPrev_ServerTime, linkPrev_Time] at hres
  by_cases hu : (h.get p).User ≠ (h.get c).User
  · rw [if_pos hu] at hres; exact absurd hres (by simp)
  · by_cases hs : ¬ ((h.get p).ServerTime < (h.get c).ServerTime)
    · rw [if_neg hu, if_pos hs] at hres; exact absurd hres (by simp)
    · by_cases ht : (h.get p).Time > (h.get c).Time
      · rw [if_neg hu, if_neg hs, if_pos ht] at hres; exact absurd hres (by simp)
      · rw [if_neg hu, if_neg hs, if_neg ht] at hres
        exact ⟨(Option.some.inj hres).symm, not_not.mp hu, not_not.mp hs, not_lt.mp ht⟩

/-- Linking a first frame: the chain of that one frame satisfies the invariant. -/
theorem ChainInv_first (h : Heap) (c : Ptr) (h1 : Heap) (hc : c < h.length)
    (hres : AddPrev h c none = some h1) : ChainInv h1 [c] := by
  unfold AddPrev at hres
  simp only [Option.some.injEq] at hres
  subst hres
  have hlen : c < (h.update c (fun f => { f with prev := none })).length := by
    rw [Heap.length_update]; exact hc
  refine ⟨List.chain'_singleton _, ?_, List.pairwise_singleton _ _, ?_⟩
  · intro c0 hc0
    simp only [List.head?_cons, Option.mem_def, Option.some.injEq] at hc0
    subst hc0
    rw [Heap.get_update_self _ _ _ hlen, Heap.get_update_self _ _ _ hc]
    exact ⟨rfl, rfl⟩
  · intro c1 hc1
    rw [List.mem_singleton] at hc1
    rw [hc1, Heap.length_update, Heap.length_update]
    exact hc

/-- Linking one more frame behind the head of a chain keeps the invariant. -/
theorem ChainInv_step (h : Heap) (init : List Ptr) (last c : Ptr) (h1 : Heap)
    (hinv : ChainInv h (init ++ [last])) (hc : c < h.length)
    (hres : AddPrev h c (some last) = some h1) :
    ChainInv h1 ((init ++ [last]) ++ [c]) := by
  obtain ⟨hchain, hhead, hpw, hvalid⟩ := hinv
  obtain ⟨hh1, hu, hs, ht⟩ := AddPrev_some h c last h1 hres
  subst hh1
  have hlastmem : last ∈ init ++ [last] := List.mem_append_right _ (List.mem_singleton.mpr rfl)
  have hlastlt : last < h.length := hvalid last hlastmem
  have hle : ∀ a ∈ init ++ [last], (h.get a).ServerTime ≤ (h.get last).ServerTime := by
    intro a ha
    rcases List.mem_append.mp ha with h1 | h1
    · exact le_of_lt ((List.pairwise_append.mp hpw).2.2 a h1 last (List.mem_singleton.mpr rfl))
    · rw [List.mem_singleton.mp h1]
  have hnec : ∀ a ∈ init ++ [last], a ≠ c := by
    intro a ha hac
    have := hle a ha
    rw [hac] at this
    exact absurd hs (not_lt.mpr this)
  have hlastne : last ≠ c := hnec last hlastmem
  refine ⟨?_, ?_, ?_, ?_⟩
  · rw [List.chain'_append]
    refine ⟨?_, List.chain'_singleton _, ?_⟩
    · refine (List.Chain'.iff_mem.mp hchain).imp ?_
      rintro P F ⟨hP, hF, hprev, hnext, hn, hUser, hServer, hTime⟩
      have hPlast : P ≠ last := by
        intro hPl
        have := hle F hF
        rw [hPl] at hServer
        exact absurd hServer (not_lt.mpr this)
      refine ⟨?_, ?_, ?_, ?_, ?_, ?_⟩
      · rw [linkPrev_prev_of_ne h c last F (hnec F hF)]; exact hprev
      · rw [linkPrev_next_of_ne h c last P hPlast]; exact hnext
      · rw [linkPrev_n_of_ne h c last F (hnec F hF), linkPrev_n_of_ne h c last P (hnec P hP)]
        exact hn
      · rw [linkPrev_User, linkPrev_User]; exact hUser
      · rw [linkPrev_ServerTime, linkPrev_ServerTime]; exact hServer
      · rw [linkPrev_Time, linkPrev_Time]; exact hTime
    · intro x hx y hy
      rw [List.getLast?_concat] at hx
      simp only [Option.mem_def, Option.some.injEq, List.head?_cons] at hx hy
      subst hx hy
      obtain ⟨hcp, hcn⟩ := linkPrev_curr h c last hc hlastne
      refine ⟨hcp, linkPrev_next h c last hlastlt, ?_, ?_, ?_, ?_⟩
      · rw [hcn, linkPrev_n_of_ne h c last last hlastne]
      · rw [linkPrev_User, linkPrev_User]; exact hu
      · rw [linkPrev_ServerTime, linkPrev_ServerTime]; exact hs
      · rw [linkPrev_Time, linkPrev_Time]; exact ht
  · intro c0 hc0
    rw [List.head?_append_of_ne_nil _ (by simp)] at hc0
    have hmem : c0 ∈ init ++ [last] := List.mem_of_mem_head? hc0
    obtain ⟨hn0, hp0⟩ := hhead c0 hc0
    rw [linkPrev_n_of_ne h c last c0 (hnec c0 hmem),
      linkPrev_prev_of_ne h c last c0 (hnec c0 hmem)]
    exact ⟨hn0, hp0⟩
  · rw [List.pairwise_append]
    refine ⟨?_, List.pairwise_singleton _ _, ?_⟩
    · refine hpw.imp ?_
      intro a b hab
      rw [linkPrev_ServerTime, linkPrev_ServerTime]; exact hab
    · intro a ha b hb
      rw [List.mem_singleton.mp hb, linkPrev_ServerTime, linkPrev_ServerTime]
      exact lt_of_le_of_lt (hle a ha) hs
  · intro c1 hc1
    rw [linkPrev_length]
    rcases List.mem_append.mp hc1 with h2 | h2
    · exact hvalid c1 h2
    · rw [List.mem_singleton.mp h2]; exact hc

/-- The invariant along a run of `AddPrev` calls behind an existing chain. -/
theorem linkChain_inv (rest : List Ptr) (h : Heap) (init : List Ptr) (last : Ptr) (hf : Heap)
    (hinv : ChainInv h (init ++ [last])) (hvalid : ∀ c ∈ rest, c < h.length)
    (hres : linkChain h (some last) rest = some hf) :
    ChainInv hf ((init ++ [last]) ++ rest) := by
  induction rest generalizing h init last with
  | nil =>
    simp only [linkChain, Option.some.injEq] at hres
    subst hres
    rw [List.append_nil]
    exact hinv
  | cons c rest ih =>
    unfold linkChain at hres
    split at hres
    · exact absurd hres (by simp)
    next h1 hadd =>
      have hc : c < h.length := hvalid c (List.mem_cons_self _ _)
      have hstep := ChainInv_step h init last c h1 hinv hc hadd
      have hlen : h1.length = h.length := by
        rw [(AddPrev_some h c last h1 hadd).1, linkPrev_length]
      have hvalid1 : ∀ c1 ∈ rest, c1 < h1.length := by
        intro c1 hc1
        rw [hlen]
        exact hvalid c1 (List.mem_cons_of_mem _ hc1)
      have := ih h1 (init ++ [last]) c hstep hvalid1 hres
      simpa [List.append_assoc] using this

/-- **C17.** In every per-account chain built by successive successful `AddPrev` calls
starting from a frame linked with no predecessor, the first frame has sequence number 0
(and no predecessor), and every other frame F with predecessor P satisfies F.prev = P,
P.next = F, F.n = P.n + 1, P.user = F.user, P.server-time < F.server-time and
P.clearinghouse-time <= F.clearinghouse-time. -/
theorem chain_links_hold (h : Heap) (chain : List Ptr) (hf : Heap)
    (hvalid : ∀ c ∈ chain, c < h.length)
    (hres : linkChain h none chain = some hf) :
    (∀ c0 ∈ chain.head?, (hf.get c0).n = 0 ∧ (hf.get c0).prev = none) ∧
    List.Chain' (Linked hf) chain := by
  cases chain with
  | nil => exact ⟨fun c0 hc0 => by simp at hc0, List.chain'_nil⟩
  | cons c rest =>
    unfold linkChain at hres
    split at hres
    · exact absurd hres (by simp)
    next h1 hadd =>
      have hc : c < h.length := hvalid c (List.mem_cons_self _ _)
      have hfirst := ChainInv_first h c h1 hc hadd
      have hlen : h1.length = h.length := by
        unfold AddPrev at hadd
        simp only [Option.some.injEq] at hadd
        rw [← hadd, Heap.length_update, Heap.length_update]
      have hvalid1 : ∀ c1 ∈ rest, c1 < h1.length := by
        intro c1 hc1
        rw [hlen]
        exact hvalid c1 (List.mem_cons_of_mem _ hc1)
      have hinv := linkChain_inv rest h1 [] c hf (by simpa using hfirst) hvalid1 hres
      simp only [List.nil_append, List.singleton_append] at hinv
      exact ⟨hinv.2.1, hinv.1⟩

/-- Witness for C17: three frames of one account linked one after the other. -/
theorem chain_links_hold_witness :
    linkChain exChainHeap none [0, 1, 2] = some exChainLinked ∧
    (∀ c0 ∈ ([0, 1, 2] : List Ptr).head?,
      (exChainLinked.get c0).n = 0 ∧ (exChainLinked.get c0).prev = none) ∧
    List.Chain' (Linked exChainLinked) [0, 1, 2] :=
  ⟨by decide!, chain_links_hold exChainHeap [0, 1, 2] exChainLinked (by decide!) (by decide!)⟩

/-! ## The cross link -/

theorem Heap.setOther_Time (h : Heap) (p q : Ptr) (v : Option Ptr) :
    ((h.update p (fun f => { f with other := v })).get q).Time = (h.get q).Time :=
  Heap.get_update_field WebData2Message.Time h p q _ (fun _ => rfl)

theorem Heap.setOther_User (h : Heap) (p q : Ptr) (v : Option Ptr) :
    ((h.update p (fun f => { f with other := v })).get q).User = (h.get q).User :=
  Heap.get_update_field WebData2Message.User h p q _ (fun _ => rfl)

theorem Heap.setOther_prev (h : Heap) (p q : Ptr) (v : Option Ptr) :
    ((h.update p (fun f => { f with other := v })).get q).prev = (h.get q).prev :=
  Heap.get_update_field WebData2Message.prev h p q _ (fun _ => rfl)

/-- **C18.** Whenever `F.AddOther(O)` returns normally with O present, afterwards
F.other = O and O.other = F, F and O have equal clearinghouse times and different users;
and it panics when the users are equal, the clearinghouse times differ, or F or O is
already cross-linked to a different frame. -/
theorem AddOther_links_both_ways (h : Heap) (currWd2 o : Ptr) (hc : currWd2 < h.length) :
    (∀ h1, AddOther h currWd2 (some o) = some h1 →
      (h1.get currWd2).other = some o ∧ (h1.get o).other = some currWd2 ∧
      (h1.get currWd2).Time = (h1.get o).Time ∧ (h1.get currWd2).User ≠ (h1.get o).User) ∧
    ((h.get currWd2).User = (h.get o).User ∨ (h.get currWd2).Time ≠ (h.get o).Time ∨
        (∃ x, (h.get currWd2).other = some x ∧ x ≠ o) ∨
        (∃ y, (h.get o).other = some y ∧ y ≠ currWd2) →
      AddOther h currWd2 (some o) = none) := by
  constructor
  · intro h1 hres
    unfold AddOther at hres
    simp only [] at hres
    by_cases hu : (h.get currWd2).User = (h.get o).User
    · rw [if_pos hu] at hres; exact absurd hres (by simp)
    · rw [if_neg hu] at hres
      have hne : o ≠ currWd2 := by
        intro heq; rw [heq] at hu; exact hu rfl
      cases hprev : (h.get o).prev with
      | none => rw [hprev] at hres; exact absurd hres (by simp)
      | some op =>
        rw [hprev] at hres
        simp only [] at hres
        have holt : o < h.length := by
          by_contra hge
          have hdef : h.get o = default := by
            unfold Heap.get
            exact List.getD_eq_default _ _ (not_lt.mp hge)
          have hd : (default : WebData2Message).prev = none := rfl
          rw [hdef, hd] at hprev
          exact absurd hprev (by simp)
        by_cases hpu : (h.get op).User ≠ (h.get o).User
        · rw [if_pos hpu] at hres; exact absurd hres (by simp)
        · rw [if_neg hpu] at hres
          by_cases ht : (h.get currWd2).Time ≠ (h.get o).Time
          · rw [if_pos ht] at hres; exact absurd hres (by simp)
          · rw [if_neg ht] at hres
            by_cases hco : (h.get currWd2).other ≠ none ∧ (h.get currWd2).other ≠ some o
            · rw [if_pos hco] at hres; exact absurd hres (by simp)
            · rw [if_neg hco] at hres
              rw [Heap.get_update_ne h currWd2 o _ hne] at hres
              by_cases hoo : (h.get o).other ≠ none ∧ (h.get o).other ≠ some currWd2
              · rw [if_pos hoo] at hres; exact absurd hres (by simp)
              · rw [if_neg hoo] at hres
                by_cases hon : (h.get o).other = none
                · rw [if_pos hon] at hres
                  simp only [Option.some.injEq] at hres
                  subst hres
                  have holt1 : o < (h.update currWd2
                      (fun f => { f with other := some o })).length := by
                    rw [Heap.length_update]; exact holt
                  refine ⟨?_, ?_, ?_, ?_⟩
                  · rw [Heap.get_update_ne _ o currWd2 _ (Ne.symm hne),
                      Heap.get_update_self h currWd2 _ hc]
                  · rw [Heap.get_update_self _ o _ holt1]
                  · rw [Heap.setOther_Time, Heap.setOther_Time, Heap.setOther_Time,
                      Heap.setOther_Time]
                    exact not_not.mp ht
                  · rw [Heap.setOther_User, Heap.setOther_User, Heap.setOther_User,
                      Heap.setOther_User]
                    exact hu
                · rw [if_neg hon] at hres
                  simp only [Option.some.injEq] at hres
                  subst hres
                  have hoc : (h.get o).other = some currWd2 := by
                    by_contra hcon
                    exact hoo ⟨hon, hcon⟩
                  refine ⟨?_, ?_, ?_, ?_⟩
                  · rw [Heap.get_update_self h currWd2 _ hc]
                  · rw [Heap.get_update_ne h currWd2 o _ hne]; exact hoc
                  · rw [Heap.setOther_Time, Heap.setOther_Time]
                    exact not_not.mp ht
                  · rw [Heap.setOther_User, Heap.setOther_User]
                    exact hu
  · intro hcond
    unfold AddOther
    simp only []
    by_cases hu : (h.get currWd2).User = (h.get o).User
    · rw [if_pos hu]
    · rw [if_neg hu]
      have hne : o ≠ currWd2 := by
        intro heq; rw [heq] at hu; exact hu rfl
      cases hprev : (h.get o).prev with
      | none => rfl
      | some op =>
        simp only []
        by_cases hpu : (h.get op).User ≠ (h.get o).User
        · rw [if_pos hpu]
        · rw [if_neg hpu]
          by_cases ht : (h.get currWd2).Time ≠ (h.get o).Time
          · rw [if_pos ht]
          · rw [if_neg ht]
            by_cases hco : (h.get currWd2).other ≠ none ∧ (h.get currWd2).other ≠ some o
            · rw [if_pos hco]
            · rw [if_neg hco, Heap.get_update_ne h currWd2 o _ hne]
              rcases hcond with h1 | h1 | ⟨x, hx, hxo⟩ | ⟨y, hy, hyc⟩
              · exact absurd h1 hu
              · exact absurd h1 ht
              · exfalso
                apply hco
                rw [hx]
                exact ⟨by simp, by simpa using hxo⟩
              · have hoo : (h.get o).other ≠ none ∧ (h.get o).other ≠ some currWd2 := by
                  rw [hy]
                  exact ⟨by simp, by simpa using hyc⟩
                rw [if_pos hoo]

/-- Witness for C18: the leader's frame 3 and the follower's frame 2, both of block 2000
and both with a predecessor, are linked both ways; a second call the other way round
returns normally as well. -/
theorem AddOther_links_both_ways_witness :
    AddOther exUnlinkedHeap 3 (some 2) = some exLinkedHeap ∧
    ((exLinkedHeap.get 3).other = some 2 ∧ (exLinkedHeap.get 2).other = some 3 ∧
      (exLinkedHeap.get 3).Time = (exLinkedHeap.get 2).Time ∧
      (exLinkedHeap.get 3).User ≠ (exLinkedHeap.get 2).User) ∧
    AddOther exUnlinkedHeap 3 (some 1) = none :=
  ⟨by decide!,
    (AddOther_links_both_ways exUnlinkedHeap 3 2 (by decide!)).1 exLinkedHeap (by decide!),
    (AddOther_links_both_ways exUnlinkedHeap 3 1 (by decide!)).2 (Or.inr (Or.inl (by decide!)))⟩

/-! ## Snapshot intake -/

/-- Evaluation for C19 at its failing input: the follower's snapshot of block 2000 (frame 3)
is accepted while the leader's head (frame 2) has the same clearinghouse time and both
have a predecessor; after `handleWebData2Payload` neither frame is cross-linked. With the
two snapshots in the other order of arrival the leader branch links them. -/
theorem follower_frame_not_cross_linked :
    (intakeRun [] exIntakeManager exArrivalLeaderFirst).map
        (fun r => (r.2.CopyWd2, r.2.PasteWd2)) = some (some 2, some 3) ∧
    (intakeRun [] exIntakeManager exArrivalLeaderFirst).map
        (fun r => ((r.1.get 2).Time, (r.1.get 3).Time)) = some (2000, 2000) ∧
    (intakeRun [] exIntakeManager exArrivalLeaderFirst).map
        (fun r => ((r.1.get 2).prev, (r.1.get 3).prev)) = some (some 0, some 1) ∧
    (intakeRun [] exIntakeManager exArrivalLeaderFirst).map
        (fun r => ((r.1.get 3).other, (r.1.get 2).other)) = some (none, none) ∧
    (intakeRun [] exIntakeManager exArrivalFollowerFirst).map (fun r => r.1)
      = some exLinkedHeap := by
  decide!

theorem linkPrev_data (h : Heap) (c p q : Ptr) :
    ((linkPrev h c p).get q).data = (h.get q).data := by
  unfold linkPrev
  simp only []
  refine Eq.trans (Heap.get_update_field WebData2Message.data _ _ _ _ ?_) ?_
  · intro f; rfl
  refine Eq.trans (Heap.get_update_field WebData2Message.data _ _ _ _ ?_) ?_
  · intro f; rfl
  refine Heap.get_update_field WebData2Message.data _ _ _ _ ?_
  intro f; rfl

/-- A successful `AddPrev` on a frame just allocated at the end of the heap: its
predecessor is the pointer passed in and its decoded content is untouched. -/
theorem AddPrev_new (h : Heap) (f0 : WebData2Message) (prevWd2 : Option Ptr) (h1 : Heap)
    (hres : AddPrev (h ++ [f0]) h.length prevWd2 = some h1) :
    (h1.get h.length).prev = prevWd2 ∧ (h1.get h.length).data = f0.data := by
  have hlt : h.length < (h ++ [f0]).length := by simp
  cases prevWd2 with
  | none =>
    unfold AddPrev at hres
    simp only [Option.some.injEq] at hres
    subst hres
    rw [Heap.get_update_self _ _ _ (by rw [Heap.length_update]; exact hlt),
      Heap.get_update_self _ _ _ hlt, Heap.get_append_new]
    exact ⟨rfl, rfl⟩
  | some p =>
    obtain ⟨hh1, _, hs, _⟩ := AddPrev_some _ _ _ _ hres
    subst hh1
    have hne : p ≠ h.length := by
      intro heq
      rw [heq] at hs
      exact lt_irrefl _ hs
    refine ⟨(linkPrev_curr _ _ _ hlt hne).1, ?_⟩
    rw [linkPrev_data, Heap.get_append_new]

/-- `AddOther` writes `other` fields only: the predecessor and the decoded content of
every frame are as before. -/
theorem AddOther_keeps (h : Heap) (c : Ptr) (o : Option Ptr) (h1 : Heap) (q : Ptr)
    (hres : AddOther h c o = some h1) :
    (h1.get q).prev = (h.get q).prev ∧ (h1.get q).data = (h.get q).data := by
  have hdata : ∀ (hh : Heap) (p : Ptr) (v : Option Ptr),
      ((hh.update p (fun f => { f with other := v })).get q).data = (hh.get q).data :=
    fun hh p v => Heap.get_update_field WebData2Message.data hh p q _ (fun _ => rfl)
  unfold AddOther at hres
  cases o with
  | none =>
    simp only [Option.some.injEq] at hres
    subst hres
    exact ⟨rfl, rfl⟩
  | some o =>
    simp only [] at hres
    by_cases hu : (h.get c).User = (h.get o).User
    · rw [if_pos hu] at hres; exact absurd hres (by simp)
    · rw [if_neg hu] at hres
      cases hprev : (h.get o).prev with
      | none => rw [hprev] at hres; exact absurd hres (by simp)
      | some op =>
        rw [hprev] at hres
        simp only [] at hres
        by_cases hpu : (h.get op).User ≠ (h.get o).User
        · rw [if_pos hpu] at hres; exact absurd hres (by simp)
        · rw [if_neg hpu] at hres
          by_cases ht : (h.get c).Time ≠ (h.get o).Time
          · rw [if_pos ht] at hres; exact absurd hres (by simp)
          · rw [if_neg ht] at hres
            by_cases hco : (h.get c).other ≠ none ∧ (h.get c).other ≠ some o
            · rw [if_pos hco] at hres; exact absurd hres (by simp)
            · rw [if_neg hco] at hres
              split_ifs at hres
              · simp only [Option.some.injEq] at hres
                subst hres
                rw [Heap.setOther_prev, Heap.setOther_prev, hdata, hdata]
                exact ⟨rfl, rfl⟩
              · simp only [Option.some.injEq] at hres
                subst hres
                rw [Heap.setOther_prev, hdata]
                exact ⟨rfl, rfl⟩

/-- **C20.** For every decoded snapshot that `handleWebData2Payload` processes without a
panic: a leader (follower) snapshot whose clearinghouse time equals that of the most
recent accepted leader (follower) frame is dropped, the account's head frame and channel
being left as they were; any other leader snapshot, and any other follower snapshot of an
account distinct from the leader's, becomes the account's head frame, with the old head as
its predecessor and its decoded content untouched, and is sent exactly once on the
account's channel, the other account's channel being left alone. -/
theorem snapshot_dropped_or_published (h : Heap) (manager : Manager) (wd2 : WebData2Message)
    (h1 : Heap) (manager1 : Manager)
    (hres : handleWebData2Payload h manager wd2 = some (h1, manager1)) :
    (wd2.User = manager.CopyAddress → manager.lastCopyWd2ChTime = some wd2.Time →
      manager1.CopyWd2 = manager.CopyWd2 ∧ manager1.CopyWd2Chan = manager.CopyWd2Chan) ∧
    (wd2.User = manager.PasteAddress → manager.lastPasteWd2ChTime = some wd2.Time →
      manager1.PasteWd2 = manager.PasteWd2 ∧ manager1.PasteWd2Chan = manager.PasteWd2Chan) ∧
    (wd2.User = manager.CopyAddress → manager.lastCopyWd2ChTime ≠ some wd2.Time →
      manager1.CopyWd2 = some h.length ∧ (h1.get h.length).prev = manager.CopyWd2 ∧
      (h1.get h.length).data = wd2.data ∧
      manager1.CopyWd2Chan = manager.CopyWd2Chan ++ [h.length] ∧
      manager1.PasteWd2Chan = manager.PasteWd2Chan ∧
      manager1.lastCopyWd2ChTime = some wd2.Time) ∧
    (wd2.User = manager.PasteAddress → manager.CopyAddress ≠ manager.PasteAddress →
      manager.lastPasteWd2ChTime ≠ some wd2.Time →
      manager1.PasteWd2 = some h.length ∧ (h1.get h.length).prev = manager.PasteWd2 ∧
      (h1.get h.length).data = wd2.data ∧
      manager1.PasteWd2Chan = manager.PasteWd2Chan ++ [h.length] ∧
      manager1.CopyWd2Chan = manager.CopyWd2Chan ∧
      manager1.lastPasteWd2ChTime = some wd2.Time) := by
  unfold handleWebData2Payload at hres
  split at hres
  · exact absurd hres (by simp)
  next store hstore =>
    simp only [] at hres
    by_cases hA : wd2.User = manager.CopyAddress ∧ manager.lastCopyWd2ChTime ≠ some wd2.Time
    · rw [if_pos hA] at hres
      split at hres
      · exact absurd hres (by simp)
      next hh1 hadd =>
        obtain ⟨hprev, hdata⟩ := AddPrev_new h _ _ hh1 hadd
        split at hres
        · exact absurd hres (by simp)
        next hh2 hlinked =>
          simp only [Option.some.injEq, Prod.mk.injEq] at hres
          obtain ⟨hheap, hm⟩ := hres
          subst hheap hm
          have hkeep : (hh2.get h.length).prev = (hh1.get h.length).prev ∧
              (hh2.get h.length).data = (hh1.get h.length).data := by
            split at hlinked
            · simp only [Option.some.injEq] at hlinked
              subst hlinked
              exact ⟨rfl, rfl⟩
            · split_ifs at hlinked
              · exact AddOther_keeps _ _ _ _ _ hlinked
              · simp only [Option.some.injEq] at hlinked
                subst hlinked
                exact ⟨rfl, rfl⟩
              · simp only [Option.some.injEq] at hlinked
                subst hlinked
                exact ⟨rfl, rfl⟩
          refine ⟨fun _ hlast => absurd hlast hA.2, fun _ _ => ⟨rfl, rfl⟩,
            fun _ _ => ⟨rfl, ?_, ?_, rfl, rfl, rfl⟩, fun hu hne _ => ?_⟩
          · rw [hkeep.1]; exact hprev
          · rw [hkeep.2]; exact hdata
          · exfalso
            apply hne
            rw [← hA.1, hu]
    · rw [if_neg hA] at hres
      by_cases hB : wd2.User = manager.PasteAddress ∧
          manager.lastPasteWd2ChTime ≠ some wd2.Time
      · rw [if_pos hB] at hres
        split at hres
        · exact absurd hres (by simp)
        next hh1 hadd =>
          obtain ⟨hprev, hdata⟩ := AddPrev_new h _ _ hh1 hadd
          simp only [Option.some.injEq, Prod.mk.injEq] at hres
          obtain ⟨hheap, hm⟩ := hres
          subst hheap hm
          refine ⟨fun _ _ => ⟨rfl, rfl⟩, fun _ hlast => absurd hlast hB.2,
            fun hu hlast => absurd ⟨hu, hlast⟩ hA,
            fun _ _ _ => ⟨rfl, hprev, hdata, rfl, rfl, rfl⟩⟩
      · rw [if_neg hB] at hres
        simp only [Option.some.injEq, Prod.mk.injEq] at hres
        obtain ⟨hheap, hm⟩ := hres
        subst hheap hm
        refine ⟨fun _ _ => ⟨rfl, rfl⟩, fun _ _ => ⟨rfl, rfl⟩,
          fun hu hlast => absurd ⟨hu, hlast⟩ hA, fun hu _ hlast => absurd ⟨hu, hlast⟩ hB⟩

/-- Witness for C20: after the leader's first snapshot of block 1000, a second leader
snapshot of the same block is dropped, and a leader snapshot of block 2000 becomes the head
with frame 0 as its predecessor and is sent once. -/
theorem snapshot_dropped_or_published_witness :
    (handleWebData2Payload [exSnapshot "0xleader" 1000 1000] exIntakeManager1
        (exSnapshot "0xleader" 1500 1000)
      = some ([exSnapshot "0xleader" 1000 1000, exSnapshot "0xleader" 1500 1000],
          exIntakeManager1) ∧
      exIntakeManager1.CopyWd2 = exIntakeManager1.CopyWd2 ∧
      exIntakeManager1.CopyWd2Chan = exIntakeManager1.CopyWd2Chan) ∧
    (exIntakeManager2.CopyWd2 = some 1 ∧ (exIntakeHeap2.get 1).prev = exIntakeManager1.CopyWd2 ∧
      (exIntakeHeap2.get 1).data = (exSnapshot "0xleader" 2000 2000).data ∧
      exIntakeManager2.CopyWd2Chan = exIntakeManager1.CopyWd2Chan ++ [1] ∧
      exIntakeManager2.PasteWd2Chan = exIntakeManager1.PasteWd2Chan ∧
      exIntakeManager2.lastCopyWd2ChTime = some 2000) :=
  ⟨⟨by decide!,
    (snapshot_dropped_or_published [exSnapshot "0xleader" 1000 1000] exIntakeManager1
      (exSnapshot "0xleader" 1500 1000)
      [exSnapshot "0xleader" 1000 1000, exSnapshot "0xleader" 1500 1000] exIntakeManager1
      (by decide!)).1 (by decide!) (by decide!)⟩,
    (snapshot_dropped_or_published [exSnapshot "0xleader" 1000 1000] exIntakeManager1
      (exSnapshot "0xleader" 2000 2000) exIntakeHeap2 exIntakeManager2
      (by decide!)).2.2.1 (by decide!) (by decide!)⟩

/-- The IOC side of readiness: `handleIocReconcile` called before the manager is ready
leaves everything as it is and hands no order on. -/
theorem handleIocReconcile_not_ready (h : Heap) (manager : Manager) (copyWd2 : WebData2Message)
    (pastePositionsModelled : GoMap Position) (hready : manager.IsReady = false) :
    handleIocReconcile h manager copyWd2 pastePositionsModelled
      = some { manager := manager, positions := pastePositionsModelled, sent := [] } := by
  unfold handleIocReconcile
  simp [hready]

/-! ## Fill-event bridge and IOC engine loop (C21-C24) -/

/-- A state that a turn of the inner loop maps to itself is never left: the loop has
not ended after any number of turns. -/
theorem orderUpdatesLoop_stuck (manager : Manager) (grouped : List OrderUpdate)
    (st : Nat × List Order) (hst : orderUpdatesTurn manager grouped st = some st) (fuel : Nat) :
    orderUpdatesLoop manager grouped fuel st = none := by
  induction fuel with
  | zero => rfl
  | succ fuel ih => simp only [orderUpdatesLoop, hst]; exact ih

/-- An (open -> filled) pair at `index` whose fill notional is below the minimum maps the
loop state to itself: the `continue` of line 112 skips the `index++` of line 120. -/
theorem orderUpdatesTurn_small_fill (manager : Manager) (grouped : List OrderUpdate)
    (index : Nat) (ordersOut : List Order) (hlen : index + 1 < grouped.length)
    (hcoin : (grouped.getD index default).Order.Coin = (grouped.getD (index + 1) default).Order.Coin)
    (hoid : (grouped.getD index default).Order.Oid = (grouped.getD (index + 1) default).Order.Oid)
    (hopen : (grouped.getD index default).Status = "open")
    (hfilled : (grouped.getD (index + 1) default).Status = "filled")
    (hfill : fl ((grouped.getD (index + 1) default).Order.OrigSz
      - (grouped.getD (index + 1) default).Order.Sz) ≠ 0)
    (hsmall : Round2 (fl (fl ((grouped.getD (index + 1) default).Order.OrigSz
      - (grouped.getD (index + 1) default).Order.Sz)
      * manager.GetMidPrice (grouped.getD (index + 1) default).Order.Coin)) < minNotionalDiff) :
    orderUpdatesTurn manager grouped (index, ordersOut) = some (index, ordersOut) := by
  have h0 : index < grouped.length := by omega
  simp only [orderUpdatesTurn]
  rw [if_pos h0, if_pos hlen, if_pos ⟨hcoin, hoid, ⟨hopen, hfilled⟩, hfill⟩]
  by_cases hsz : (grouped.getD (index + 1) default).Order.Sz
      = (grouped.getD (index + 1) default).Order.OrigSz
  · rw [if_pos hsz]
  · rw [if_neg hsz, if_pos hsmall]

/-- Evaluation for C21 at its failing input: on the leader message that reports the order 7
(a bid of 0.1 X) open and then filled, at mid price 100 (fill notional 10, below the minimum
of 20), the inner loop of `handleOrderUpdates` has not ended after any number of turns, so
the call never returns and nothing after the pair is processed. -/
theorem small_fill_never_returns :
    ∀ fuel : Nat, handleOrderUpdates fuel {} (exS1Manager true) (exFillUpdates (1 / 10) 0) = none := by
  intro fuel
  have hg : groupByCoin (exS1Manager true) (exFillUpdates (1 / 10) 0)
      = [("X", exFillUpdates (1 / 10) 0)] := by decide!
  have hst : orderUpdatesTurn (exS1Manager true) (exFillUpdates (1 / 10) 0) (0, [])
      = some (0, []) := by decide!
  unfold handleOrderUpdates
  rw [hg]
  unfold orderUpdatesGroups
  rw [orderUpdatesLoop_stuck _ _ _ hst fuel]

/-- More fuel does not change the result of an inner loop that has ended. -/
theorem orderUpdatesLoop_fuel (manager : Manager) (grouped : List OrderUpdate) (k : Nat) :
    ∀ (fuel : Nat) (st : Nat × List Order) (out : List Order),
      orderUpdatesLoop manager grouped fuel st = some out →
      orderUpdatesLoop manager grouped (fuel + k) st = some out := by
  intro fuel
  induction fuel with
  | zero => intro st out h; simp [orderUpdatesLoop] at h
  | succ fuel ih =>
    intro st out h
    rw [Nat.add_right_comm]
    simp only [orderUpdatesLoop] at h ⊢
    cases hturn : orderUpdatesTurn manager grouped st with
    | none => rw [hturn] at h; exact h
    | some st1 => rw [hturn] at h; exact ih st1 out h

/-- Evaluation for C22 at its failing input: on the leader message that reports the order 7
(a bid of 1 X) open and then filled, the bridge hands the follower market order (buy 1 X) to
`SendIocOrders`, whatever the fuel above 3 turns, and returns the engine with the projection
it had (+2 of X), where the update of the snapshot-diff path for the same order gives +3 of
X. -/
theorem bridge_leaves_projection_stale :
    (∀ fuel : Nat, iocOnOrderUpdate (3 + fuel) exBridgeEngine (exS1Manager true)
        (exFillUpdates 1 0) = some (exBridgeEngine, [exBridgeOrder])) ∧
    exBridgeEngine.localPastePositions = some (exFollowerX 2 200) ∧
    applyIocOrders (exFollowerX 2 200) [exBridgeOrder] = exFollowerX 3 200 := by
  refine ⟨?_, rfl, by decide!⟩
  intro fuel
  have hready : (exS1Manager true).IsReady = true := by decide
  have hg : groupByCoin (exS1Manager true) (exFillUpdates 1 0)
      = [("X", exFillUpdates 1 0)] := by decide!
  have hloop : orderUpdatesLoop (exS1Manager true) (exFillUpdates 1 0) 3 (0, [])
      = some [exBridgeOrder] := by decide!
  unfold iocOnOrderUpdate handleOrderUpdates
  rw [if_pos hready, hg]
  unfold orderUpdatesGroups
  rw [orderUpdatesLoop_fuel _ _ fuel 3 _ _ hloop]
  rfl

/-- Counterexample to C23 as stated: the first leader frame triggers a pass (the follower
buys 20 X, the projection becomes +20 of X, the flag is set); the second leader frame (+30
of X, the follower's head frame new and the manager ready) leaves engine and manager as they
are and sends nothing, where a pass on it would have sent a buy of 40 X. -/
theorem second_leader_frame_no_pass :
    iocOnCopyFrame exLoopHeap exLoopEngine0 exManager exLeaderFrame
      = some { engine := exLoopEngine1, manager := exManagerUsed, sent := [exLoopOrder1] } ∧
    iocOnCopyFrame exLoopHeap exLoopEngine1 exLoopManager2 exLeaderFrame2
      = some { engine := exLoopEngine1, manager := exLoopManager2, sent := [] } ∧
    (handleIocReconcile exLoopHeap exLoopManager2 exLeaderFrame2 [("X", { Szi := 20 })]).map
        (fun res => res.sent)
      = some [{ exLoopOrder1 with Sz := 40, Cloid := "0xcc0a60" }] := by
  refine ⟨by decide!, by decide!, by decide!⟩

/-- **C23 (as amended).** A leader frame received after the startup pass
(`startupReconcileDone` set) leaves the engine and the manager unchanged and sends nothing;
a leader frame received before it, with the engine enabled, the manager ready and a
projection present, runs `handleIocReconcile` on the projection and sets the flag, so that
at most one leader frame of a session triggers a pass. -/
theorem leader_frame_reconciles_once (h : Heap) (engine : IocEngine) (manager : Manager)
    (copyWd2 : WebData2Message) :
    (engine.startupReconcileDone = true →
      iocOnCopyFrame h engine manager copyWd2
        = some { engine := engine, manager := manager, sent := [] }) ∧
    (∀ positions : GoMap Position,
      engine.startupReconcileDone = false → engine.enabled = true → manager.IsReady = true →
      engine.localPastePositions = some positions →
      iocOnCopyFrame h engine manager copyWd2
        = (handleIocReconcile h manager copyWd2 positions).map
            (fun res => { engine := { engine with localPastePositions := some res.positions,
                                                  startupReconcileDone := true },
                          manager := res.manager, sent := res.sent })) := by
  constructor
  · intro hdone
    unfold iocOnCopyFrame
    rw [if_neg]
    rw [hdone]; simp
  · intro positions hdone hen hready hproj
    unfold iocOnCopyFrame
    rw [if_pos]
    · rw [hproj]
      simp only [Option.getD_some]
      cases handleIocReconcile h manager copyWd2 positions <;> rfl
    · rw [hdone, hen, hready, hproj]; simp

/-- Witness for C23 (as amended): the second and the first leader frame of the example
session. -/
theorem leader_frame_reconciles_once_witness :
    iocOnCopyFrame exLoopHeap exLoopEngine1 exLoopManager2 exLeaderFrame2
        = some { engine := exLoopEngine1, manager := exLoopManager2, sent := [] } ∧
    iocOnCopyFrame exLoopHeap exLoopEngine0 exManager exLeaderFrame
        = (handleIocReconcile exLoopHeap exManager exLeaderFrame []).map
            (fun res => { engine := { exLoopEngine0 with
                                        localPastePositions := some res.positions,
                                        startupReconcileDone := true },
                          manager := res.manager, sent := res.sent }) :=
  ⟨(leader_frame_reconciles_once exLoopHeap exLoopEngine1 exLoopManager2 exLeaderFrame2).1 rfl,
   (leader_frame_reconciles_once exLoopHeap exLoopEngine0 exManager exLeaderFrame).2 []
     rfl rfl (by decide) rfl⟩

/-- Counterexample to C24 as stated: the engine projects +20 of X after its startup pass;
the follower frame that arrives next reports +20 of X with position value 1000, and the
projection is not replaced by the frame's positions-by-coin. -/
theorem follower_frame_keeps_projection :
    iocOnPasteFrame exLoopEngine1 exFollowerFrame2 = exLoopEngine1 ∧
    exLoopEngine1.localPastePositions ≠ some exFollowerFrame2.PositionsByCoin := by
  refine ⟨by decide!, by decide!⟩

/-- **C24 (as amended).** A follower frame sets the projection to its positions-by-coin when
the engine has no projection yet, and leaves the engine unchanged when a projection exists,
whatever the frame reports. -/
theorem follower_frame_sets_projection_once (engine : IocEngine) (pasteWd2 : WebData2Message) :
    (engine.localPastePositions = none →
      iocOnPasteFrame engine pasteWd2
        = { engine with localPastePositions := some pasteWd2.PositionsByCoin }) ∧
    (∀ positions : GoMap Position, engine.localPastePositions = some positions →
      iocOnPasteFrame engine pasteWd2 = engine) := by
  constructor
  · intro hnone
    unfold iocOnPasteFrame
    rw [if_pos hnone]
  · intro positions hsome
    unfold iocOnPasteFrame
    rw [if_neg]
    rw [hsome]; simp

/-- Witness for C24 (as amended): the first follower frame of a session and a later one. -/
theorem follower_frame_sets_projection_once_witness :
    iocOnPasteFrame {} exFollowerFrame2
        = { localPastePositions := some exFollowerFrame2.PositionsByCoin } ∧
    iocOnPasteFrame exLoopEngine1 exFollowerFrame2 = exLoopEngine1 :=
  ⟨(follower_frame_sets_projection_once {} exFollowerFrame2).1 rfl,
   (follower_frame_sets_projection_once exLoopEngine1 exFollowerFrame2).2 _ rfl⟩

/-! ## ALO request filter (C27, C28) and reconnect backoff (C29) -/

/-- The loop body of `processNewAloOrders` skips an ALO order exactly when its rounded
scaled size is zero or its notional (a `float64` product) is at most the minimum notional. -/
theorem aloRequestFor_none_iff (h : Heap) (manager : Manager) (cloid : String)
    (copyOrderAsBase : Order) (htif : copyOrderAsBase.Tif = TifAlo) :
    aloRequestFor h manager cloid copyOrderAsBase = none ↔
      (SizeToFloat (manager.scaleSize h copyOrderAsBase) (manager.Decimals copyOrderAsBase.Coin) = 0
        ∨ fl (SizeToFloat (manager.scaleSize h copyOrderAsBase)
            (manager.Decimals copyOrderAsBase.Coin) * copyOrderAsBase.LimitPx)
          ≤ minNotionalDiff) := by
  simp only [aloRequestFor]
  rw [if_neg (not_not.mpr htif)]
  by_cases hz : SizeToFloat (manager.scaleSize h copyOrderAsBase)
      (manager.Decimals copyOrderAsBase.Coin) = 0
  · rw [if_pos hz]; simp [hz]
  · rw [if_neg hz]
    by_cases hn : fl (SizeToFloat (manager.scaleSize h copyOrderAsBase)
        (manager.Decimals copyOrderAsBase.Coin) * copyOrderAsBase.LimitPx) > minNotionalDiff
    · rw [if_pos hn]; simp [hz, not_le.mpr hn]
    · rw [if_neg hn]; simp [not_lt.mp hn]

/-- Evaluation for C27 at its failing input: in scenario S1 a leader ALO bid of 0.05 X at
100 scales to 0.20 X (the `float64` nearest to 0.2), a notional of exactly 20 in `float64`,
neither zero nor below the minimum, and `processNewAloOrders` builds no request for it. -/
theorem alo_notional_twenty_not_submitted :
    processNewAloOrders exS1Heap (exS1Manager true) [("0xabc", exTwentyOrder)] = [] ∧
    exTwentyOrder.Tif = TifAlo ∧
    SizeToFloat ((exS1Manager true).scaleSize exS1Heap exTwentyOrder)
      ((exS1Manager true).Decimals exTwentyOrder.Coin) = fl (1 / 5) ∧
    fl (SizeToFloat ((exS1Manager true).scaleSize exS1Heap exTwentyOrder)
      ((exS1Manager true).Decimals exTwentyOrder.Coin) * exTwentyOrder.LimitPx)
      = minNotionalDiff := by
  refine ⟨by decide!, by decide!, by decide!, by decide!⟩

/-- Evaluation for C28 at its failing input: the coin Z has no metadata in the asset
registry of the ALO scenario, and `processNewAloOrders` builds the follower request for the
leader's order `0xnew` on Z all the same, which the engine submits on leader frame D. -/
theorem alo_unknown_coin_not_skipped :
    GoMap.contains (exAloManager 1).MetaMap exOrderNew.Coin = false ∧
    processNewAloOrders exAloHeap (exAloManager 1) [("0xnew", exOrderNew)] = [exZedRequest] ∧
    (aloOnCopyFrame exAloHeap {} (exAloManager 1)).map (fun res => res.creates)
      = some [exZedRequest] := by
  refine ⟨by decide!, by decide!, by decide!⟩

/-- Up to 33 failed attempts the delay is the doubled base delay capped at 16 s. -/
theorem reconnectDelay_small :
    ∀ attempt : Nat, attempt < 34 →
      reconnectDelay attempt = min (timeSecond * 2 ^ attempt) (16 * timeSecond) := by
  intro attempt h
  interval_cases attempt <;> decide

/-- From 55 attempts on the shifted base delay is a multiple of 2^64: the delay is 0. -/
theorem reconnectDelay_large (attempt : Nat) (h : 55 ≤ attempt) : reconnectDelay attempt = 0 := by
  obtain ⟨k, rfl⟩ := Nat.exists_eq_add_of_le h
  have h2 : timeSecond * 2 ^ (55 + k) = 2 ^ 64 * (1953125 * 2 ^ k) := by
    rw [pow_add]; unfold timeSecond; ring
  have hs : shlInt64 timeSecond (55 + k) = 0 := by
    unfold shlInt64 wrapInt64
    rw [h2, add_comm, Int.add_mul_emod_self_left]
    norm_num
  unfold reconnectDelay
  simp only [hs]
  unfold timeSecond
  norm_num

/-- Evaluation for C29 at its failing input: at 34 failed attempts the shifted base delay
wraps to a negative number of nanoseconds, below the cap, and is the delay slept; at 55
attempts the delay is 0. Neither is min(1 s x 2^n, 16 s) = 16 s. -/
theorem reconnect_delay_wraps :
    reconnectDelay 34 = -1266874889709551616 ∧
    reconnectDelay 55 = 0 ∧
    min (timeSecond * 2 ^ 34) (16 * timeSecond) = 16000000000 := by
  refine ⟨by decide, by decide, by decide⟩

/-! ## Log ring buffer (C30) -/

/-- The state of the swap loop of `LastN` after `k` swaps: the `k` entries at each end
are exchanged, the middle is untouched. -/
theorem swapEnds_steps (out : List String) :
    ∀ k : Nat, k ≤ out.length / 2 →
      ((List.range k).foldl
          (fun out i => (out.set i (out.getD (out.length - 1 - i) "")).set
            (out.length - 1 - i) (out.getD i "")) out).length = out.length ∧
      ∀ t : Nat, t < out.length →
        ((List.range k).foldl
          (fun out i => (out.set i (out.getD (out.length - 1 - i) "")).set
            (out.length - 1 - i) (out.getD i "")) out)[t]?
          = if t < k ∨ out.length - k ≤ t then out[out.length - 1 - t]? else out[t]? := by
  intro k
  induction k with
  | zero =>
    intro _
    refine ⟨rfl, ?_⟩
    intro t ht
    have hneg : ¬ (t < 0 ∨ out.length - 0 ≤ t) := by omega
    rw [if_neg hneg]; rfl
  | succ k ih =>
    intro hk
    obtain ⟨hlen, hget⟩ := ih (by omega)
    rw [List.range_succ, List.foldl_append]
    simp only [List.foldl_cons, List.foldl_nil]
    generalize (List.range k).foldl
      (fun out i => (out.set i (out.getD (out.length - 1 - i) "")).set
        (out.length - 1 - i) (out.getD i "")) out = L at hlen hget ⊢
    have hkj : k < out.length - 1 - k := by omega
    have hj : out.length - 1 - k < out.length := by omega
    have hLk : L.getD k "" = out.getD k "" := by
      rw [List.getD_eq_getElem?_getD, List.getD_eq_getElem?_getD, hget k (by omega)]
      rw [if_neg (by omega)]
    have hLj : L.getD (out.length - 1 - k) "" = out.getD (out.length - 1 - k) "" := by
      rw [List.getD_eq_getElem?_getD, List.getD_eq_getElem?_getD, hget _ hj]
      rw [if_neg (by omega)]
    refine ⟨by simp [hlen], ?_⟩
    intro t ht
    rw [hlen, hLk, hLj, List.getElem?_set, List.getElem?_set]
    simp only [List.length_set, hlen]
    by_cases h1 : out.length - 1 - k = t
    · rw [if_pos h1, if_pos hj, if_pos (by omega)]
      have : out.length - 1 - t = k := by omega
      rw [this, List.getD_eq_getElem?_getD]
      have hk' : k < out.length := by omega
      rw [List.getElem?_eq_getElem hk']; rfl
    · rw [if_neg h1]
      by_cases h2 : k = t
      · rw [if_pos h2, if_pos (by omega), if_pos (by omega)]
        subst h2
        rw [List.getD_eq_getElem?_getD, List.getElem?_eq_getElem hj]; rfl
      · rw [if_neg h2, hget t ht]
        by_cases h3 : t < k ∨ out.length - k ≤ t
        · rw [if_pos h3, if_pos (by omega)]
        · rw [if_neg h3, if_neg (by omega)]

/-- The swap loop of `LastN` reverses the slice. -/
theorem swapEnds_eq_reverse (out : List String) : swapEnds out = out.reverse := by
  obtain ⟨hlen, hget⟩ := swapEnds_steps out (out.length / 2) le_rfl
  have hlen1 : (swapEnds out).length = out.length := hlen
  have hget1 : ∀ t : Nat, t < out.length → (swapEnds out)[t]?
      = if t < out.length / 2 ∨ out.length - out.length / 2 ≤ t then out[out.length - 1 - t]?
        else out[t]? := hget
  apply List.ext_getElem?
  intro t
  by_cases ht : t < out.length
  · rw [hget1 t ht, List.getElem?_reverse ht]
    by_cases h3 : t < out.length / 2 ∨ out.length - out.length / 2 ≤ t
    · rw [if_pos h3]
    · rw [if_neg h3]
      have : out.length - 1 - t = t := by omega
      rw [this]
  · rw [List.getElem?_eq_none (by omega), List.getElem?_eq_none (by simp; omega)]

/-- The index expression of `LastN` (line 45) for `i` below the capacity. -/
theorem lastN_index (head c i : Nat) (hi : i < c) :
    Int.tmod ((head : Int) - 1 - (i : Int) + (c : Int)) c
      = (((head + c - 1 - i) % c : Nat) : Int) := by
  have h : (head : Int) - 1 - (i : Int) + (c : Int) = ((head + c - 1 - i : Nat) : Int) := by
    omega
  rw [h, ← Int.ofNat_tmod]

/-- The first loop of `LastN` on a buffer as long as its capacity: no index is out of
range, and the entries are gathered from the head backwards. -/
theorem gather_eq (rb : RingBuffer) (hc : rb.capacity ≠ 0) (hlen : rb.data.length = rb.capacity) :
    ∀ (is : List Nat) (out : List String), (∀ i ∈ is, i < rb.capacity) →
      rb.gather is out
        = some (out ++ is.map
            (fun i => rb.data.getD ((rb.head + rb.capacity - 1 - i) % rb.capacity) "")) := by
  intro is
  induction is with
  | nil => intro out _; simp [RingBuffer.gather]
  | cons i rest ih =>
    intro out hall
    have hi : i < rb.capacity := hall i (List.mem_cons_self _ _)
    have hlt : (rb.head + rb.capacity - 1 - i) % rb.capacity < rb.data.length := by
      rw [hlen]; exact Nat.mod_lt _ (Nat.pos_of_ne_zero hc)
    simp only [RingBuffer.gather]
    rw [if_neg hc, lastN_index rb.head rb.capacity i hi]
    simp only [Int.toNat_ofNat]
    rw [if_pos ⟨Int.ofNat_nonneg _, hlt⟩,
      ih _ (fun j hj => hall j (List.mem_cons_of_mem _ hj))]
    simp

/-- A new buffer holds the invariant for no line pushed. -/
theorem NewRingBuffer_holds (c : Nat) (hc : 1 ≤ c) : (NewRingBuffer c).Holds c [] := by
  refine ⟨rfl, by simp [NewRingBuffer], by simp [NewRingBuffer], ?_, ?_⟩
  · simp [NewRingBuffer]; omega
  · intro p hp; simp at hp

/-- `Push` on a buffer that holds the invariant does not panic and keeps the invariant. -/
theorem Push_holds (rb : RingBuffer) (c : Nat) (hc : 1 ≤ c) (ls : List String)
    (hinv : rb.Holds c ls) (line : String) :
    ∃ rb1, rb.Push line = some rb1 ∧ rb1.Holds c (ls ++ [line]) := by
  obtain ⟨hcap, hlen, hhead, hfull, hdata⟩ := hinv
  have hc0 : rb.capacity ≠ 0 := by omega
  have hhlt : rb.head < rb.data.length := by
    rw [hhead, hlen]; exact Nat.mod_lt _ hc
  unfold RingBuffer.Push
  rw [if_pos hhlt]
  simp only [if_neg hc0]
  refine ⟨_, rfl, ?_, ?_, ?_, ?_, ?_⟩
  · exact hcap
  · simp [hlen]
  · simp only [List.length_append, List.length_singleton]
    rw [hhead, hcap, Nat.mod_add_mod]
  · simp only [List.length_append, List.length_singleton]
    rw [hhead, hcap, Nat.mod_add_mod]
    by_cases h0 : (ls.length + 1) % c = 0
    · rw [if_pos h0]
      have hdvd : c ∣ ls.length + 1 := Nat.dvd_of_mod_eq_zero h0
      have : c ≤ ls.length + 1 := Nat.le_of_dvd (by omega) hdvd
      simp [this]
    · rw [if_neg h0, hfull]
      have hne : c ≠ ls.length + 1 := by
        intro h; apply h0; rw [← h]; exact Nat.mod_self c
      by_cases hle : c ≤ ls.length
      · simp [hle, Nat.le_succ_of_le hle]
      · have : ¬ c ≤ ls.length + 1 := by omega
        simp [hle, this]
  · intro p hp hpc
    simp only [List.length_append, List.length_singleton] at hp hpc
    simp only [List.getD_eq_getElem?_getD, List.getElem?_set]
    by_cases hpk : p = ls.length
    · subst hpk
      rw [if_pos hhead, if_pos hhlt, List.getElem?_append_right le_rfl]
      simp
    · have hplt : p < ls.length := by omega
      have hne : ¬ rb.head = p % c := by
        intro h
        rw [hhead] at h
        have h0 := Nat.sub_mod_eq_zero_of_mod_eq h
        have hdvd : c ∣ ls.length - p := Nat.dvd_of_mod_eq_zero h0
        have : c ≤ ls.length - p := Nat.le_of_dvd (by omega) hdvd
        omega
      rw [if_neg hne, List.getElem?_append_left hplt]
      have := hdata p hplt (by omega)
      simpa [List.getD_eq_getElem?_getD] using this

/-- A run of pushes on a buffer that holds the invariant does not panic and keeps it. -/
theorem pushAll_holds (c : Nat) (hc : 1 ≤ c) :
    ∀ (rest : List String) (rb : RingBuffer) (ls : List String), rb.Holds c ls →
      ∃ rb1, rb.pushAll rest = some rb1 ∧ rb1.Holds c (ls ++ rest) := by
  intro rest
  induction rest with
  | nil => intro rb ls hinv; exact ⟨rb, rfl, by simpa using hinv⟩
  | cons line rest ih =>
    intro rb ls hinv
    obtain ⟨rb1, hpush, hinv1⟩ := Push_holds rb c hc ls hinv line
    obtain ⟨rb2, hall, hinv2⟩ := ih rb1 (ls ++ [line]) hinv1
    refine ⟨rb2, ?_, by simpa using hinv2⟩
    simp only [RingBuffer.pushAll, hpush]
    exact hall

/-- `LastN` on a buffer that holds the invariant for the pushed lines `ls`: for `n` of at
least 1 the last `min(n, len ls, c)` lines, oldest first. -/
theorem LastN_of_holds (rb : RingBuffer) (c : Nat) (hc : 1 ≤ c) (ls : List String)
    (hinv : rb.Holds c ls) (n : Int) (hn : 1 ≤ n) :
    rb.LastN n = some (ls.drop (ls.length - min n.toNat (min ls.length c))) := by
  obtain ⟨hcap, hlen, hhead, hfull, hdata⟩ := hinv
  have hsize : (if ¬ rb.full = true then rb.head else rb.capacity) = min ls.length c := by
    by_cases hle : c ≤ ls.length
    · rw [hfull]; simp [hle, hcap]
    · rw [hfull, hhead]
      have hlt : ls.length < c := by omega
      simp [hle, Nat.mod_eq_of_lt hlt]; omega
  unfold RingBuffer.LastN
  rw [if_neg (by omega)]
  simp only [hsize]
  by_cases hs : min ls.length c = 0
  · rw [if_pos hs]
    have h0 : ls.length = 0 := by omega
    have : ls = [] := List.length_eq_zero.mp h0
    subst this; simp
  · rw [if_neg hs]
    have hm : (if n > ((min ls.length c : Nat) : Int) then ((min ls.length c : Nat) : Int)
        else n).toNat = min n.toNat (min ls.length c) := by
      split_ifs <;> omega
    rw [hm]
    generalize hmdef : min n.toNat (min ls.length c) = m
    have hmk : m ≤ ls.length := by omega
    have hmc : m ≤ c := by omega
    have hc0 : rb.capacity ≠ 0 := by omega
    rw [gather_eq rb hc0 (by rw [hlen, hcap]) (List.range m) []
      (fun i hi => by rw [hcap]; have := List.mem_range.mp hi; omega)]
    simp only [List.nil_append, swapEnds_eq_reverse]
    congr 1
    apply List.ext_getElem?
    intro t
    by_cases ht : t < m
    · have hi : m - 1 - t < m := by omega
      rw [List.getElem?_reverse (by simpa using ht)]
      simp only [List.length_map, List.length_range, List.getElem?_map,
        List.getElem?_range hi, Option.map_some', List.getElem?_drop]
      have hidx : (rb.head + rb.capacity - 1 - (m - 1 - t)) % rb.capacity
          = (ls.length - 1 - (m - 1 - t)) % c := by
        rw [hhead, hcap]
        have e1 : ls.length % c + c - 1 - (m - 1 - t)
            = ls.length % c + (c - 1 - (m - 1 - t)) := by omega
        have e2 : ls.length + (c - 1 - (m - 1 - t)) = (ls.length - 1 - (m - 1 - t)) + c := by
          omega
        rw [e1, Nat.mod_add_mod, e2, Nat.add_mod_right]
      have hp : ls.length - 1 - (m - 1 - t) < ls.length := by omega
      rw [hidx, hdata _ hp (by omega), List.getD_eq_getElem?_getD]
      have e3 : ls.length - m + t = ls.length - 1 - (m - 1 - t) := by omega
      rw [e3, List.getElem?_eq_getElem hp]; rfl
    · rw [List.getElem?_eq_none (by simp; omega), List.getElem?_eq_none (by simp; omega)]

/-- **C30.** For a ring buffer of capacity `c` of at least 1 into which the lines `ls` have
been pushed in order, no call panics, `LastN(n)` for `n` of at least 1 is the list of the
last `min(n, len ls, c)` pushed lines, oldest first, and `LastN` is the nil slice when `n`
is at most 0 or when no line has been pushed. -/
theorem lastN_returns_last_pushed (c : Nat) (hc : 1 ≤ c) (ls : List String) (n : Int) :
    ((NewRingBuffer c).pushAll ls).bind (fun rb => rb.LastN n)
      = some (if 1 ≤ n then ls.drop (ls.length - min n.toNat (min ls.length c)) else []) ∧
    (ls = [] → ((NewRingBuffer c).pushAll ls).bind (fun rb => rb.LastN n) = some []) := by
  obtain ⟨rb, hpush, hinv⟩ := pushAll_holds c hc ls (NewRingBuffer c) [] (NewRingBuffer_holds c hc)
  simp only [List.nil_append] at hinv
  have hmain : (some rb).bind (fun rb => rb.LastN n)
      = some (if 1 ≤ n then ls.drop (ls.length - min n.toNat (min ls.length c)) else []) := by
    by_cases hn : 1 ≤ n
    · rw [if_pos hn]; exact LastN_of_holds rb c hc ls hinv n hn
    · rw [if_neg hn]
      simp only [Option.some_bind]
      unfold RingBuffer.LastN
      rw [if_pos (by omega)]
  rw [hpush]
  refine ⟨hmain, ?_⟩
  intro hnil
  rw [hmain]
  subst hnil
  simp

/-- Witness for C30: a buffer of capacity 3 after the five pushes `a` to `e` gives its last
two lines for `n = 2`, and for `n = 7` the three lines it holds. -/
theorem lastN_returns_last_pushed_witness :
    (1 ≤ 3) ∧
    ((NewRingBuffer 3).pushAll ["a", "b", "c", "d", "e"]).bind (fun rb => rb.LastN 2)
      = some ["d", "e"] ∧
    ((NewRingBuffer 3).pushAll ["a", "b", "c", "d", "e"]).bind (fun rb => rb.LastN 7)
      = some ["c", "d", "e"] :=
  ⟨by decide, (lastN_returns_last_pushed 3 (by decide) ["a", "b", "c", "d", "e"] 2).1,
    (lastN_returns_last_pushed 3 (by decide) ["a", "b", "c", "d", "e"] 7).1⟩

/-! ## Price snapping (C25) -/

/-- Rounding with ties to even leaves an integer as it is. -/
theorem roundHalfEven_intCast (n : ℤ) : roundHalfEven (n : ℚ) = n := by
  unfold roundHalfEven
  rw [Int.floor_intCast, sub_self, if_pos (by norm_num)]

/-- A positive number of at most 5 significant decimal digits, `k x 10^j` with
`k < 10^5`, is its own 5-digit representation. -/
theorem toFiveSignificant_fixed_lt (k : ℕ) (j : ℤ) (hk0 : 0 < k) (hk : k < 100000) :
    toFiveSignificant ((k : ℚ) * (10 : ℚ) ^ j) = (k : ℚ) * (10 : ℚ) ^ j := by
  have h10 : (10 : ℚ) ≠ 0 := by norm_num
  have hpos : 0 < (k : ℚ) * (10 : ℚ) ^ j :=
    mul_pos (by exact_mod_cast hk0) (zpow_pos (by norm_num) j)
  have hlog := Int.zpow_log_le_self (b := 10) (by norm_num) hpos
  have hlt : (k : ℚ) * (10 : ℚ) ^ j < (10 : ℚ) ^ (j + 5) := by
    rw [zpow_add₀ h10, mul_comm ((10 : ℚ) ^ j)]
    have : (k : ℚ) < (10 : ℚ) ^ (5 : ℤ) := by
      have h5 : (10 : ℚ) ^ (5 : ℤ) = 100000 := by norm_num
      rw [h5]; exact_mod_cast hk
    exact mul_lt_mul_of_pos_right this (zpow_pos (by norm_num) j)
  have he : Int.log 10 ((k : ℚ) * (10 : ℚ) ^ j) < j + 5 := by
    have h := lt_of_le_of_lt hlog hlt
    push_cast at h
    exact (zpow_lt_zpow_iff_right₀ (by norm_num : (1 : ℚ) < 10)).mp h
  unfold toFiveSignificant
  simp only
  generalize Int.log 10 ((k : ℚ) * (10 : ℚ) ^ j) = e at he
  obtain ⟨t, ht⟩ : ∃ t : ℕ, j = (e - 4) + t := ⟨(j - (e - 4)).toNat, by omega⟩
  have hq : (k : ℚ) * (10 : ℚ) ^ j / (10 : ℚ) ^ (e - 4) = (((k * 10 ^ t : ℕ) : ℤ) : ℚ) := by
    rw [ht, zpow_add₀ h10, zpow_natCast]
    have hne : (10 : ℚ) ^ (e - 4) ≠ 0 := zpow_ne_zero _ h10
    field_simp
    ring
  rw [hq, roundHalfEven_intCast, ht, zpow_add₀ h10, zpow_natCast]
  push_cast
  ring

/-- A positive number `k x 10^j` with `k` at most `10^5` is its own 5-digit
representation. -/
theorem toFiveSignificant_fixed (k : ℕ) (j : ℤ) (hk0 : 0 < k) (hk : k ≤ 100000) :
    toFiveSignificant ((k : ℚ) * (10 : ℚ) ^ j) = (k : ℚ) * (10 : ℚ) ^ j := by
  rcases Nat.lt_or_ge k 100000 with hlt | hge
  · exact toFiveSignificant_fixed_lt k j hk0 hlt
  · have hk5 : k = 100000 := by omega
    have h10 : (10 : ℚ) ≠ 0 := by norm_num
    have e : (k : ℚ) * (10 : ℚ) ^ j = ((1 : ℕ) : ℚ) * (10 : ℚ) ^ (j + 5) := by
      rw [hk5, zpow_add₀ h10]; norm_num; ring
    rw [e]
    exact toFiveSignificant_fixed_lt 1 (j + 5) (by norm_num) (by norm_num)

/-- The 5-digit representation of a positive number is `M x 10^j` with `M` from 0 to
`10^5`. -/
theorem toFiveSignificant_form (x : ℚ) (hx : 0 < x) :
    ∃ (M : ℕ) (j : ℤ), M ≤ 100000 ∧ toFiveSignificant x = (M : ℚ) * (10 : ℚ) ^ j := by
  have h10 : (10 : ℚ) ≠ 0 := by norm_num
  have hup := Int.lt_zpow_succ_log_self (b := 10) (by norm_num) x
  push_cast at hup
  unfold toFiveSignificant
  simp only
  generalize Int.log 10 x = e at hup
  have hpow : 0 < (10 : ℚ) ^ (e - 4) := zpow_pos (by norm_num) _
  have hy0 : 0 < x / (10 : ℚ) ^ (e - 4) := div_pos hx hpow
  have hy1 : x / (10 : ℚ) ^ (e - 4) < 100000 := by
    rw [div_lt_iff₀ hpow]
    have : (100000 : ℚ) * (10 : ℚ) ^ (e - 4) = (10 : ℚ) ^ (e + 1) := by
      have : e + 1 = 5 + (e - 4) := by ring
      rw [this, zpow_add₀ h10]; norm_num
    rw [this]; exact hup
  obtain ⟨hlo, hhi⟩ := roundHalfEven_near (x / (10 : ℚ) ^ (e - 4))
  have hM0 : (0 : ℤ) ≤ roundHalfEven (x / (10 : ℚ) ^ (e - 4)) := by
    have : (-1 : ℚ) < (roundHalfEven (x / (10 : ℚ) ^ (e - 4)) : ℚ) := by linarith
    have : (-1 : ℤ) < roundHalfEven (x / (10 : ℚ) ^ (e - 4)) := by exact_mod_cast this
    omega
  have hM1 : roundHalfEven (x / (10 : ℚ) ^ (e - 4)) ≤ 100000 := by
    have : (roundHalfEven (x / (10 : ℚ) ^ (e - 4)) : ℚ) < 100001 := by linarith
    have : roundHalfEven (x / (10 : ℚ) ^ (e - 4)) < 100001 := by exact_mod_cast this
    omega
  refine ⟨(roundHalfEven (x / (10 : ℚ) ^ (e - 4))).toNat, e - 4, by omega, ?_⟩
  have hcast : (((roundHalfEven (x / (10 : ℚ) ^ (e - 4))).toNat : ℕ) : ℚ)
      = (roundHalfEven (x / (10 : ℚ) ^ (e - 4)) : ℚ) := by
    have := Int.toNat_of_nonneg hM0
    exact_mod_cast this
  rw [hcast]

/-- Rounding `M x 10^j`, `M` at most `10^5`, to `d` decimals gives a number of the same
form. -/
theorem roundDecimals_form (M : ℕ) (j d : ℤ) (hM : M ≤ 100000) :
    ∃ (K : ℕ) (j1 : ℤ), K ≤ 100000 ∧
      roundDecimals ((M : ℚ) * (10 : ℚ) ^ j) d = (K : ℚ) * (10 : ℚ) ^ j1 := by
  have h10 : (10 : ℚ) ≠ 0 := by norm_num
  have hd : (10 : ℚ) ^ d ≠ 0 := zpow_ne_zero _ h10
  have hx : (M : ℚ) * (10 : ℚ) ^ j * (10 : ℚ) ^ d = (M : ℚ) * (10 : ℚ) ^ (j + d) := by
    rw [zpow_add₀ h10]; ring
  unfold roundDecimals
  rw [hx]
  by_cases h : 0 ≤ j + d
  · obtain ⟨t, ht⟩ : ∃ t : ℕ, j + d = t := ⟨(j + d).toNat, by omega⟩
    have hint : (M : ℚ) * (10 : ℚ) ^ (j + d) = (((M * 10 ^ t : ℕ) : ℤ) : ℚ) := by
      rw [ht, zpow_natCast]; push_cast; ring
    refine ⟨M, j, hM, ?_⟩
    rw [hint, mathRound_intCast, ← hint, zpow_add₀ h10]
    field_simp
    ring
  · have hjd : j + d ≤ -1 := by omega
    have hpow : (10 : ℚ) ^ (j + d) ≤ (10 : ℚ) ^ (-1 : ℤ) :=
      zpow_le_zpow_right₀ (by norm_num) hjd
    have hpos : (0 : ℚ) < (10 : ℚ) ^ (j + d) := zpow_pos (by norm_num) _
    have hM0 : (0 : ℚ) ≤ (M : ℚ) := Nat.cast_nonneg M
    have hM1 : (M : ℚ) ≤ 100000 := by exact_mod_cast hM
    have hx0 : (0 : ℚ) ≤ (M : ℚ) * (10 : ℚ) ^ (j + d) := mul_nonneg hM0 hpos.le
    have hx1 : (M : ℚ) * (10 : ℚ) ^ (j + d) ≤ ((10000 : ℤ) : ℚ) := by
      have h1 : (M : ℚ) * (10 : ℚ) ^ (j + d) ≤ 100000 * (10 : ℚ) ^ (-1 : ℤ) :=
        mul_le_mul hM1 hpow hpos.le (by norm_num)
      have h2 : (100000 : ℚ) * (10 : ℚ) ^ (-1 : ℤ) = ((10000 : ℤ) : ℚ) := by norm_num
      rw [h2] at h1; exact h1
    obtain ⟨n, hn⟩ := mathRound_isInt ((M : ℚ) * (10 : ℚ) ^ (j + d))
    have hn0 : (0 : ℤ) ≤ n := by
      have := mathRound_mono hx0
      rw [mathRound_zero, hn] at this
      exact_mod_cast this
    have hn1 : n ≤ 10000 := by
      have := mathRound_mono hx1
      rw [mathRound_intCast, hn] at this
      exact_mod_cast this
    refine ⟨n.toNat, -d, by omega, ?_⟩
    have hcast : ((n.toNat : ℕ) : ℚ) = (n : ℚ) := by
      have := Int.toNat_of_nonneg hn0
      exact_mod_cast this
    rw [hn, hcast, zpow_neg, div_eq_mul_inv]

/-- **C25.** `SnapPrice` is idempotent, for every manager, coin and price: snapping a
snapped price returns it unchanged. A price that is not positive and a price of a coin
without metadata are returned as they are; a price from 100000 is rounded to an integer; any
other price is taken to 5 significant digits and then rounded to `max(0, 6 - size-decimals)`
decimals. -/
theorem SnapPrice_idempotent (manager : Manager) (coinSymbol : String) (originalPrice : ℚ) :
    manager.SnapPrice coinSymbol (manager.SnapPrice coinSymbol originalPrice)
      = manager.SnapPrice coinSymbol originalPrice := by
  have h10 : (10 : ℚ) ≠ 0 := by norm_num
  by_cases hp : originalPrice ≤ 0
  · have h1 : manager.SnapPrice coinSymbol originalPrice = originalPrice := by
      unfold Manager.SnapPrice; rw [if_pos hp]
    rw [h1, h1]
  cases hmeta : GoMap.lookup manager.MetaMap coinSymbol with
  | none =>
    have h1 : manager.SnapPrice coinSymbol originalPrice = originalPrice := by
      unfold Manager.SnapPrice; rw [if_neg hp, hmeta]
    rw [h1, h1]
  | some info =>
    have hbig : ∀ z : ℤ, (100000 : ℚ) ≤ (z : ℚ) →
        manager.SnapPrice coinSymbol (z : ℚ) = (z : ℚ) := by
      intro z hz
      unfold Manager.SnapPrice
      rw [if_neg (by linarith), hmeta]
      simp only
      rw [if_pos hz, mathRound_intCast]
    by_cases hge : originalPrice ≥ 100000
    · have h1 : manager.SnapPrice coinSymbol originalPrice = mathRound originalPrice := by
        unfold Manager.SnapPrice; rw [if_neg hp, hmeta]; simp only; rw [if_pos hge]
      obtain ⟨z, hz⟩ := mathRound_isInt originalPrice
      have hz1 : (100000 : ℚ) ≤ (z : ℚ) := by
        have := mathRound_mono hge
        have h5 : mathRound (100000 : ℚ) = 100000 := by
          have := mathRound_intCast 100000
          push_cast at this; exact this
        rw [h5, hz] at this; exact this
      rw [h1, hz]
      exact hbig z hz1
    · generalize hd : (if 6 - info.SzDecimals < 0 then (0 : ℤ) else 6 - info.SzDecimals) = d
      have h1 : manager.SnapPrice coinSymbol originalPrice
          = roundDecimals (toFiveSignificant originalPrice) d := by
        unfold Manager.SnapPrice; rw [if_neg hp, hmeta]; simp only; rw [if_neg hge, hd]; rfl
      obtain ⟨M, j, hM, hform⟩ := toFiveSignificant_form originalPrice (lt_of_not_le hp)
      obtain ⟨K, j1, hK, hform1⟩ := roundDecimals_form M j d hM
      rw [hform] at h1
      rw [h1]
      generalize hr : roundDecimals ((M : ℚ) * (10 : ℚ) ^ j) d = r at hform1 ⊢
      have hidem : roundDecimals r d = r := by
        rw [← hr]; exact roundDecimals_idem _ _
      by_cases hr0 : r ≤ 0
      · unfold Manager.SnapPrice; rw [if_pos hr0]
      by_cases hr5 : r ≥ 100000
      · have hj1 : 0 ≤ j1 := by
          by_contra hneg
          have hlt : (10 : ℚ) ^ j1 < 1 := by
            have := zpow_lt_zpow_right₀ (by norm_num : (1 : ℚ) < 10) (lt_of_not_le hneg)
            simpa using this
          have hK1 : (K : ℚ) ≤ 100000 := by exact_mod_cast hK
          have hpos : (0 : ℚ) < (10 : ℚ) ^ j1 := zpow_pos (by norm_num) _
          have : (K : ℚ) * (10 : ℚ) ^ j1 < 100000 := by nlinarith [Nat.cast_nonneg (α := ℚ) K]
          rw [← hform1] at this
          linarith
        obtain ⟨t, ht⟩ : ∃ t : ℕ, j1 = t := ⟨j1.toNat, by omega⟩
        have hint : r = (((K * 10 ^ t : ℕ) : ℤ) : ℚ) := by
          rw [hform1, ht, zpow_natCast]; push_cast; ring
        rw [hint] at hr5 ⊢
        exact hbig _ hr5
      · have hK0 : 0 < K := by
          rcases Nat.eq_zero_or_pos K with h0 | h0
          · exfalso; apply hr0; rw [hform1, h0]; simp
          · exact h0
        have hfix : toFiveSignificant r = r := by
          rw [hform1]; exact toFiveSignificant_fixed K j1 hK0 hK
        have h2 : manager.SnapPrice coinSymbol r = roundDecimals (toFiveSignificant r) d := by
          unfold Manager.SnapPrice; rw [if_neg hr0, hmeta]; simp only; rw [if_neg hr5, hd]; rfl
        rw [h2, hfix, hidem]

/-! ## Client-id minting (C26) -/

/-- The digits that `Nat.toDigitsCore` puts in front of its accumulator: at least one,
each the character of a digit below the base, and they are the positional notation of
the number without a leading zero. -/
theorem toDigitsCore_spec (b : Nat) (hb : 2 ≤ b) :
    ∀ (fuel n : Nat) (ds : List Char), n < fuel →
      ∃ pre : List Char, Nat.toDigitsCore b fuel n ds = pre ++ ds ∧ 1 ≤ pre.length ∧
        (∀ c ∈ pre, ∃ d, d < b ∧ c = Nat.digitChar d) ∧
        (∀ (val : Char → Nat), (∀ d, d < b → val (Nat.digitChar d) = d) → ∀ acc : Nat,
          pre.foldl (fun a c => a * b + val c) acc = acc * b ^ pre.length + n) ∧
        n < b ^ pre.length ∧ (n = 0 ∨ b ^ (pre.length - 1) ≤ n) := by
  intro fuel
  induction fuel with
  | zero => intro n ds h; omega
  | succ fuel ih =>
    intro n ds hn
    have hmod : n % b < b := Nat.mod_lt _ (by omega)
    have hdm := Nat.div_add_mod n b
    by_cases h0 : n / b = 0
    · have hnb : n < b := (Nat.div_eq_zero_iff (by omega : 0 < b)).mp h0
      refine ⟨[Nat.digitChar (n % b)], ?_, by simp, ?_, ?_, by simpa using hnb, ?_⟩
      · simp [Nat.toDigitsCore, h0]
      · intro c hc
        simp only [List.mem_singleton] at hc
        exact ⟨n % b, hmod, hc⟩
      · intro val hval acc
        simp [hval _ hnb, Nat.mod_eq_of_lt hnb]
      · simp; omega
    · have hdlt : n / b < n := Nat.div_lt_self (by
        rcases Nat.eq_zero_or_pos n with h | h
        · subst h; simp at h0
        · exact h) (by omega)
      obtain ⟨pre, hpre, hlen, hdig, hval, hup, hlow⟩ :=
        ih (n / b) (Nat.digitChar (n % b) :: ds) (by omega)
      refine ⟨pre ++ [Nat.digitChar (n % b)], ?_, by simp, ?_, ?_, ?_, ?_⟩
      · simp [Nat.toDigitsCore, h0, hpre]
      · intro c hc
        rcases List.mem_append.mp hc with h | h
        · exact hdig c h
        · simp only [List.mem_singleton] at h
          exact ⟨n % b, hmod, h⟩
      · intro val hv acc
        rw [List.foldl_append, hval val hv acc]
        simp only [List.foldl_cons, List.foldl_nil, hv _ hmod, List.length_append,
          List.length_singleton, pow_succ]
        nlinarith [hdm]
      · simp only [List.length_append, List.length_singleton, pow_succ]
        nlinarith [hdm]
      · right
        simp only [List.length_append, List.length_singleton, Nat.add_sub_cancel]
        rcases hlow with h | h
        · exact absurd h h0
        · obtain ⟨t, ht⟩ : ∃ t, pre.length = t + 1 := ⟨pre.length - 1, by omega⟩
          rw [ht] at h ⊢
          simp only [Nat.add_sub_cancel] at h
          rw [pow_succ]
          exact le_trans (Nat.mul_le_mul_right b h) (Nat.div_mul_le_self n b)

/-- The digits of `Nat.toDigits`, read back with a value function that inverts
`Nat.digitChar` below the base, give the number; the number is below the base to the
power of the number of digits, and at least the power below it unless it is 0. -/
theorem toDigits_spec (b : Nat) (hb : 2 ≤ b) (n : Nat) :
    (∀ c ∈ Nat.toDigits b n, ∃ d, d < b ∧ c = Nat.digitChar d) ∧
    (∀ (val : Char → Nat), (∀ d, d < b → val (Nat.digitChar d) = d) → ∀ acc : Nat,
      (Nat.toDigits b n).foldl (fun a c => a * b + val c) acc
        = acc * b ^ (Nat.toDigits b n).length + n) ∧
    n < b ^ (Nat.toDigits b n).length ∧
    (n = 0 ∨ b ^ ((Nat.toDigits b n).length - 1) ≤ n) := by
  obtain ⟨pre, hpre, _, hdig, hval, hup, hlow⟩ := toDigitsCore_spec b hb (n + 1) n [] (by omega)
  have h : Nat.toDigits b n = pre := by
    unfold Nat.toDigits; rw [hpre]; simp
  rw [h]
  exact ⟨hdig, hval, hup, hlow⟩

/-- The value functions invert `Nat.digitChar`. -/
theorem decimalValue_digitChar : ∀ d, d < 10 → decimalValue (Nat.digitChar d) = d := by
  decide

/-- The hexadecimal value function inverts `Nat.digitChar`. -/
theorem hexValue_digitChar : ∀ d, d < 16 → hexValue (Nat.digitChar d) = d := by
  decide

/-- The characters of decimal digits are digits. -/
theorem isDigit_digitChar : ∀ d, d < 10 → (Nat.digitChar d).isDigit = true := by
  decide

/-- `Nat.toDigits 16` is injective. -/
theorem toDigits_hex_injective (m n : Nat) (h : Nat.toDigits 16 m = Nat.toDigits 16 n) :
    m = n := by
  have hm := (toDigits_spec 16 (by norm_num) m).2.1 hexValue hexValue_digitChar 0
  have hn := (toDigits_spec 16 (by norm_num) n).2.1 hexValue hexValue_digitChar 0
  rw [h] at hm
  rw [hm] at hn
  simpa using hn

/-- `IntToHex` is injective on the integers that are not negative. -/
theorem IntToHex_injective (u v : Int) (hu : 0 ≤ u) (hv : 0 ≤ v)
    (h : IntToHex u = IntToHex v) : u = v := by
  unfold IntToHex at h
  rw [if_neg (by omega), if_neg (by omega)] at h
  have h1 : ("0x" ++ String.mk (Nat.toDigits 16 u.natAbs)).data
      = ("0x" ++ String.mk (Nat.toDigits 16 v.natAbs)).data := by rw [h]
  simp only [String.data_append] at h1
  have h2 := List.append_cancel_left h1
  have h3 := toDigits_hex_injective _ _ h2
  omega

/-- The number of decimal digits of a number below `10^15` is at most 15. -/
theorem toDigits_length_le (n : Nat) (hn : n < 10 ^ 15) : (Nat.toDigits 10 n).length ≤ 15 := by
  rcases (toDigits_spec 10 (by norm_num) n).2.2.2 with h0 | hlow
  · subst h0; decide
  · by_contra hlen
    have h16 : 15 ≤ (Nat.toDigits 10 n).length - 1 := by omega
    have := Nat.pow_le_pow_right (by norm_num : 0 < 10) h16
    omega

/-- `strconv.Atoi` on `1337` followed by the decimal digits of a seed from 0 to below
`10^15`: no error, and the value is `1337 x 10^digits + seed`. -/
theorem Atoi_prefixed (n : Nat) (hn : n < 10 ^ 15) :
    Atoi ("1337" ++ toString (n : Int)) = 1337 * 10 ^ (Nat.toDigits 10 n).length + n := by
  obtain ⟨hdig, hval, hup, -⟩ := toDigits_spec 10 (by norm_num) n
  have hlen := toDigits_length_le n hn
  have hs : "1337" ++ toString (n : Int)
      = String.mk ('1' :: '3' :: '3' :: '7' :: Nat.toDigits 10 n) := rfl
  have hall : (Nat.toDigits 10 n).all Char.isDigit = true := by
    rw [List.all_eq_true]
    intro c hc
    obtain ⟨d, hd, rfl⟩ := hdig c hc
    exact isDigit_digitChar d hd
  have hnat : (String.mk ('1' :: '3' :: '3' :: '7' :: Nat.toDigits 10 n)).toNat?
      = some (1337 * 10 ^ (Nat.toDigits 10 n).length + n) := by
    unfold String.toNat? String.isNat
    rw [String.all_eq, String.foldl_eq]
    have hne : (String.mk ('1' :: '3' :: '3' :: '7' :: Nat.toDigits 10 n)).isEmpty = false := by
      simp [String.isEmpty, String.endPos, String.utf8ByteSize, String.utf8ByteSize.go,
        String.Pos.ext_iff, Char.utf8Size]
    rw [hne]
    have hall2 : ('1' :: '3' :: '3' :: '7' :: Nat.toDigits 10 n).all (fun x => x.isDigit)
        = true := by
      simp only [List.all_cons, hall]; decide
    simp only [hall2, Bool.not_false, Bool.and_self, if_true]
    have := hval decimalValue decimalValue_digitChar 1337
    simp only [List.foldl_cons]
    exact congrArg some this
  have hget : (String.mk ('1' :: '3' :: '3' :: '7' :: Nat.toDigits 10 n)).get 0 = '1' := rfl
  unfold Atoi
  rw [hs]
  unfold String.toInt?
  rw [hget, if_neg (by decide), hnat]
  simp only [Option.map_eq_map, Option.map_some']
  have hpow : 10 ^ (Nat.toDigits 10 n).length ≤ 10 ^ 15 :=
    Nat.pow_le_pow_right (by norm_num) hlen
  have hpowz : ((10 : Int) ^ (Nat.toDigits 10 n).length) ≤ 10 ^ 15 := by exact_mod_cast hpow
  have hnz : (n : Int) < 10 ^ 15 := by exact_mod_cast hn
  have hpos : (0 : Int) ≤ 10 ^ (Nat.toDigits 10 n).length := by positivity
  have hv : Int.ofNat (1337 * 10 ^ (Nat.toDigits 10 n).length + n)
      = 1337 * 10 ^ (Nat.toDigits 10 n).length + (n : Int) := by
    simp
  rw [hv]
  generalize (10 : Int) ^ (Nat.toDigits 10 n).length = P at hpowz hpos
  rw [min_eq_left (by norm_num at hpowz hnz ⊢; omega), max_eq_right (by norm_num; omega)]

/-- The number `1337 x 10^digits + n` determines `n`, the digits being the number of
decimal digits of `n`. -/
theorem prefixed_injective (m n : Nat)
    (h : 1337 * 10 ^ (Nat.toDigits 10 m).length + m = 1337 * 10 ^ (Nat.toDigits 10 n).length + n) :
    m = n := by
  have hm := (toDigits_spec 10 (by norm_num) m).2.2.1
  have hn := (toDigits_spec 10 (by norm_num) n).2.2.1
  rcases Nat.lt_trichotomy (Nat.toDigits 10 m).length (Nat.toDigits 10 n).length with hlt | heq | hgt
  · have hp : 10 ^ ((Nat.toDigits 10 m).length + 1) ≤ 10 ^ (Nat.toDigits 10 n).length :=
      Nat.pow_le_pow_right (by norm_num) hlt
    rw [pow_succ] at hp
    omega
  · rw [heq] at h; omega
  · have hp : 10 ^ ((Nat.toDigits 10 n).length + 1) ≤ 10 ^ (Nat.toDigits 10 m).length :=
      Nat.pow_le_pow_right (by norm_num) hgt
    rw [pow_succ] at hp
    omega

/-- Counterexample to C26 as stated: the seeds -1 and -2 are distinct and get the same
client-id, the id of 0, the string `1337-1` not being a number; so do the seeds `10^15` and
`10^15 + 1`, whose prefixed number exceeds the 64-bit range. -/
theorem mint_cloid_collision :
    (-1 : Int) ≠ -2 ∧
    Manager.NewPasteIocCloid {} (-1) = Manager.NewPasteIocCloid {} (-2) ∧
    Manager.NewPasteIocCloid {} (-1) = "0x0" ∧
    Manager.NewPasteIocCloid {} 1000000000000000 = Manager.NewPasteIocCloid {} 1000000000000001 ∧
    Manager.NewPasteIocCloid {} 1000000000000000 = "0x7fffffffffffffff" := by
  refine ⟨by decide, by decide!, by decide!, by decide!, by decide!⟩

/-- **C26 (as amended).** On the seeds from 0 to below `10^15` the minted client-id is the
hex encoding of the integer whose decimal digits are 1337 followed by the decimal digits of
the seed, and two distinct seeds get distinct client-ids. -/
theorem mint_cloid_injective (manager : Manager) (s1 s2 : Int)
    (h1 : 0 ≤ s1 ∧ s1 < 10 ^ 15) (h2 : 0 ≤ s2 ∧ s2 < 10 ^ 15) (hne : s1 ≠ s2) :
    manager.NewPasteIocCloid s1 ≠ manager.NewPasteIocCloid s2 ∧
    manager.NewPasteIocCloid s1 = IntToHex (1337 * 10 ^ decimalLength s1 + s1) := by
  have hval : ∀ s : Int, 0 ≤ s ∧ s < 10 ^ 15 →
      manager.NewPasteIocCloid s = IntToHex (1337 * 10 ^ decimalLength s + s) := by
    intro s hs
    obtain ⟨n, rfl⟩ : ∃ n : Nat, s = n := ⟨s.toNat, by omega⟩
    have hn : n < 10 ^ 15 := by exact_mod_cast hs.2
    unfold Manager.NewPasteIocCloid decimalLength
    simp only [Atoi_prefixed n hn, Int.toNat_ofNat]
  refine ⟨?_, hval s1 h1⟩
  intro heq
  rw [hval s1 h1, hval s2 h2] at heq
  obtain ⟨n1, rfl⟩ : ∃ n : Nat, s1 = n := ⟨s1.toNat, by omega⟩
  obtain ⟨n2, rfl⟩ : ∃ n : Nat, s2 = n := ⟨s2.toNat, by omega⟩
  have h := IntToHex_injective _ _ (by positivity) (by positivity) heq
  unfold decimalLength at h
  simp only [Int.toNat_ofNat] at h
  have h' : 1337 * 10 ^ (Nat.toDigits 10 n1).length + n1
      = 1337 * 10 ^ (Nat.toDigits 10 n2).length + n2 := by exact_mod_cast h
  exact hne (by rw [prefixed_injective n1 n2 h'])

/-- Witness for C26 (as amended): the seeds 7 (a venue order id) and 1000 (a clearinghouse
time) get the client-ids `0x3441` and `0xcc0678`. -/
theorem mint_cloid_injective_witness :
    ((0 : Int) ≤ 7 ∧ (7 : Int) < 10 ^ 15) ∧ ((0 : Int) ≤ 1000 ∧ (1000 : Int) < 10 ^ 15) ∧
    (7 : Int) ≠ 1000 ∧
    Manager.NewPasteIocCloid {} 7 ≠ Manager.NewPasteIocCloid {} 1000 ∧
    Manager.NewPasteIocCloid {} 7 = IntToHex (1337 * 10 ^ decimalLength 7 + 7) :=
  ⟨by decide, by decide, by decide,
    mint_cloid_injective {} 7 1000 (by decide) (by decide) (by decide)⟩

/-- The decimal exponent of the leading digit of a positive number. -/
theorem log_ten_eq (x : ℚ) (e : ℤ) (hlo : (10 : ℚ) ^ e ≤ x) (hhi : x < (10 : ℚ) ^ (e + 1)) :
    Int.log 10 x = e := by
  have hx : 0 < x := lt_of_lt_of_le (zpow_pos (by norm_num) e) hlo
  apply le_antisymm
  · have h := (Int.lt_zpow_iff_log_lt (b := 10) (by norm_num) hx).mp (by push_cast; exact hhi)
    omega
  · exact (Int.zpow_le_iff_le_log (b := 10) (by norm_num) hx).mp (by push_cast; exact hlo)

/-- The 5-digit representation of a number between `10^e` and `10^(e+1)`: the number in
units of `10^(e-4)`, rounded to an integer with ties to even. -/
theorem toFiveSignificant_eq (x : ℚ) (e : ℤ) (hlo : (10 : ℚ) ^ e ≤ x)
    (hhi : x < (10 : ℚ) ^ (e + 1)) :
    toFiveSignificant x = (roundHalfEven (x / (10 : ℚ) ^ (e - 4)) : ℚ) * (10 : ℚ) ^ (e - 4) := by
  unfold toFiveSignificant
  rw [log_ten_eq x e hlo hhi]

/-- `SnapPrice` on the example manager (size-decimals 2, so 4 price decimals): 12345.678
becomes 12346, and 0.0123456 becomes 0.012346 and then 0.0123. -/
theorem SnapPrice_examples :
    exManager.SnapPrice "X" (12345678 / 1000) = 12346 ∧
    exManager.SnapPrice "X" (123456 / 10000000) = 123 / 10000 := by
  have h1 : toFiveSignificant (12345678 / 1000) = 12346 := by
    rw [toFiveSignificant_eq _ 4 (by norm_num) (by norm_num)]
    norm_num [roundHalfEven]
  have h2 : toFiveSignificant (123456 / 10000000) = 12346 / 1000000 := by
    rw [toFiveSignificant_eq _ (-2) (by norm_num) (by norm_num)]
    norm_num [roundHalfEven]
  have hmeta : GoMap.lookup exManager.MetaMap "X" = some { SzDecimals := 2, AssetID := 0 } := by
    decide
  constructor
  · unfold Manager.SnapPrice
    rw [if_neg (by norm_num), hmeta]
    simp only
    rw [if_neg (by norm_num), h1]
    norm_num [mathRound]
  · unfold Manager.SnapPrice
    rw [if_neg (by norm_num), hmeta]
    simp only
    rw [if_neg (by norm_num), h2]
    norm_num [mathRound]

end CopyBot
